import Mathlib

/-!
vibedetector: a verification development

A shallow embedding of `main.go` (the registry `tools`, the detector
`detectTools`, the four renderers and the driver `main`) together with
theorems about it.

Conventions of the embedding

* A Go `string` is a sequence of bytes: `Str := List Nat`, each element a
  byte value.  `len` is `List.length`, `+` is `++`, `<` is byte-wise
  lexicographic comparison (`stringsCompare`).
* A Go slice is a `List`; `append(s, x)` is `s ++ [x]`.
* The functions of Go's `path/filepath` the program calls are arguments of
  the functions that call them (`join` for `filepath.Join`, `rel` for
  `filepath.Rel`), so every theorem holds for whatever these return.
  `joinUnix` and `relUnix` are concrete instances used to evaluate examples.
* The filesystem is a function from a path to what `os.Stat` reports there.
-/

namespace Vibedetector

/-! ## Strings -/

/-- A Go string: its bytes. -/
abbrev Str := List Nat

/-- The bytes of an ASCII literal of the source. -/
def bytes (s : String) : Str := s.toList.map Char.toNat

/-- Go's `strings.Compare` (and the built-in string ordering): byte-wise
lexicographic, a proper prefix being smaller. -/
def stringsCompare : Str → Str → Int
  | [], [] => 0
  | [], _ :: _ => -1
  | _ :: _, [] => 1
  | a :: as, b :: bs =>
    if a < b then -1 else if b < a then 1 else stringsCompare as bs

/-- The built-in `a < b` on strings. -/
def strLess (a b : Str) : Bool := decide (stringsCompare a b < 0)

/-- Go's `strings.Join(elems, sep)`. -/
def stringsJoin : List Str → Str → Str
  | [], _ => []
  | [a], _ => a
  | a :: b :: rest, sep => a ++ sep ++ stringsJoin (b :: rest) sep

/-! ## Data model (`main.go` lines 15-29) -/

/-- Tool represents an AI coding assistant configuration. -/
structure Tool where
  Name : Str
  Description : Str
  URL : Str
  Files : List Str
  Directories : List Str
  deriving DecidableEq, Repr

/-- Detection represents a detected configuration file or directory.  The Go
field `Tool *Tool` points into the registry and is only ever dereferenced, so
it is modelled by the `Tool` value it points to. -/
structure Detection where
  Tool : Tool
  Path : Str
  IsDirectory : Bool
  deriving DecidableEq, Repr

/-! ## Registry (`main.go` lines 32-166) -/

/-- The registry: all supported AI coding tools and their configuration
files, in source order. -/
def tools : List Tool := [
  { Name := bytes "Claude Code",
    Description := bytes "Anthropic's CLI for Claude",
    URL := bytes "https://claude.ai/code",
    Files := [bytes "CLAUDE.md"],
    Directories := [bytes ".claude"] },
  { Name := bytes "Cursor",
    Description := bytes "AI-powered code editor",
    URL := bytes "https://cursor.com",
    Files := [bytes ".cursorrules"],
    Directories := [bytes ".cursor"] },
  { Name := bytes "Windsurf",
    Description := bytes "Codeium's AI IDE",
    URL := bytes "https://codeium.com/windsurf",
    Files := [bytes ".windsurfrules"],
    Directories := [bytes ".windsurf"] },
  { Name := bytes "GitHub Copilot",
    Description := bytes "GitHub's AI pair programmer",
    URL := bytes "https://github.com/features/copilot",
    Files := [bytes ".github/copilot-instructions.md"],
    Directories := [] },
  { Name := bytes "Aider",
    Description := bytes "AI pair programming in your terminal",
    URL := bytes "https://aider.chat",
    Files := [bytes ".aider.conf.yml", bytes ".aiderignore", bytes "CONVENTIONS.md"],
    Directories := [bytes ".aider"] },
  { Name := bytes "Cline",
    Description := bytes "AI coding assistant for VS Code",
    URL := bytes "https://github.com/cline/cline",
    Files := [bytes ".clinerules"],
    Directories := [bytes ".clinerules"] },
  { Name := bytes "Zed",
    Description := bytes "Zed editor AI configuration",
    URL := bytes "https://zed.dev",
    Files := [],
    Directories := [bytes ".zed"] },
  { Name := bytes "Continue.dev",
    Description := bytes "Open-source AI code assistant",
    URL := bytes "https://continue.dev",
    Files := [],
    Directories := [bytes ".continue"] },
  { Name := bytes "Kiro",
    Description := bytes "AWS agentic AI IDE",
    URL := bytes "https://kiro.dev",
    Files := [],
    Directories := [bytes ".kiro"] },
  { Name := bytes "Gemini CLI",
    Description := bytes "Google's Gemini Code Assist",
    URL := bytes "https://developers.google.com/gemini-code-assist",
    Files := [bytes "GEMINI.md", bytes "AGENT.md"],
    Directories := [bytes ".gemini"] },
  { Name := bytes "AGENTS.md Standard",
    Description := bytes "Proposed cross-tool agent rules standard",
    URL := bytes "https://github.com/anthropics/agent-rules",
    Files := [bytes "AGENTS.md"],
    Directories := [] },
  { Name := bytes "Bolt",
    Description := bytes "StackBlitz AI full-stack development",
    URL := bytes "https://bolt.new",
    Files := [bytes ".bolt"],
    Directories := [bytes ".bolt"] },
  { Name := bytes "Replit Agent",
    Description := bytes "Replit's AI coding agent",
    URL := bytes "https://replit.com",
    Files := [bytes ".replit"],
    Directories := [bytes ".replit"] },
  { Name := bytes "Codex CLI",
    Description := bytes "OpenAI's coding agent CLI",
    URL := bytes "https://github.com/openai/codex",
    Files := [bytes "codex.md"],
    Directories := [bytes ".codex"] },
  { Name := bytes "Tabnine",
    Description := bytes "AI code completion assistant",
    URL := bytes "https://tabnine.com",
    Files := [bytes ".tabnine.json", bytes "tabnine.yaml"],
    Directories := [bytes ".tabnine"] },
  { Name := bytes "Amazon Q Developer",
    Description := bytes "AWS AI coding assistant",
    URL := bytes "https://aws.amazon.com/q/developer/",
    Files := [],
    Directories := [bytes ".amazonq", bytes ".q"] },
  { Name := bytes "Sourcegraph Cody",
    Description := bytes "Sourcegraph's AI coding assistant",
    URL := bytes "https://sourcegraph.com/cody",
    Files := [bytes ".cody.json", bytes "cody.json"],
    Directories := [bytes ".cody"] },
  { Name := bytes "Augment Code",
    Description := bytes "Enterprise AI coding assistant",
    URL := bytes "https://augmentcode.com",
    Files := [],
    Directories := [bytes ".augment"] },
  { Name := bytes "Supermaven",
    Description := bytes "AI code completion with large context",
    URL := bytes "https://supermaven.com",
    Files := [],
    Directories := [bytes ".supermaven"] }
]

/-! ## Filesystem -/

/-- What `os.Stat(path)` reports: an error (the path is absent or cannot be
examined), an entry that is not a directory, or a directory. -/
inductive FsEntry where
  | absent
  | file
  | dir
  deriving DecidableEq, Repr

/-- The test `err == nil` on the result of `os.Stat`. -/
def FsEntry.statOk : FsEntry → Bool
  | .absent => false
  | _ => true

/-- The method `info.IsDir()` on the result of `os.Stat`. -/
def FsEntry.IsDir : FsEntry → Bool
  | .dir => true
  | _ => false

/-! ## Detector (`main.go` lines 168-202) -/

/-- The loop over `tool.Files` in `detectTools`: appends one Detection for
every candidate whose joined path stats without error as a non-directory. -/
def detectFiles (join : Str → Str → Str) (fs : Str → FsEntry) (directory : Str)
    (tool : Tool) (detections : List Detection) : List Detection :=
  tool.Files.foldl (fun detections file =>
    let path := join directory file
    let info := fs path
    if info.statOk && !info.IsDir then
      detections ++ [{ Tool := tool, Path := path, IsDirectory := false }]
    else detections) detections

/-- The loop over `tool.Directories` in `detectTools`. -/
def detectDirectories (join : Str → Str → Str) (fs : Str → FsEntry) (directory : Str)
    (tool : Tool) (detections : List Detection) : List Detection :=
  tool.Directories.foldl (fun detections dir =>
    let path := join directory dir
    let info := fs path
    if info.statOk && info.IsDir then
      detections ++ [{ Tool := tool, Path := path, IsDirectory := true }]
    else detections) detections

/-- The function `detectTools`: the pair `(detections, err)` it returns is an
`Except`, the error being the message. -/
def detectTools (join : Str → Str → Str) (fs : Str → FsEntry) (directory : Str) :
    Except Str (List Detection) :=
  let detections := tools.foldl (fun detections tool =>
    let detections := detectFiles join fs directory tool detections
    detectDirectories join fs directory tool detections) []
  .ok detections

/-- The list the detector is specified to return: registry order, per tool the
file candidates that are non-directories, then the directory candidates that
are directories. -/
def detectSpec (join : Str → Str → Str) (fs : Str → FsEntry) (directory : Str) :
    List Detection :=
  tools.flatMap (fun tool =>
    ((tool.Files.filter (fun f => fs (join directory f) = .file)).map
        (fun f => { Tool := tool, Path := join directory f, IsDirectory := false })) ++
    ((tool.Directories.filter (fun n => fs (join directory n) = .dir)).map
        (fun n => { Tool := tool, Path := join directory n, IsDirectory := true })))

/-! ## Library functions: sorting, maps, formatting -/

/-- The inner loop of Go's insertion sort (`insertionSortOrdered`,
`insertionSortCmpFunc`): the element `x` at position `i` is swapped leftwards
while it is less than its left neighbour.  The prefix `data[a:i]` is given
reversed, nearest neighbour first, and returned reversed. -/
def insertLeft {α : Type} (less : α → α → Bool) (x : α) : List α → List α
  | [] => [x]
  | y :: ys => if less x y then y :: insertLeft less x ys else x :: y :: ys

/-- Go's insertion sort: for `i` from left to right, `data[i]` is inserted into
the prefix before it.  `slices.Sort` and `slices.SortFunc` run exactly this on
slices of at most 12 elements; on longer slices they use other strategies of
pattern-defeating quicksort, whose result is the same sorted permutation
whenever no two elements compare equal (for strings: `strictSorted_unique`). -/
def insertionSort {α : Type} (less : α → α → Bool) (data : List α) : List α :=
  (data.foldl (fun sortedRev x => insertLeft less x sortedRev) []).reverse

/-- Go's `slices.Sort` on a slice of strings. -/
def slicesSort (x : List Str) : List Str := insertionSort strLess x

/-- Go's `slices.SortFunc(x, cmp)`: `a` goes before `b` when `cmp(a, b) < 0`. -/
def slicesSortFunc {α : Type} (cmp : α → α → Int) (x : List α) : List α :=
  insertionSort (fun a b => decide (cmp a b < 0)) x

/-- A Go `map[string]V` as an association list with distinct keys. -/
abbrev GoMap (ν : Type) := List (Str × ν)

/-- The lookup `v, exists := m[k]`: `none` when the key is not in the map. -/
def GoMap.get {ν : Type} : GoMap ν → Str → Option ν
  | [], _ => none
  | (k', v) :: rest, k => if k' = k then some v else GoMap.get rest k

/-- The assignment `m[k] = v`. -/
def GoMap.set {ν : Type} : GoMap ν → Str → ν → GoMap ν
  | [], k, v => [(k, v)]
  | (k', v') :: rest, k, v =>
    if k' = k then (k, v) :: rest else (k', v') :: GoMap.set rest k v

/-- The keys of a map, in the order of first assignment.  A Go `range` over
the map visits them in an unspecified order. -/
def GoMap.keys {ν : Type} (m : GoMap ν) : List Str := m.map Prod.fst

/-- The number of bytes of the UTF-8 encoded rune that starts with byte `c`
and continues with `rest`; 1 for an invalid or short encoding (the tables
`first` and `acceptRanges` of Go's `unicode/utf8`). -/
def runeSize (c : Nat) (rest : Str) : Nat :=
  if c < 0xC2 then 1
  else if c ≤ 0xDF then
    match rest with
    | c1 :: _ => if c1 < 0x80 ∨ 0xBF < c1 then 1 else 2
    | _ => 1
  else if c ≤ 0xEF then
    let lo := if c = 0xE0 then 0xA0 else 0x80
    let hi := if c = 0xED then 0x9F else 0xBF
    match rest with
    | c1 :: c2 :: _ =>
      if c1 < lo ∨ hi < c1 then 1 else if c2 < 0x80 ∨ 0xBF < c2 then 1 else 3
    | _ => 1
  else if c ≤ 0xF4 then
    let lo := if c = 0xF0 then 0x90 else 0x80
    let hi := if c = 0xF4 then 0x8F else 0xBF
    match rest with
    | c1 :: c2 :: c3 :: _ =>
      if c1 < lo ∨ hi < c1 then 1 else if c2 < 0x80 ∨ 0xBF < c2 then 1
      else if c3 < 0x80 ∨ 0xBF < c3 then 1 else 4
    | _ => 1
  else 1

/-- The loop of `utf8.RuneCountInString`; `skip` is the number of bytes still
belonging to the rune counted last. -/
def runeCountFrom : Nat → Str → Nat
  | _, [] => 0
  | 0, c :: rest => 1 + runeCountFrom (runeSize c rest - 1) rest
  | skip + 1, _ :: rest => runeCountFrom skip rest

/-- Go's `utf8.RuneCountInString`. -/
def runeCountInString (s : Str) : Nat := runeCountFrom 0 s

/-- The verb `%-22s` of `fmt.Sprintf`: the string, then spaces up to a width
of 22 runes (`fmt.padString` with the minus flag). -/
def sprintfLeft22 (s : Str) : Str :=
  s ++ List.replicate (22 - runeCountInString s) 32

/-- Go's `strings.ToLower` on ASCII strings: `A`..`Z` become `a`..`z`.  (On
strings with bytes of 128 and above Go lowercases rune by rune; every string
the program passes to it is a registry name, and those are ASCII.) -/
def stringsToLower (s : Str) : Str :=
  s.map (fun c => if 65 ≤ c ∧ c ≤ 90 then c + 32 else c)

/-! ## Presenter: grouped text (`main.go` lines 204-246) -/

/-- The body of the grouping loop that `formatPlain` (lines 216-221) and
`formatJSON` (lines 280-285) both contain; the state is the map `toolsFound`
and the slice `toolOrder`.  A lookup of a missing key gives the nil slice. -/
def groupStep (state : GoMap (List Detection) × List Str) (d : Detection) :
    GoMap (List Detection) × List Str :=
  let toolsFound := state.1
  let toolOrder := state.2
  let toolOrder :=
    if (toolsFound.get d.Tool.Name).isSome then toolOrder else toolOrder ++ [d.Tool.Name]
  let toolsFound :=
    toolsFound.set d.Tool.Name ((toolsFound.get d.Tool.Name).getD [] ++ [d])
  (toolsFound, toolOrder)

/-- The grouping loop of `formatPlain` and `formatJSON`: `toolsFound` maps a
tool name to its detections in order of occurrence, `toolOrder` lists the
names in order of first occurrence. -/
def groupByTool (detections : List Detection) : GoMap (List Detection) × List Str :=
  detections.foldl groupStep ([], [])

/-- The body of the inner loop of `formatPlain` (lines 234-241): the line of
one detection.  `rel` is `filepath.Rel`, returning the string and whether the
error is non-nil; the error is discarded. -/
def plainEntry (rel : Str → Str → Str × Bool) (directory : Str) (d : Detection) : Str :=
  let relPath := (rel directory d.Path).1
  let icon := if d.IsDirectory then bytes "dir " else bytes "file"
  bytes "      [" ++ icon ++ bytes "] " ++ relPath ++ bytes "\n"

/-- The body of the outer loop of `formatPlain` (lines 225-243), writing one
group to the builder `sb`; `none` is the index-out-of-range panic of
`toolDetections[0]`. -/
def plainGroup (rel : Str → Str → Str × Bool) (directory : Str)
    (toolsFound : GoMap (List Detection)) (sb : Str) (toolName : Str) : Option Str :=
  let toolDetections := (toolsFound.get toolName).getD []
  match toolDetections with
  | [] => none
  | d0 :: _ =>
    let tool := d0.Tool
    let sb := sb ++ (bytes "  " ++ tool.Name ++ bytes "\n")
    let sb := sb ++ (bytes "    " ++ tool.Description ++ bytes "\n")
    let sb := sb ++ (bytes "    " ++ tool.URL ++ bytes "\n")
    let sb := sb ++ bytes "    Files:\n"
    let sb := toolDetections.foldl (fun sb d => sb ++ plainEntry rel directory d) sb
    some (sb ++ bytes "\n")

/-- The function `formatPlain`; `none` is a panic. -/
def formatPlain (rel : Str → Str → Str × Bool) (detections : List Detection)
    (directory : Str) : Option Str :=
  if detections.length = 0 then
    some (bytes "No AI coding tool configurations detected in " ++ directory)
  else
    let sb := bytes "AI coding tools detected in " ++ directory ++ bytes ":\n\n"
    let grouped := groupByTool detections
    let toolsFound := grouped.1
    let toolOrder := slicesSort grouped.2
    toolOrder.foldlM (plainGroup rel directory toolsFound) sb

/-! ## Presenter: structured document (`main.go` lines 248-317) -/

/-- JSONPathData represents a path in JSON output.  The Go field `Type` is
named `Type_` here. -/
structure JSONPathData where
  Path : Str
  Type_ : Str
  deriving DecidableEq, Repr

/-- JSONToolData represents a tool in JSON output.  A slice that is encoded to
JSON is an `Option (List _)`, `none` being the nil slice (encoded `null`) and
`some []` the empty non-nil slice (encoded `[]`). -/
structure JSONToolData where
  Name : Str
  Description : Str
  URL : Str
  Paths : Option (List JSONPathData)
  deriving DecidableEq, Repr

/-- JSONOutput represents the JSON output format. -/
structure JSONOutput where
  Directory : Str
  Detected : Bool
  Tools : Option (List JSONToolData)
  deriving DecidableEq, Repr

/-- Go's `append(s, x)` on a slice that may be nil: the result is never nil. -/
def sliceAppend {α : Type} (s : Option (List α)) (x : α) : Option (List α) :=
  some (s.getD [] ++ [x])

/-- The body of the inner loop of `formatJSON` (lines 300-310): the entry of
one detection. -/
def jsonPathData (rel : Str → Str → Str × Bool) (directory : Str) (d : Detection) :
    JSONPathData :=
  let relPath := (rel directory d.Path).1
  let pathType := if d.IsDirectory then bytes "directory" else bytes "file"
  { Path := relPath, Type_ := pathType }

/-- The body of the outer loop of `formatJSON` (lines 289-313), appending one
tool to `output.Tools`; `none` is the index-out-of-range panic of
`toolDetections[0]`. -/
def jsonTool (rel : Str → Str → Str × Bool) (directory : Str)
    (toolsFound : GoMap (List Detection)) (output : JSONOutput) (toolName : Str) :
    Option JSONOutput :=
  let toolDetections := (toolsFound.get toolName).getD []
  match toolDetections with
  | [] => none
  | d0 :: _ =>
    let tool := d0.Tool
    let toolData : JSONToolData :=
      { Name := tool.Name, Description := tool.Description, URL := tool.URL, Paths := some [] }
    let toolData := toolDetections.foldl (fun (toolData : JSONToolData) d =>
      { toolData with Paths := sliceAppend toolData.Paths (jsonPathData rel directory d) })
      toolData
    some { output with Tools := sliceAppend output.Tools toolData }

/-- The value `output` that `formatJSON` hands to `json.MarshalIndent` (lines
270-313); `none` is a panic. -/
def formatJSONOutput (rel : Str → Str → Str × Bool) (detections : List Detection)
    (directory : Str) : Option JSONOutput :=
  let output : JSONOutput :=
    { Directory := directory, Detected := decide (detections.length > 0), Tools := some [] }
  let grouped := groupByTool detections
  let toolsFound := grouped.1
  let toolOrder := slicesSort grouped.2
  toolOrder.foldlM (jsonTool rel directory toolsFound) output

/-- The function `formatJSON`.  `marshalIndent` is `json.MarshalIndent(_, "",
"  ")`, returning the bytes and whether the error is non-nil; the error is
discarded. -/
def formatJSON (marshalIndent : JSONOutput → Str × Bool) (rel : Str → Str → Str × Bool)
    (detections : List Detection) (directory : Str) : Option Str :=
  (formatJSONOutput rel detections directory).map (fun output => (marshalIndent output).1)

/-! ## Presenter: compact (`main.go` lines 319-336) -/

/-- The function `formatCompact`.  `rangeOrder` is the order in which the
`range` over the map `toolNames` visits its keys: some rearrangement of them,
which Go leaves unspecified. -/
def formatCompact (rangeOrder : List Str → List Str) (detections : List Detection)
    (_directory : Str) : Str :=
  if detections.length = 0 then
    bytes "No AI coding tools detected"
  else
    let toolNames : GoMap Bool :=
      detections.foldl (fun toolNames d => toolNames.set d.Tool.Name true) []
    let names := (rangeOrder toolNames.keys).foldl (fun names name => names ++ [name]) []
    let names := slicesSort names
    stringsJoin names (bytes ", ")

/-! ## Presenter: table (`main.go` lines 338-372) -/

/-- The comparison function given to `slices.SortFunc` in `formatTable`. -/
def detectionCmp (a b : Detection) : Int :=
  if a.Tool.Name ≠ b.Tool.Name then stringsCompare a.Tool.Name b.Tool.Name
  else stringsCompare a.Path b.Path

/-- The body of the row loop of `formatTable` (lines 355-369). -/
def tableRow (rel : Str → Str → Str × Bool) (directory : Str) (d : Detection) : Str :=
  let toolName := d.Tool.Name
  let toolName := if toolName.length > 22 then toolName.take 22 else toolName
  let toolName := sprintfLeft22 toolName
  let typeStr := if d.IsDirectory then bytes "dir " else bytes "file"
  let relPath := (rel directory d.Path).1
  toolName ++ bytes " | " ++ typeStr ++ bytes " | " ++ relPath ++ bytes "\n"

/-- The function `formatTable`.  It sorts the slice it is given in place, so
the result is the pair of the returned string and the contents of the
caller's slice after the call. -/
def formatTable (rel : Str → Str → Str × Bool) (detections : List Detection)
    (directory : Str) : Str × List Detection :=
  if detections.length = 0 then
    (bytes "No AI coding tools detected", detections)
  else
    let sb := bytes "Tool                   | Type | Path\n"
    let sb := sb ++ bytes "-----------------------|------|-----\n"
    let detections := slicesSortFunc detectionCmp detections
    let sb := detections.foldl (fun sb d => sb ++ tableRow rel directory d) sb
    (sb, detections)

/-! ## Registry listing (`main.go` lines 374-400) -/

/-- The function `listSupportedTools`. -/
def listSupportedTools : Str :=
  let sb := bytes "Supported AI coding tools:\n\n"
  let sortedTools := slicesSortFunc
    (fun (a b : Tool) => stringsCompare (stringsToLower a.Name) (stringsToLower b.Name)) tools
  sortedTools.foldl (fun sb tool =>
    let sb := sb ++ (bytes "  " ++ tool.Name ++ bytes "\n")
    let sb := sb ++ (bytes "    " ++ tool.Description ++ bytes "\n")
    let sb := sb ++ (bytes "    URL: " ++ tool.URL ++ bytes "\n")
    let sb :=
      if tool.Files.length > 0 then
        sb ++ (bytes "    Files: " ++ stringsJoin tool.Files (bytes ", ") ++ bytes "\n")
      else sb
    let sb :=
      if tool.Directories.length > 0 then
        sb ++ (bytes "    Directories: " ++
          (stringsJoin tool.Directories (bytes "/, ") ++ bytes "/") ++ bytes "\n")
      else sb
    sb ++ bytes "\n") sb

/-! ## Driver (`main.go` lines 402-522) -/

/-- The constant `version`. -/
def version : Str := bytes "1.0.0"

/-- The command line after `flag.Parse()`: the value of each of the eight
flags and the remaining positional arguments. -/
structure Flags where
  f : Str
  format : Str
  l : Bool
  list : Bool
  q : Bool
  quiet : Bool
  v : Bool
  version : Bool
  args : List Str
  deriving DecidableEq, Repr

/-- The flags of an invocation without arguments: the declared defaults. -/
def Flags.defaults : Flags :=
  { f := bytes "plain", format := bytes "plain", l := false, list := false,
    q := false, quiet := false, v := false, version := false, args := [] }

/-- What the driver takes from outside the program: the library functions
`filepath.Join`, `filepath.Rel`, `json.MarshalIndent` and `filepath.Abs` (an
`Except` whose error is the message), the order of a `range` over a map, and
the filesystem as seen by `os.Stat`. -/
structure Env where
  join : Str → Str → Str
  rel : Str → Str → Str × Bool
  marshalIndent : JSONOutput → Str × Bool
  rangeOrder : List Str → List Str
  abs : Str → Except Str Str
  stat : Str → FsEntry

/-- What a run of the driver does: the bytes written to standard output and to
standard error, the exit code, and whether `detectTools` was called. -/
structure Outcome where
  stdout : Str
  stderr : Str
  exitCode : Nat
  scanned : Bool
  deriving DecidableEq, Repr

/-- The switch on `format` in `main` (lines 503-514): the rendered output and
the contents of `detections` afterwards; `none` is a panic of the renderer. -/
def render (env : Env) (format : Str) (detections : List Detection) (absDir : Str) :
    Option (Str × List Detection) :=
  if format = bytes "json" then
    (formatJSON env.marshalIndent env.rel detections absDir).map (fun o => (o, detections))
  else if format = bytes "compact" then
    some (formatCompact env.rangeOrder detections absDir, detections)
  else if format = bytes "table" then
    some (formatTable env.rel detections absDir)
  else
    (formatPlain env.rel detections absDir).map (fun o => (o, detections))

/-- The function `main` from `flag.Parse()` on; every `os.Exit` ends the run
with the outcome so far, `none` is a panic. -/
def main (env : Env) (flags : Flags) : Option Outcome :=
  if flags.v || flags.version then
    some { stdout := bytes "vibedetector " ++ version ++ bytes "\n", stderr := [],
           exitCode := 0, scanned := false }
  else if flags.l || flags.list then
    some { stdout := listSupportedTools, stderr := [], exitCode := 0, scanned := false }
  else
    let format := if flags.format ≠ bytes "plain" then flags.format else flags.f
    let quiet := flags.q || flags.quiet
    let directory :=
      match flags.args with
      | [] => bytes "."
      | arg0 :: _ => arg0
    match env.abs directory with
    | .error err =>
      some { stdout := [], stderr := bytes "Error: " ++ err ++ bytes "\n",
             exitCode := 2, scanned := false }
    | .ok absDir =>
      let info := env.stat absDir
      if !info.statOk then
        some { stdout := [],
               stderr := bytes "Error: Directory does not exist: " ++ absDir ++ bytes "\n",
               exitCode := 2, scanned := false }
      else if !info.IsDir then
        some { stdout := [],
               stderr := bytes "Error: Not a directory: " ++ absDir ++ bytes "\n",
               exitCode := 2, scanned := false }
      else
        match detectTools env.join env.stat absDir with
        | .error err =>
          some { stdout := [], stderr := bytes "Error: " ++ err ++ bytes "\n",
                 exitCode := 2, scanned := true }
        | .ok detections =>
          if quiet then
            some { stdout := [], stderr := [],
                   exitCode := if detections.length > 0 then 0 else 1, scanned := true }
          else
            (render env format detections absDir).map (fun r =>
              { stdout := r.1 ++ bytes "\n", stderr := [],
                exitCode := if r.2.length > 0 then 0 else 1, scanned := true })

/-! ## Specification-side definitions -/

/-- The matches of a ResultSet whose signature has the name `n`, in the order
in which they occur in the ResultSet. -/
def matchesOf (detections : List Detection) (n : Str) : List Detection :=
  detections.filter (fun d => d.Tool.Name = n)

/-- The invariant of the grouping loop after the detections `pre`. -/
def GroupInv (pre : List Detection) (state : GoMap (List Detection) × List Str) : Prop :=
  state.2 = state.1.keys ∧ state.1.keys.Nodup ∧
    ∀ n, state.1.get n = if matchesOf pre n = [] then none else some (matchesOf pre n)

/-- The first line of the grouped text of a non-empty ResultSet. -/
def plainHeader (directory : Str) : Str :=
  bytes "AI coding tools detected in " ++ directory ++ bytes ":\n\n"

/-- The grouped text specified for the tool named `n` with matches `ds`: the
name, then description and URL of the first match, then one line per match
with its kind marker and its path relative to the directory, then an empty
line. -/
def plainGroupText (rel : Str → Str → Str × Bool) (directory : Str) (n : Str)
    (ds : List Detection) : Str :=
  match ds with
  | [] => []
  | d0 :: _ =>
    bytes "  " ++ n ++ bytes "\n" ++
    (bytes "    " ++ d0.Tool.Description ++ bytes "\n") ++
    (bytes "    " ++ d0.Tool.URL ++ bytes "\n") ++
    bytes "    Files:\n" ++
    ds.flatMap (fun d =>
      bytes "      [" ++ (if d.IsDirectory then bytes "dir " else bytes "file") ++ bytes "] " ++
        (rel directory d.Path).1 ++ bytes "\n") ++
    bytes "\n"

/-- The entry of the structured document specified for the tool named `n`
with matches `ds`. -/
def jsonToolSpec (rel : Str → Str → Str × Bool) (directory : Str) (n : Str)
    (ds : List Detection) : JSONToolData :=
  { Name := n,
    Description := match ds with
      | [] => []
      | d0 :: _ => d0.Tool.Description,
    URL := match ds with
      | [] => []
      | d0 :: _ => d0.Tool.URL,
    Paths := some (ds.map (fun d =>
      { Path := (rel directory d.Path).1,
        Type_ := if d.IsDirectory then bytes "directory" else bytes "file" })) }

/-- The two header lines of the table. -/
def tableHeader : Str :=
  bytes "Tool                   | Type | Path\n" ++
  bytes "-----------------------|------|-----\n"

/-- The order on matches the table is specified to follow: by signature name,
ties broken by path, both compared byte-wise. -/
def keyLe (a b : Detection) : Prop :=
  stringsCompare a.Tool.Name b.Tool.Name < 0 ∨
    (a.Tool.Name = b.Tool.Name ∧ stringsCompare a.Path b.Path ≤ 0)

/-- The matches the scan emits for one registry entry: its file candidates
that are non-directories, in list order, then its directory candidates that
are directories, in list order. -/
def toolMatches (join : Str → Str → Str) (fs : Str → FsEntry) (directory : Str)
    (tool : Tool) : List Detection :=
  ((tool.Files.filter (fun f => fs (join directory f) = .file)).map
      (fun f => { Tool := tool, Path := join directory f, IsDirectory := false })) ++
  ((tool.Directories.filter (fun n => fs (join directory n) = .dir)).map
      (fun n => { Tool := tool, Path := join directory n, IsDirectory := true }))

/-! ## Concrete path functions for examples -/

/-- The elements of a path between its slashes. -/
def splitSlash : Str → List Str
  | [] => [[]]
  | c :: rest =>
    if c = 47 then [] :: splitSlash rest
    else
      match splitSlash rest with
      | [] => [[c]]
      | h :: t => (c :: h) :: t

/-- Drops the longest common prefix of two lists of path elements. -/
def dropCommon : List Str → List Str → List Str × List Str
  | a :: as, b :: bs => if a = b then dropCommon as bs else (a :: as, b :: bs)
  | as, bs => (as, bs)

/-- A concrete `filepath.Rel(directory, path)` on Unix for clean paths without
`..` elements, `path` not being `.`: the result is `.` for equal paths, an
error with the empty string when only one of the two is absolute, and
otherwise one `..` for every element left of `directory` after the common
prefix followed by the elements left of `path`. -/
def relUnix (directory path : Str) : Str × Bool :=
  if path = directory then (bytes ".", false)
  else if decide (directory.head? = some 47) != decide (path.head? = some 47) then ([], true)
  else
    let base := if directory = bytes "." then [] else (splitSlash directory).filter (· ≠ [])
    let targ := (splitSlash path).filter (· ≠ [])
    let rest := dropCommon base targ
    (stringsJoin (rest.1.map (fun _ => bytes "..") ++ rest.2) (bytes "/"), false)

/-- A concrete `filepath.Join(directory, name)` for a clean, non-root,
non-empty `directory` and a clean relative `name` without `.` and `..`
elements, where Go's result is `directory + "/" + name`. -/
def joinUnix (directory name : Str) : Str := directory ++ bytes "/" ++ name


/-- A filesystem holding the directory `/proj/.cursor` and the file
`/proj/.cursorrules` and nothing else. -/
def cursorFs (p : Str) : FsEntry :=
  if p = bytes "/proj/.cursor" then .dir
  else if p = bytes "/proj/.cursorrules" then .file
  else .absent

/-- A filesystem holding nothing. -/
def emptyFs (_p : Str) : FsEntry := .absent

/-- A filesystem holding the file `/proj/CLAUDE.md` and nothing else. -/
def claudeFs (p : Str) : FsEntry :=
  if p = bytes "/proj/CLAUDE.md" then .file else .absent

/-- A filesystem holding the directory `/proj` and in it the file `CLAUDE.md`,
the file `.aider.conf.yml` and the directory `.aider`. -/
def aiderFs (p : Str) : FsEntry :=
  if p = bytes "/proj" then .dir
  else if p = bytes "/proj/CLAUDE.md" then .file
  else if p = bytes "/proj/.aider.conf.yml" then .file
  else if p = bytes "/proj/.aider" then .dir
  else .absent

/-- The registry entry "Claude Code". -/
def claudeTool : Tool :=
  { Name := bytes "Claude Code",
    Description := bytes "Anthropic's CLI for Claude",
    URL := bytes "https://claude.ai/code",
    Files := [bytes "CLAUDE.md"],
    Directories := [bytes ".claude"] }

/-- The registry entry "Aider". -/
def aiderTool : Tool :=
  { Name := bytes "Aider",
    Description := bytes "AI pair programming in your terminal",
    URL := bytes "https://aider.chat",
    Files := [bytes ".aider.conf.yml", bytes ".aiderignore", bytes "CONVENTIONS.md"],
    Directories := [bytes ".aider"] }

/-- The ResultSet of a scan of `/proj` on `aiderFs`. -/
def aiderDetections : List Detection :=
  [{ Tool := claudeTool, Path := bytes "/proj/CLAUDE.md", IsDirectory := false },
   { Tool := aiderTool, Path := bytes "/proj/.aider.conf.yml", IsDirectory := false },
   { Tool := aiderTool, Path := bytes "/proj/.aider", IsDirectory := true }]

/-- An environment for examples: Unix paths that are already absolute, the
filesystem `aiderFs`, maps enumerated in order of insertion, and a JSON
encoder that is not looked at. -/
def exampleEnv : Env :=
  { join := joinUnix, rel := relUnix, marshalIndent := fun _ => ([], false),
    rangeOrder := id, abs := fun p => .ok p, stat := aiderFs }

/-- The command line `--format table /proj`. -/
def tableFlags : Flags :=
  { Flags.defaults with format := bytes "table", args := [bytes "/proj"] }

/-- The command line `-q /missing`. -/
def missingFlags : Flags :=
  { Flags.defaults with q := true, args := [bytes "/missing"] }

/-- The command line `-q --format json /proj`. -/
def quietFlags : Flags :=
  { Flags.defaults with q := true, format := bytes "json", args := [bytes "/proj"] }

/-- The command line `-f json --format compact /proj`: both spellings of the
format flag, with conflicting values. -/
def conflictFlags : Flags :=
  { Flags.defaults with f := bytes "json", format := bytes "compact", args := [bytes "/proj"] }

/-- What a renderer is specified to put in the place of the relative path: the
relative path, and the absolute path of the match when relativization fails. -/
def pathClaimed (rel : Str → Str → Str × Bool) (directory : Str) (d : Detection) : Str :=
  if (rel directory d.Path).2 then d.Path else (rel directory d.Path).1

/-- A match whose path is not absolute, so that it cannot be made relative to
`/proj`.  No scan produces it: the path of a scan match is the target
directory joined with a candidate name. -/
def strayDetection : Detection :=
  { Tool := claudeTool, Path := bytes "CLAUDE.md", IsDirectory := false }

/-- A tool whose name is twelve times the letter e with acute accent: 12
characters, 24 bytes of UTF-8.  It is not an entry of the registry. -/
def accentedTool : Tool :=
  { Name := [195, 169, 195, 169, 195, 169, 195, 169, 195, 169, 195, 169,
             195, 169, 195, 169, 195, 169, 195, 169, 195, 169, 195, 169],
    Description := bytes "A tool with an accented name",
    URL := bytes "https://example.com",
    Files := [bytes "x"],
    Directories := [] }

/-- A match of `accentedTool`. -/
def accentedDetection : Detection :=
  { Tool := accentedTool, Path := bytes "/proj/x", IsDirectory := false }

/-- The text `listSupportedTools` is specified to print for one registry
entry: name, description, URL, the candidate file names when there are any,
the candidate directory names (each followed by a slash) when there are any,
and an empty line. -/
def listEntryText (tool : Tool) : Str :=
  bytes "  " ++ tool.Name ++ bytes "\n" ++
  (bytes "    " ++ tool.Description ++ bytes "\n") ++
  (bytes "    URL: " ++ tool.URL ++ bytes "\n") ++
  (if tool.Files.length > 0 then
    bytes "    Files: " ++ stringsJoin tool.Files (bytes ", ") ++ bytes "\n" else []) ++
  (if tool.Directories.length > 0 then
    bytes "    Directories: " ++ (stringsJoin tool.Directories (bytes "/, ") ++ bytes "/") ++
      bytes "\n" else []) ++
  bytes "\n"

/-- The command line `--list -q --format json /missing`. -/
def listFlags : Flags :=
  { Flags.defaults with list := true, q := true, format := bytes "json",
                        args := [bytes "/missing"] }

/-- The contents of the slice `aiderDetections` after `formatTable` has sorted
it in place. -/
def aiderDetectionsSorted : List Detection :=
  [{ Tool := aiderTool, Path := bytes "/proj/.aider", IsDirectory := true },
   { Tool := aiderTool, Path := bytes "/proj/.aider.conf.yml", IsDirectory := false },
   { Tool := claudeTool, Path := bytes "/proj/CLAUDE.md", IsDirectory := false }]

/-! ## The candidates of the registry and Go's `filepath.Join` on Unix -/

/-- Every candidate of the registry in the order of the scan: the registry
entry, whether the candidate is a directory candidate, and its name. -/
def candidates : List (Tool × Bool × Str) :=
  tools.flatMap (fun t =>
    t.Files.map (fun f => (t, false, f)) ++ t.Directories.map (fun n => (t, true, n)))

/-- The candidate names of the registry, file and directory candidates alike. -/
def candidateNames : List Str := candidates.map (fun c => c.2.2)

/-- One step of Go's `filepath.Clean` on a path element, the elements kept so
far being given last first: an empty element and `.` are dropped; `..` removes
the element before it, is dropped at the root, and is kept at the start of a
path that is not rooted (also after another `..`); every other element is
kept. -/
def cleanStep (rooted : Bool) (out : List Str) (e : Str) : List Str :=
  if e = [] ∨ e = bytes "." then out
  else if e = bytes ".." then
    match out with
    | [] => if rooted then [] else [bytes ".."]
    | top :: rest => if top = bytes ".." then bytes ".." :: top :: rest else rest
  else e :: out

/-- Go's `filepath.Clean` on Unix: the shortest equivalent path by the rules
of its documentation; the empty path becomes `.`, a rooted path keeps its
leading slash, and no other slash is left at either end. -/
def filepathClean (path : Str) : Str :=
  if path = [] then bytes "."
  else
    let rooted := decide (path.head? = some 47)
    let out := (splitSlash path).foldl (cleanStep rooted) []
    let body := stringsJoin out.reverse (bytes "/")
    if rooted then bytes "/" ++ body
    else if body = [] then bytes "." else body

/-- Go's `filepath.Join(directory, name)` on Unix: the elements from the first
non-empty one on, joined by slashes and cleaned; the empty string when both
are empty. -/
def filepathJoin (directory name : Str) : Str :=
  if directory ≠ [] then filepathClean (directory ++ bytes "/" ++ name)
  else if name ≠ [] then filepathClean name
  else []

/-! ## Go's JSON encoding of strings, and its decoding -/

/-- The lower-case hexadecimal digit of a value below 16 (the table `hex` of
`encoding/json`). -/
def hexDigit (n : Nat) : Nat := if n < 10 then 48 + n else 87 + n

/-- What `encoding/json` writes for one byte below 128 of a string, with HTML
escaping on as in `json.MarshalIndent`: a backslash before the quote and the
backslash, the short escapes of backspace, form feed, newline, carriage
return and tab, `\u00XX` for the other control bytes and for `<`, `>`, `&`,
and the byte itself otherwise. -/
def jsonEscapeByte (b : Nat) : Str :=
  if b = 34 ∨ b = 92 then [92, b]
  else if b = 8 then [92, 98]
  else if b = 12 then [92, 102]
  else if b = 10 then [92, 110]
  else if b = 13 then [92, 114]
  else if b = 9 then [92, 116]
  else if b < 32 ∨ b = 60 ∨ b = 62 ∨ b = 38 then
    [92, 117, 48, 48, hexDigit (b / 16), hexDigit (b % 16)]
  else [b]

/-- The body of a JSON string as `encoding/json` writes it (`appendString`):
bytes below 128 by `jsonEscapeByte`; a well-formed UTF-8 encoding of two to
four bytes unchanged, except U+2028 and U+2029, written backslash-u-2028 and
backslash-u-2029; every other byte as backslash-u-fffd. -/
def jsonEscape : Str → Str
  | [] => []
  | b :: rest =>
    if b < 128 then jsonEscapeByte b ++ jsonEscape rest
    else
      let replaced := [92, 117, 102, 102, 102, 100] ++ jsonEscape rest
      match runeSize b rest, rest with
      | 2, c1 :: r => b :: c1 :: jsonEscape r
      | 3, c1 :: c2 :: r =>
        if b = 226 ∧ c1 = 128 ∧ (c2 = 168 ∨ c2 = 169) then
          [92, 117, 50, 48, 50, hexDigit (c2 % 16)] ++ jsonEscape r
        else b :: c1 :: c2 :: jsonEscape r
      | 4, c1 :: c2 :: c3 :: r => b :: c1 :: c2 :: c3 :: jsonEscape r
      | _, _ => replaced

/-- A string coerced to well-formed UTF-8 the way `encoding/json` does when it
encodes: every byte that does not start a well-formed encoding is replaced by
the encoding of U+FFFD. -/
def toValidUTF8 : Str → Str
  | [] => []
  | b :: rest =>
    if b < 128 then b :: toValidUTF8 rest
    else
      let replaced := [239, 191, 189] ++ toValidUTF8 rest
      match runeSize b rest, rest with
      | 2, c1 :: r => b :: c1 :: toValidUTF8 r
      | 3, c1 :: c2 :: r => b :: c1 :: c2 :: toValidUTF8 r
      | 4, c1 :: c2 :: c3 :: r => b :: c1 :: c2 :: c3 :: toValidUTF8 r
      | _, _ => replaced

/-- Go's `utf8.ValidString`: the string is a sequence of well-formed UTF-8
encodings. -/
def utf8Valid : Str → Bool
  | [] => true
  | b :: rest =>
    if b < 128 then utf8Valid rest
    else
      match runeSize b rest, rest with
      | 2, _ :: r => utf8Valid r
      | 3, _ :: _ :: r => utf8Valid r
      | 4, _ :: _ :: _ :: r => utf8Valid r
      | _, _ => false

/-- The value of a hexadecimal digit. -/
def hexVal (c : Nat) : Option Nat :=
  if 48 ≤ c ∧ c ≤ 57 then some (c - 48)
  else if 97 ≤ c ∧ c ≤ 102 then some (c - 87)
  else if 65 ≤ c ∧ c ≤ 70 then some (c - 55)
  else none

/-- The value of four hexadecimal digits. -/
def hex4 (a b c d : Nat) : Option Nat :=
  match hexVal a, hexVal b, hexVal c, hexVal d with
  | some x, some y, some z, some w => some (((x * 16 + y) * 16 + z) * 16 + w)
  | _, _, _, _ => none

/-- The UTF-8 encoding of a code point. -/
def utf8Encode (cp : Nat) : Str :=
  if cp < 128 then [cp]
  else if cp < 2048 then [192 + cp / 64, 128 + cp % 64]
  else if cp < 65536 then [224 + cp / 4096, 128 + cp / 64 % 64, 128 + cp % 64]
  else [240 + cp / 262144, 128 + cp / 4096 % 64, 128 + cp / 64 % 64, 128 + cp % 64]

/-- The byte a one-letter escape of a JSON string stands for. -/
def unescapeByte (e : Nat) : Option Nat :=
  if e = 34 ∨ e = 92 ∨ e = 47 then some e
  else if e = 98 then some 8
  else if e = 102 then some 12
  else if e = 110 then some 10
  else if e = 114 then some 13
  else if e = 116 then some 9
  else none

/-- The low half of a surrogate pair written `\uXXXX` at the start of the
input, with the input after it. -/
def lowSurrogate (s : Str) : Option (Nat × Str) :=
  match s with
  | 92 :: 117 :: h1 :: h2 :: h3 :: h4 :: r =>
    match hex4 h1 h2 h3 h4 with
    | some lo => if 56320 ≤ lo ∧ lo < 57344 then some (lo, r) else none
    | none => none
  | _ => none

/-- Decoding of the escape that follows a backslash in a JSON string: the
bytes it stands for and the number of input bytes it takes.  A `uXXXX` escape
stands for the UTF-8 encoding of its code point, a surrogate pair for its one
code point, and a surrogate without partner for U+FFFD. -/
def escapeAt (rest : Str) : Option (Str × Nat) :=
  match rest with
  | [] => none
  | e :: r =>
    if e = 117 then
      match r with
      | h1 :: h2 :: h3 :: h4 :: r4 =>
        match hex4 h1 h2 h3 h4 with
        | none => none
        | some cp =>
          if 55296 ≤ cp ∧ cp < 56320 then
            match lowSurrogate r4 with
            | some (lo, _) =>
              some (utf8Encode (65536 + (cp - 55296) * 1024 + (lo - 56320)), 11)
            | none => some ([239, 191, 189], 5)
          else if 56320 ≤ cp ∧ cp < 57344 then some ([239, 191, 189], 5)
          else some (utf8Encode cp, 5)
      | _ => none
    else
      match unescapeByte e with
      | none => none
      | some c => some ([c], 1)

/-- Decoding of a JSON string (RFC 8259) from the byte after its opening
quote: the decoded bytes and the input after the closing quote; `skip` is the
number of bytes still belonging to the escape decoded last.  Escapes are
resolved by `escapeAt`; an unescaped control byte is an error; every other
byte is copied. -/
def jsonUnquoteFrom : Nat → Str → Option (Str × Str)
  | _, [] => none
  | skip + 1, _ :: rest => jsonUnquoteFrom skip rest
  | 0, b :: rest =>
    if b = 34 then some ([], rest)
    else if b = 92 then
      match escapeAt rest with
      | none => none
      | some (out, n) => (jsonUnquoteFrom n rest).map (fun p => (out ++ p.1, p.2))
    else if b < 32 then none
    else (jsonUnquoteFrom 0 rest).map (fun p => (b :: p.1, p.2))

/-- Decoding of a JSON string from the byte after its opening quote. -/
def jsonUnquote (s : Str) : Option (Str × Str) := jsonUnquoteFrom 0 s

/-- A JSON string as `encoding/json` writes it. -/
def jsonString (s : Str) : Str := 34 :: (jsonEscape s ++ [34])

/-! ## Go's `json.MarshalIndent` on the output document, and a JSON decoder -/

/-- The newline and indentation that `json.Indent` writes at nesting depth
`depth`, with an empty prefix and an indent of two spaces. -/
def indentNewline (depth : Nat) : Str := 10 :: List.replicate (2 * depth) 32

/-- An indented JSON object at nesting depth `depth` from its members, each a
key and the text of its value; `{}` when there is none. -/
def jsonObject (depth : Nat) (members : List (Str × Str)) : Str :=
  match members with
  | [] => bytes "{}"
  | _ :: _ =>
    [123] ++ indentNewline (depth + 1) ++
      stringsJoin (members.map (fun m => jsonString m.1 ++ bytes ": " ++ m.2))
        ([44] ++ indentNewline (depth + 1)) ++
      indentNewline depth ++ [125]

/-- An indented JSON array at nesting depth `depth` from the texts of its
items; `null` for the nil slice and `[]` for the empty one. -/
def jsonArray (depth : Nat) (items : Option (List Str)) : Str :=
  match items with
  | none => bytes "null"
  | some [] => bytes "[]"
  | some (i :: rest) =>
    [91] ++ indentNewline (depth + 1) ++
      stringsJoin (i :: rest) ([44] ++ indentNewline (depth + 1)) ++
      indentNewline depth ++ [93]

/-- A JSON boolean. -/
def jsonBool (b : Bool) : Str := if b then bytes "true" else bytes "false"

/-- The encoding of a `JSONPathData` at nesting depth `depth`: its fields in
declaration order under the names of their `json` tags. -/
def marshalPathData (depth : Nat) (p : JSONPathData) : Str :=
  jsonObject depth [(bytes "path", jsonString p.Path), (bytes "type", jsonString p.Type_)]

/-- The encoding of a `JSONToolData` at nesting depth `depth`. -/
def marshalToolData (depth : Nat) (t : JSONToolData) : Str :=
  jsonObject depth
    [(bytes "name", jsonString t.Name),
     (bytes "description", jsonString t.Description),
     (bytes "url", jsonString t.URL),
     (bytes "paths", jsonArray (depth + 1) (t.Paths.map (List.map (marshalPathData (depth + 2)))))]

/-- Go's `json.MarshalIndent(output, "", "  ")` on a `JSONOutput`: the text and
whether the error is non-nil, which it never is for this type. -/
def marshalIndentGo (output : JSONOutput) : Str × Bool :=
  (jsonObject 0
    [(bytes "directory", jsonString output.Directory),
     (bytes "detected", jsonBool output.Detected),
     (bytes "tools", jsonArray 1 (output.Tools.map (List.map (marshalToolData 2))))],
   false)

/-- A JSON value; a number is kept as its literal. -/
inductive JValue where
  | null
  | bool (b : Bool)
  | num (literal : Str)
  | str (s : Str)
  | arr (items : List JValue)
  | obj (members : List (Str × JValue))

/-- JSON whitespace: space, line feed, carriage return, tab. -/
def isSpace (c : Nat) : Bool := decide (c = 32 ∨ c = 10 ∨ c = 13 ∨ c = 9)

/-- Drops leading whitespace. -/
def skipSpace : Str → Str
  | [] => []
  | c :: rest => if isSpace c then skipSpace rest else c :: rest

/-- A decimal digit. -/
def isDigit (c : Nat) : Bool := decide (48 ≤ c ∧ c ≤ 57)

/-- The optional fraction of a JSON number: its literal and the input after
it. -/
def scanFraction (s : Str) : Option (Str × Str) :=
  match s with
  | [] => some ([], [])
  | c :: r =>
    if c = 46 then
      if r.takeWhile isDigit = [] then none
      else some (46 :: r.takeWhile isDigit, r.dropWhile isDigit)
    else some ([], c :: r)

/-- The optional exponent of a JSON number: its literal and the input after
it. -/
def scanExponent (s : Str) : Option (Str × Str) :=
  match s with
  | [] => some ([], [])
  | e :: r =>
    if e = 101 ∨ e = 69 then
      let sign := r.takeWhile (fun c => decide (c = 43 ∨ c = 45))
      let r1 := if sign = [] then r else r.drop 1
      if r1.takeWhile isDigit = [] then none
      else some (e :: (sign.take 1 ++ r1.takeWhile isDigit), r1.dropWhile isDigit)
    else some ([], e :: r)

/-- A JSON number at the start of the input: its literal and the input after
it. -/
def scanNumber (s : Str) : Option (Str × Str) :=
  let sign := if s.head? = some 45 then [45] else []
  let body := if s.head? = some 45 then s.drop 1 else s
  let intPart := body.takeWhile isDigit
  if intPart = [] ∨ (1 < intPart.length ∧ intPart.head? = some 48) then none
  else
    match scanFraction (body.dropWhile isDigit) with
    | none => none
    | some (frac, afterFrac) =>
      match scanExponent afterFrac with
      | none => none
      | some (exp, rest) => some (sign ++ intPart ++ frac ++ exp, rest)

mutual

/-- A JSON value (RFC 8259) at the start of the input, after optional
whitespace: the value and the input after it.  `fuel` bounds the number of
nested calls. -/
def parseValue : Nat → Str → Option (JValue × Str)
  | 0, _ => none
  | fuel + 1, s =>
    match skipSpace s with
    | [] => none
    | c :: rest =>
      if c = 34 then (jsonUnquote rest).map (fun p => (JValue.str p.1, p.2))
      else if c = 91 then
        match skipSpace rest with
        | [] => none
        | c' :: rest' =>
          if c' = 93 then some (JValue.arr [], rest')
          else (parseElements fuel rest).map (fun p => (JValue.arr p.1, p.2))
      else if c = 123 then
        match skipSpace rest with
        | [] => none
        | c' :: rest' =>
          if c' = 125 then some (JValue.obj [], rest')
          else (parseMembers fuel rest).map (fun p => (JValue.obj p.1, p.2))
      else if (c :: rest).take 4 = bytes "true" then
        some (JValue.bool true, (c :: rest).drop 4)
      else if (c :: rest).take 5 = bytes "false" then
        some (JValue.bool false, (c :: rest).drop 5)
      else if (c :: rest).take 4 = bytes "null" then
        some (JValue.null, (c :: rest).drop 4)
      else (scanNumber (c :: rest)).map (fun p => (JValue.num p.1, p.2))

/-- The items of a non-empty array up to and including its closing bracket. -/
def parseElements : Nat → Str → Option (List JValue × Str)
  | 0, _ => none
  | fuel + 1, s =>
    match parseValue fuel s with
    | none => none
    | some (v, r) =>
      match skipSpace r with
      | [] => none
      | c :: r' =>
        if c = 44 then (parseElements fuel r').map (fun p => (v :: p.1, p.2))
        else if c = 93 then some ([v], r')
        else none

/-- The members of a non-empty object up to and including its closing brace. -/
def parseMembers : Nat → Str → Option (List (Str × JValue) × Str)
  | 0, _ => none
  | fuel + 1, s =>
    match skipSpace s with
    | [] => none
    | q :: r0 =>
      if q = 34 then
        match jsonUnquote r0 with
        | none => none
        | some (key, r1) =>
          match skipSpace r1 with
          | [] => none
          | colon :: r2 =>
            if colon = 58 then
              match parseValue fuel r2 with
              | none => none
              | some (v, r3) =>
                match skipSpace r3 with
                | [] => none
                | c :: r4 =>
                  if c = 44 then (parseMembers fuel r4).map (fun p => ((key, v) :: p.1, p.2))
                  else if c = 125 then some ([(key, v)], r4)
                  else none
            else none
      else none

end

/-- A JSON decoder: the value of a text that is one JSON value between
optional whitespace.  The fuel suffices for every text. -/
def jsonDecode (text : Str) : Option JValue :=
  match parseValue (2 * text.length + 1) text with
  | none => none
  | some (v, rest) => if skipSpace rest = [] then some v else none

/-- The member of an object with the given name, the last one if the name is
repeated. -/
def JValue.field (v : JValue) (key : Str) : Option JValue :=
  match v with
  | .obj members => (members.reverse.find? (fun m => decide (m.1 = key))).map (fun m => m.2)
  | _ => none

/-- The string in the member `name` of a value. -/
def JValue.stringField (v : JValue) (key : Str) : Option Str :=
  match v.field key with
  | some (.str s) => some s
  | _ => none

/-- The field `directory` of a decoded document. -/
def decodedDirectory (v : JValue) : Option Str := v.stringField (bytes "directory")

/-- The field `detected` of a decoded document. -/
def decodedDetected (v : JValue) : Option Bool :=
  match v.field (bytes "detected") with
  | some (.bool b) => some b
  | _ => none

/-- The fields `tools[].name` of a decoded document. -/
def decodedToolNames (v : JValue) : Option (List Str) :=
  match v.field (bytes "tools") with
  | some (.arr items) => items.mapM (fun t => t.stringField (bytes "name"))
  | _ => none
/-- The text `t`, which does not start with whitespace or a closing bracket,
decodes to the value `v` whatever follows it, with fuel for twice the input. -/
def Decodes (t : Str) (v : JValue) : Prop :=
  (∃ c r, t = c :: r ∧ isSpace c = false ∧ c ≠ 93 ∧ c ≠ 125) ∧
  ∀ fuel rest, 2 * (t ++ rest).length + 1 ≤ fuel → parseValue fuel (t ++ rest) = some (v, rest)

/-- The JSON value that the encoding of a `JSONPathData` stands for. -/
def pathJValue (p : JSONPathData) : JValue :=
  .obj [(bytes "path", .str (toValidUTF8 p.Path)), (bytes "type", .str (toValidUTF8 p.Type_))]

/-- The JSON value of a slice: `null` for the nil slice. -/
def sliceJValue (items : Option (List JValue)) : JValue :=
  match items with
  | none => .null
  | some l => .arr l

/-- The JSON value that the encoding of a `JSONToolData` stands for. -/
def toolJValue (t : JSONToolData) : JValue :=
  .obj [(bytes "name", .str (toValidUTF8 t.Name)),
        (bytes "description", .str (toValidUTF8 t.Description)),
        (bytes "url", .str (toValidUTF8 t.URL)),
        (bytes "paths", sliceJValue (t.Paths.map (List.map pathJValue)))]

/-- The JSON value that the encoding of a `JSONOutput` stands for: every string
coerced to well-formed UTF-8. -/
def outputJValue (output : JSONOutput) : JValue :=
  .obj [(bytes "directory", .str (toValidUTF8 output.Directory)),
        (bytes "detected", .bool output.Detected),
        (bytes "tools", sliceJValue (output.Tools.map (List.map toolJValue)))]

/-- A document whose directory is not well-formed UTF-8: the byte 255 after a
slash. -/
def illFormedDirectory : Str := [47, 255]

/-! ## Lemmas on the detector -/

theorem foldl_append_if {α β : Type} (p : α → Bool) (f : α → β) (l : List α) (acc : List β) :
    l.foldl (fun acc x => if p x then acc ++ [f x] else acc) acc
      = acc ++ (l.filter p).map f := by
  induction l generalizing acc with
  | nil => simp
  | cons x xs ih =>
    simp only [List.foldl_cons, ih, List.filter_cons]
    by_cases h : p x <;> simp [h]

theorem statOk_and_not_IsDir (e : FsEntry) :
    (e.statOk && !e.IsDir) = decide (e = .file) := by
  cases e <;> rfl

theorem statOk_and_IsDir (e : FsEntry) :
    (e.statOk && e.IsDir) = decide (e = .dir) := by
  cases e <;> rfl

theorem detectFiles_eq (join : Str → Str → Str) (fs : Str → FsEntry) (directory : Str)
    (tool : Tool) (acc : List Detection) :
    detectFiles join fs directory tool acc = acc ++
      (tool.Files.filter (fun f => fs (join directory f) = .file)).map
        (fun f => { Tool := tool, Path := join directory f, IsDirectory := false }) := by
  unfold detectFiles
  simp only [statOk_and_not_IsDir]
  exact foldl_append_if (fun f => decide (fs (join directory f) = .file))
    (fun f => ({ Tool := tool, Path := join directory f, IsDirectory := false } : Detection))
    tool.Files acc

theorem detectDirectories_eq (join : Str → Str → Str) (fs : Str → FsEntry) (directory : Str)
    (tool : Tool) (acc : List Detection) :
    detectDirectories join fs directory tool acc = acc ++
      (tool.Directories.filter (fun n => fs (join directory n) = .dir)).map
        (fun n => { Tool := tool, Path := join directory n, IsDirectory := true }) := by
  unfold detectDirectories
  simp only [statOk_and_IsDir]
  exact foldl_append_if (fun n => decide (fs (join directory n) = .dir))
    (fun n => ({ Tool := tool, Path := join directory n, IsDirectory := true } : Detection))
    tool.Directories acc

theorem foldl_append_flatMap {α β : Type} (g : α → List β) (l : List α) (acc : List β) :
    l.foldl (fun acc x => acc ++ g x) acc = acc ++ l.flatMap g := by
  induction l generalizing acc with
  | nil => simp
  | cons x xs ih => simp [List.foldl_cons, ih, List.flatMap_cons]

theorem detectTools_eq (join : Str → Str → Str) (fs : Str → FsEntry) (directory : Str) :
    detectTools join fs directory = .ok (detectSpec join fs directory) := by
  unfold detectTools detectSpec
  simp only [detectFiles_eq, detectDirectories_eq, List.append_assoc]
  rw [foldl_append_flatMap]
  simp

/-! ## Lemmas on the string order -/

theorem stringsCompare_swap (a b : Str) : stringsCompare b a = - stringsCompare a b := by
  induction a generalizing b with
  | nil => cases b <;> simp [stringsCompare]
  | cons x xs ih =>
    cases b with
    | nil => simp [stringsCompare]
    | cons y ys =>
      simp only [stringsCompare]
      by_cases h1 : x < y
      · have h2 : ¬ y < x := by omega
        simp [h1, h2]
      · by_cases h2 : y < x
        · simp [h1, h2]
        · simp [h1, h2, ih]

theorem stringsCompare_eq_zero (a b : Str) : stringsCompare a b = 0 ↔ a = b := by
  induction a generalizing b with
  | nil => cases b <;> simp [stringsCompare]
  | cons x xs ih =>
    cases b with
    | nil => simp [stringsCompare]
    | cons y ys =>
      simp only [stringsCompare]
      by_cases h1 : x < y
      · have : x ≠ y := by omega
        simp [h1, this]
      · by_cases h2 : y < x
        · have : x ≠ y := by omega
          simp [h1, h2, this]
        · have : x = y := by omega
          simp [h1, h2, this, ih]

theorem stringsCompare_self (a : Str) : stringsCompare a a = 0 :=
  (stringsCompare_eq_zero a a).mpr rfl

theorem stringsCompare_lt_trans (a b c : Str) (h1 : stringsCompare a b < 0)
    (h2 : stringsCompare b c < 0) : stringsCompare a c < 0 := by
  induction a generalizing b c with
  | nil =>
    cases c with
    | nil => cases b <;> simp [stringsCompare] at h1 h2
    | cons z zs => simp [stringsCompare]
  | cons x xs ih =>
    cases b with
    | nil => simp [stringsCompare] at h1
    | cons y ys =>
      cases c with
      | nil => simp [stringsCompare] at h2
      | cons z zs =>
        simp only [stringsCompare] at h1 h2 ⊢
        by_cases hxy : x < y
        · by_cases hyz : y < z
          · have : x < z := by omega
            simp [this]
          · by_cases hzy : z < y
            · simp [hyz, hzy] at h2
            · have : x < z := by omega
              simp [this]
        · by_cases hyx : y < x
          · simp [hxy, hyx] at h1
          · have hxy' : x = y := by omega
            subst hxy'
            simp only [hxy, if_false] at h1
            by_cases hyz : x < z
            · simp [hyz]
            · by_cases hzy : z < x
              · simp [hyz, hzy] at h2
              · simp only [hyz, hzy, if_false] at h2 ⊢
                exact ih ys zs h1 h2

theorem stringsCompare_le_trans (a b c : Str) (h1 : stringsCompare a b ≤ 0)
    (h2 : stringsCompare b c ≤ 0) : stringsCompare a c ≤ 0 := by
  rcases lt_or_eq_of_le h1 with h1 | h1
  · rcases lt_or_eq_of_le h2 with h2 | h2
    · exact le_of_lt (stringsCompare_lt_trans a b c h1 h2)
    · rw [(stringsCompare_eq_zero b c).mp h2] at h1
      exact le_of_lt h1
  · rw [(stringsCompare_eq_zero a b).mp h1]
    exact h2

/-- The order `stringsCompare a b < 0` is the lexicographic order on byte
sequences. -/
theorem stringsCompare_lt_iff_lex (a b : Str) :
    stringsCompare a b < 0 ↔ List.Lex (fun x y : Nat => x < y) a b := by
  constructor
  · intro h
    induction a generalizing b with
    | nil =>
      cases b with
      | nil => simp [stringsCompare] at h
      | cons y ys => exact List.Lex.nil
    | cons x xs ih =>
      cases b with
      | nil => simp [stringsCompare] at h
      | cons y ys =>
        simp only [stringsCompare] at h
        by_cases hxy : x < y
        · exact List.Lex.rel hxy
        · by_cases hyx : y < x
          · simp [hxy, hyx] at h
          · have hxy' : x = y := by omega
            subst hxy'
            simp only [hxy, if_false] at h
            exact List.Lex.cons (ih ys h)
  · intro h
    induction h with
    | nil => simp [stringsCompare]
    | cons _ ih => simpa [stringsCompare] using ih
    | rel hr => simp [stringsCompare, hr]

theorem strLess_iff (a b : Str) : strLess a b = true ↔ stringsCompare a b < 0 := by
  simp [strLess]

theorem strLess_false_iff (a b : Str) : strLess a b = false ↔ stringsCompare b a ≤ 0 := by
  rw [stringsCompare_swap a b]
  simp [strLess]

/-! ## Lemmas on insertion sort -/

theorem insertLeft_perm {α : Type} (less : α → α → Bool) (x : α) (l : List α) :
    (insertLeft less x l).Perm (x :: l) := by
  induction l with
  | nil => simp [insertLeft]
  | cons y ys ih =>
    simp only [insertLeft]
    split
    · exact (List.Perm.cons y ih).trans (List.Perm.swap x y ys)
    · exact List.Perm.refl _

theorem foldl_insertLeft_perm {α : Type} (less : α → α → Bool) (l acc : List α) :
    (l.foldl (fun sortedRev x => insertLeft less x sortedRev) acc).Perm (l ++ acc) := by
  induction l generalizing acc with
  | nil => simp
  | cons x xs ih =>
    simp only [List.foldl_cons]
    refine (ih _).trans ?_
    refine (List.Perm.append_left xs (insertLeft_perm less x acc)).trans ?_
    exact List.perm_middle

theorem insertionSort_perm {α : Type} (less : α → α → Bool) (l : List α) :
    (insertionSort less l).Perm l := by
  unfold insertionSort
  refine (List.reverse_perm _).trans ?_
  simpa using foldl_insertLeft_perm less l []

theorem insertLeft_sorted {α : Type} (less : α → α → Bool)
    (hasymm : ∀ a b, less a b = true → less b a = false)
    (htrans : ∀ a b c, less a b = false → less b c = false → less a c = false)
    (x : α) (l : List α) (h : l.Pairwise (fun a b => less a b = false)) :
    (insertLeft less x l).Pairwise (fun a b => less a b = false) := by
  induction l with
  | nil => simp [insertLeft]
  | cons y ys ih =>
    rw [List.pairwise_cons] at h
    simp only [insertLeft]
    by_cases hxy : less x y = true
    · simp only [hxy, if_true]
      rw [List.pairwise_cons]
      refine ⟨?_, ih h.2⟩
      intro z hz
      have hz' := (insertLeft_perm less x ys).mem_iff.mp hz
      rw [List.mem_cons] at hz'
      rcases hz' with hz' | hz'
      · subst hz'
        exact hasymm z y hxy
      · exact h.1 z hz'
    · have hxy' : less x y = false := by simpa using hxy
      simp only [hxy', Bool.false_eq_true, if_false]
      rw [List.pairwise_cons]
      refine ⟨?_, List.pairwise_cons.mpr h⟩
      intro z hz
      simp only [List.mem_cons] at hz
      rcases hz with hz | hz
      · subst hz
        exact hxy'
      · exact htrans x y z hxy' (h.1 z hz)

theorem foldl_insertLeft_sorted {α : Type} (less : α → α → Bool)
    (hasymm : ∀ a b, less a b = true → less b a = false)
    (htrans : ∀ a b c, less a b = false → less b c = false → less a c = false)
    (l acc : List α) (h : acc.Pairwise (fun a b => less a b = false)) :
    (l.foldl (fun sortedRev x => insertLeft less x sortedRev) acc).Pairwise
      (fun a b => less a b = false) := by
  induction l generalizing acc with
  | nil => simpa using h
  | cons x xs ih =>
    simp only [List.foldl_cons]
    exact ih _ (insertLeft_sorted less hasymm htrans x acc h)

theorem insertionSort_sorted {α : Type} (less : α → α → Bool)
    (hasymm : ∀ a b, less a b = true → less b a = false)
    (htrans : ∀ a b c, less a b = false → less b c = false → less a c = false)
    (l : List α) :
    (insertionSort less l).Pairwise (fun a b => less b a = false) := by
  unfold insertionSort
  rw [List.pairwise_reverse]
  exact foldl_insertLeft_sorted less hasymm htrans l [] List.Pairwise.nil

theorem strLess_asymm (a b : Str) (h : strLess a b = true) : strLess b a = false := by
  rw [strLess_iff] at h
  rw [strLess_false_iff]
  exact le_of_lt h

theorem strLess_negTrans (a b c : Str) (h1 : strLess a b = false) (h2 : strLess b c = false) :
    strLess a c = false := by
  rw [strLess_false_iff] at h1 h2 ⊢
  exact stringsCompare_le_trans c b a h2 h1

theorem slicesSort_perm (l : List Str) : (slicesSort l).Perm l :=
  insertionSort_perm strLess l

theorem slicesSort_sorted (l : List Str) :
    (slicesSort l).Pairwise (fun a b => stringsCompare a b ≤ 0) := by
  have h := insertionSort_sorted strLess strLess_asymm strLess_negTrans l
  refine h.imp ?_
  intro a b hab
  exact (strLess_false_iff b a).mp hab

/-- A strictly increasing list of strings is determined by its members. -/
theorem strictSorted_unique (l₁ l₂ : List Str)
    (h1 : l₁.Pairwise (fun a b => stringsCompare a b < 0))
    (h2 : l₂.Pairwise (fun a b => stringsCompare a b < 0))
    (hmem : ∀ n, n ∈ l₁ ↔ n ∈ l₂) : l₁ = l₂ := by
  have hirr : ∀ a : Str, ¬ stringsCompare a a < 0 := by
    intro a
    rw [stringsCompare_self]
    exact lt_irrefl 0
  have hne : ∀ a b : Str, stringsCompare a b < 0 → a ≠ b := by
    intro a b hab heq
    rw [heq] at hab
    exact hirr b hab
  have hnd1 : l₁.Nodup := h1.imp (fun {a b} hab => hne a b hab)
  have hnd2 : l₂.Nodup := h2.imp (fun {a b} hab => hne a b hab)
  have hperm : l₁.Perm l₂ := (List.perm_ext_iff_of_nodup hnd1 hnd2).mpr hmem
  haveI : IsAntisymm Str (fun a b => stringsCompare a b < 0) :=
    ⟨fun a b hab hba => by
      rw [stringsCompare_swap a b] at hba
      omega⟩
  exact List.eq_of_perm_of_sorted hperm h1 h2

/-- Sorting a duplicate-free list of strings gives a strictly increasing list. -/
theorem slicesSort_strict (l : List Str) (hnd : l.Nodup) :
    (slicesSort l).Pairwise (fun a b => stringsCompare a b < 0) := by
  have hs := slicesSort_sorted l
  have hnd' : (slicesSort l).Nodup := (slicesSort_perm l).nodup_iff.mpr hnd
  have := hs.and hnd'
  refine this.imp ?_
  intro a b hab
  rcases lt_or_eq_of_le hab.1 with h | h
  · exact h
  · exact absurd ((stringsCompare_eq_zero a b).mp h) hab.2

/-! ## Lemmas on maps and on the grouping loop -/

theorem GoMap.get_set {ν : Type} (m : GoMap ν) (k : Str) (v : ν) (q : Str) :
    (m.set k v).get q = if k = q then some v else m.get q := by
  induction m with
  | nil => simp [GoMap.set, GoMap.get]
  | cons kv rest ih =>
    obtain ⟨a, w⟩ := kv
    simp only [GoMap.set]
    by_cases hak : a = k
    · subst hak
      by_cases haq : a = q <;> simp [GoMap.get, haq]
    · simp only [hak, if_false, GoMap.get, ih]
      by_cases haq : a = q
      · have hkq : ¬ k = q := fun h => hak (haq.trans h.symm)
        simp [haq, hkq]
      · simp [haq]

theorem GoMap.get_isSome_iff {ν : Type} (m : GoMap ν) (k : Str) :
    (m.get k).isSome = true ↔ k ∈ m.keys := by
  induction m with
  | nil => simp [GoMap.get, GoMap.keys]
  | cons kv rest ih =>
    obtain ⟨a, w⟩ := kv
    simp only [GoMap.get, GoMap.keys, List.map_cons, List.mem_cons]
    by_cases hak : a = k
    · simp [hak]
    · have hka : ¬ k = a := fun h => hak h.symm
      simp only [hak, if_false, hka, false_or]
      exact ih

theorem GoMap.keys_set {ν : Type} (m : GoMap ν) (k : Str) (v : ν) :
    (m.set k v).keys = if (m.get k).isSome then m.keys else m.keys ++ [k] := by
  induction m with
  | nil => simp [GoMap.set, GoMap.get, GoMap.keys]
  | cons kv rest ih =>
    obtain ⟨a, w⟩ := kv
    simp only [GoMap.set, GoMap.get]
    by_cases hak : a = k
    · simp [hak, GoMap.keys]
    · simp only [hak, if_false]
      have ih' : List.map Prod.fst (GoMap.set rest k v)
          = if (GoMap.get rest k).isSome then List.map Prod.fst rest
            else List.map Prod.fst rest ++ [k] := ih
      simp only [GoMap.keys, List.map_cons, ih']
      split <;> simp

theorem matchesOf_append (pre : List Detection) (d : Detection) (n : Str) :
    matchesOf (pre ++ [d]) n
      = if d.Tool.Name = n then matchesOf pre n ++ [d] else matchesOf pre n := by
  unfold matchesOf
  rw [List.filter_append]
  by_cases h : d.Tool.Name = n <;> simp [List.filter_cons, h]

theorem matchesOf_ne_nil_iff (dets : List Detection) (n : Str) :
    matchesOf dets n ≠ [] ↔ ∃ d ∈ dets, d.Tool.Name = n := by
  unfold matchesOf
  rw [Ne, List.filter_eq_nil_iff]
  simp

theorem groupStep_inv (pre : List Detection) (state : GoMap (List Detection) × List Str)
    (d : Detection) (h : GroupInv pre state) : GroupInv (pre ++ [d]) (groupStep state d) := by
  obtain ⟨h1, h2, h3⟩ := h
  refine ⟨?_, ?_, ?_⟩
  · simp only [groupStep, GoMap.keys_set, h1]
  · simp only [groupStep, GoMap.keys_set]
    by_cases hs : (state.1.get d.Tool.Name).isSome = true
    · simpa [hs] using h2
    · simp only [hs, Bool.false_eq_true, if_false]
      have hnot : d.Tool.Name ∉ state.1.keys := fun hmem =>
        hs ((GoMap.get_isSome_iff _ _).mpr hmem)
      rw [List.nodup_append]
      refine ⟨h2, List.nodup_singleton _, ?_⟩
      intro a ha hb
      rw [List.mem_singleton] at hb
      subst hb
      exact hnot ha
  · intro n
    simp only [groupStep, GoMap.get_set, matchesOf_append]
    by_cases hn : d.Tool.Name = n
    · subst hn
      simp only [if_true]
      rw [h3 d.Tool.Name]
      by_cases he : matchesOf pre d.Tool.Name = [] <;> simp [he]
    · simp only [hn, if_false]
      exact h3 n

theorem foldl_groupStep_inv (l pre : List Detection)
    (state : GoMap (List Detection) × List Str) (h : GroupInv pre state) :
    GroupInv (pre ++ l) (l.foldl groupStep state) := by
  induction l generalizing pre state with
  | nil => simpa using h
  | cons d ds ih =>
    simp only [List.foldl_cons]
    have := ih (pre ++ [d]) (groupStep state d) (groupStep_inv pre state d h)
    simpa using this

theorem groupByTool_inv (dets : List Detection) : GroupInv dets (groupByTool dets) := by
  have h0 : GroupInv [] (([], []) : GoMap (List Detection) × List Str) := by
    refine ⟨rfl, List.nodup_nil, ?_⟩
    intro n
    simp [matchesOf, GoMap.get]
  simpa [groupByTool] using foldl_groupStep_inv dets [] _ h0

theorem groupByTool_nodup (dets : List Detection) : (groupByTool dets).2.Nodup := by
  obtain ⟨h1, h2, _⟩ := groupByTool_inv dets
  rw [h1]
  exact h2

theorem mem_groupByTool (dets : List Detection) (n : Str) :
    n ∈ (groupByTool dets).2 ↔ ∃ d ∈ dets, d.Tool.Name = n := by
  obtain ⟨h1, _, h3⟩ := groupByTool_inv dets
  rw [h1, ← GoMap.get_isSome_iff, h3 n, ← matchesOf_ne_nil_iff]
  by_cases he : matchesOf dets n = [] <;> simp [he]

theorem groupByTool_get (dets : List Detection) (n : Str) (h : n ∈ (groupByTool dets).2) :
    (groupByTool dets).1.get n = some (matchesOf dets n) ∧ matchesOf dets n ≠ [] := by
  obtain ⟨_, _, h3⟩ := groupByTool_inv dets
  have hne : matchesOf dets n ≠ [] :=
    (matchesOf_ne_nil_iff dets n).mpr ((mem_groupByTool dets n).mp h)
  refine ⟨?_, hne⟩
  rw [h3 n]
  simp [hne]

/-- The group keys both grouped renderers iterate over: the sorted
`toolOrder`.  They are strictly increasing and are exactly the names that
occur in the ResultSet. -/
theorem sortedKeys_spec (dets : List Detection) :
    (slicesSort (groupByTool dets).2).Pairwise (fun a b => stringsCompare a b < 0) ∧
    ∀ n, n ∈ slicesSort (groupByTool dets).2 ↔ ∃ d ∈ dets, d.Tool.Name = n := by
  refine ⟨slicesSort_strict _ (groupByTool_nodup dets), ?_⟩
  intro n
  rw [(slicesSort_perm _).mem_iff]
  exact mem_groupByTool dets n

/-! ## Lemmas on the grouped renderers -/

theorem matchesOf_name (dets : List Detection) (n : Str) (d : Detection)
    (h : d ∈ matchesOf dets n) : d.Tool.Name = n := by
  unfold matchesOf at h
  rw [List.mem_filter] at h
  simpa using h.2

theorem matchesOf_head_name (dets : List Detection) (n : Str) (d0 : Detection)
    (rest : List Detection) (h : matchesOf dets n = d0 :: rest) : d0.Tool.Name = n :=
  matchesOf_name dets n d0 (by rw [h]; exact List.mem_cons_self _ _)

theorem plainGroup_eq (rel : Str → Str → Str × Bool) (directory : Str)
    (toolsFound : GoMap (List Detection)) (sb n : Str) (d0 : Detection)
    (rest : List Detection) (hget : toolsFound.get n = some (d0 :: rest))
    (hname : d0.Tool.Name = n) :
    plainGroup rel directory toolsFound sb n
      = some (sb ++ plainGroupText rel directory n (d0 :: rest)) := by
  unfold plainGroup plainGroupText
  simp only [hget, Option.getD_some, hname]
  rw [foldl_append_flatMap]
  have hE : plainEntry rel directory = fun d =>
      bytes "      [" ++ (if d.IsDirectory then bytes "dir " else bytes "file") ++ bytes "] " ++
        (rel directory d.Path).1 ++ bytes "\n" := rfl
  simp only [hE, List.append_assoc]

theorem foldlM_plainGroup (rel : Str → Str → Str × Bool) (directory : Str)
    (dets : List Detection) (ns : List Str) (hns : ∀ n ∈ ns, n ∈ (groupByTool dets).2)
    (sb : Str) :
    ns.foldlM (plainGroup rel directory (groupByTool dets).1) sb
      = some (sb ++ ns.flatMap (fun n => plainGroupText rel directory n (matchesOf dets n))) := by
  induction ns generalizing sb with
  | nil => simp
  | cons n ns ih =>
    obtain ⟨hget, hne⟩ := groupByTool_get dets n (hns n (List.mem_cons_self _ _))
    obtain ⟨d0, rest, hds⟩ := List.exists_cons_of_ne_nil hne
    rw [hds] at hget
    have hname := matchesOf_head_name dets n d0 rest hds
    rw [List.foldlM_cons, plainGroup_eq rel directory _ sb n d0 rest hget hname]
    simp only [Option.bind_eq_bind, Option.some_bind]
    rw [ih (fun m hm => hns m (List.mem_cons_of_mem _ hm))]
    simp only [List.flatMap_cons, hds, List.append_assoc]

theorem formatPlain_eq (rel : Str → Str → Str × Bool) (dets : List Detection)
    (directory : Str) (h : dets ≠ []) :
    formatPlain rel dets directory = some (plainHeader directory ++
      (slicesSort (groupByTool dets).2).flatMap
        (fun n => plainGroupText rel directory n (matchesOf dets n))) := by
  unfold formatPlain
  have hlen : ¬ dets.length = 0 := by
    rw [List.length_eq_zero]
    exact h
  simp only [hlen, if_false]
  exact foldlM_plainGroup rel directory dets _
    (fun n hn => (slicesSort_perm _).mem_iff.mp hn) _

theorem foldl_paths (f : Detection → JSONPathData) (ds : List Detection)
    (toolData : JSONToolData) (l : List JSONPathData) (h : toolData.Paths = some l) :
    ds.foldl (fun (toolData : JSONToolData) d =>
        { toolData with Paths := sliceAppend toolData.Paths (f d) }) toolData
      = { toolData with Paths := some (l ++ ds.map f) } := by
  induction ds generalizing toolData l with
  | nil =>
    cases toolData
    simp only [List.foldl_nil, List.map_nil, List.append_nil]
    simp only at h
    rw [h]
  | cons d ds ih =>
    simp only [List.foldl_cons]
    rw [ih _ (l ++ [f d]) (by simp [sliceAppend, h])]
    simp

theorem jsonTool_eq (rel : Str → Str → Str × Bool) (directory : Str)
    (toolsFound : GoMap (List Detection)) (output : JSONOutput) (ts : List JSONToolData)
    (n : Str) (d0 : Detection) (rest : List Detection)
    (hts : output.Tools = some ts)
    (hget : toolsFound.get n = some (d0 :: rest)) (hname : d0.Tool.Name = n) :
    jsonTool rel directory toolsFound output n
      = some { output with Tools := some (ts ++ [jsonToolSpec rel directory n (d0 :: rest)]) } := by
  unfold jsonTool
  simp only [hget, Option.getD_some]
  rw [foldl_paths (jsonPathData rel directory) (d0 :: rest) _ [] rfl]
  have hE : jsonPathData rel directory = fun d =>
      ({ Path := (rel directory d.Path).1,
         Type_ := if d.IsDirectory then bytes "directory" else bytes "file" } : JSONPathData) :=
    rfl
  simp only [sliceAppend, hts, Option.getD_some, jsonToolSpec, hname, hE, List.nil_append]

theorem foldlM_jsonTool (rel : Str → Str → Str × Bool) (directory : Str)
    (dets : List Detection) (ns : List Str) (hns : ∀ n ∈ ns, n ∈ (groupByTool dets).2)
    (output : JSONOutput) (ts : List JSONToolData) (hts : output.Tools = some ts) :
    ns.foldlM (jsonTool rel directory (groupByTool dets).1) output
      = some { output with Tools := some (ts ++
          ns.map (fun n => jsonToolSpec rel directory n (matchesOf dets n))) } := by
  induction ns generalizing output ts with
  | nil =>
    cases output
    simp only at hts
    simp [hts]
  | cons n ns ih =>
    obtain ⟨hget, hne⟩ := groupByTool_get dets n (hns n (List.mem_cons_self _ _))
    obtain ⟨d0, rest, hds⟩ := List.exists_cons_of_ne_nil hne
    rw [hds] at hget
    have hname := matchesOf_head_name dets n d0 rest hds
    rw [List.foldlM_cons, jsonTool_eq rel directory _ output ts n d0 rest hts hget hname]
    simp only [Option.bind_eq_bind, Option.some_bind]
    rw [ih (fun m hm => hns m (List.mem_cons_of_mem _ hm)) _
      (ts ++ [jsonToolSpec rel directory n (d0 :: rest)]) rfl]
    simp only [List.map_cons, hds, List.append_assoc, List.singleton_append]

theorem formatJSONOutput_eq (rel : Str → Str → Str × Bool) (dets : List Detection)
    (directory : Str) :
    formatJSONOutput rel dets directory = some
      { Directory := directory,
        Detected := decide (dets.length > 0),
        Tools := some ((slicesSort (groupByTool dets).2).map
          (fun n => jsonToolSpec rel directory n (matchesOf dets n))) } := by
  unfold formatJSONOutput
  rw [foldlM_jsonTool rel directory dets _
    (fun n hn => (slicesSort_perm _).mem_iff.mp hn) _ [] rfl]
  simp

set_option maxRecDepth 100000 in
/-- C1: for every filesystem state and target directory, `detectTools` returns
no error and exactly the specified list (registry order; per tool the file
candidates that exist as non-directories, then the directory candidates that
exist as directories, each carrying its registry entry).  With `.cursor` a
directory and `.cursorrules` a file and nothing else the result is the two
Cursor matches, the file one first. -/
theorem C1_detectTools_exact :
    (∀ (join : Str → Str → Str) (fs : Str → FsEntry) (d : Str),
      detectTools join fs d = .ok (detectSpec join fs d)) ∧
    (∃ cursor ∈ tools, cursor.Name = bytes "Cursor" ∧
      detectTools joinUnix cursorFs (bytes "/proj") = .ok
        [{ Tool := cursor, Path := bytes "/proj/.cursorrules", IsDirectory := false },
         { Tool := cursor, Path := bytes "/proj/.cursor", IsDirectory := true }]) := by
  refine ⟨detectTools_eq, tools[1], by decide, by decide, ?_⟩
  rw [detectTools_eq]
  exact congrArg Except.ok (by decide)


/-! ## C2, C3: nothing detected, only `CLAUDE.md` detected -/

theorem flatMap_congr_mem {α β : Type} (l : List α) (f g : α → List β)
    (h : ∀ x ∈ l, f x = g x) : l.flatMap f = l.flatMap g := by
  induction l with
  | nil => rfl
  | cons x xs ih =>
    simp only [List.flatMap_cons]
    rw [h x (List.mem_cons_self _ _), ih (fun y hy => h y (List.mem_cons_of_mem _ hy))]

theorem flatMap_nil_of_forall {α β : Type} (l : List α) (f : α → List β)
    (h : ∀ x ∈ l, f x = []) : l.flatMap f = [] := by
  rw [flatMap_congr_mem l f (fun _ => []) h]
  induction l with
  | nil => rfl
  | cons x xs ih => simp [List.flatMap_cons]

theorem detectSpec_nil (join : Str → Str → Str) (fs : Str → FsEntry) (d : Str)
    (h : ∀ tool ∈ tools, ∀ n ∈ tool.Files ++ tool.Directories, fs (join d n) = .absent) :
    detectSpec join fs d = [] := by
  unfold detectSpec
  apply flatMap_nil_of_forall
  intro tool htool
  have hf : tool.Files.filter (fun f => decide (fs (join d f) = .file)) = [] := by
    rw [List.filter_eq_nil_iff]
    intro f hf
    rw [h tool htool f (List.mem_append_left _ hf)]
    simp
  have hd : tool.Directories.filter (fun n => decide (fs (join d n) = .dir)) = [] := by
    rw [List.filter_eq_nil_iff]
    intro n hn
    rw [h tool htool n (List.mem_append_right _ hn)]
    simp
  rw [hf, hd]
  rfl

/-- C2: when none of the registry's candidate names exists under the target
directory, `detectTools` returns the empty ResultSet, and on it `formatPlain`
returns "No AI coding tool configurations detected in " followed by the
directory while `formatCompact` and `formatTable` return "No AI coding tools
detected". -/
theorem C2_none_detected (join : Str → Str → Str) (fs : Str → FsEntry) (d : Str)
    (rel : Str → Str → Str × Bool) (rangeOrder : List Str → List Str)
    (h : ∀ tool ∈ tools, ∀ n ∈ tool.Files ++ tool.Directories, fs (join d n) = .absent) :
    detectTools join fs d = .ok [] ∧
    formatPlain rel [] d = some (bytes "No AI coding tool configurations detected in " ++ d) ∧
    formatCompact rangeOrder [] d = bytes "No AI coding tools detected" ∧
    (formatTable rel [] d).1 = bytes "No AI coding tools detected" := by
  refine ⟨?_, rfl, rfl, rfl⟩
  rw [detectTools_eq, detectSpec_nil join fs d h]

/-- C2 at the empty filesystem and the directory `/proj`. -/
theorem C2_none_detected_witness :
    (∀ tool ∈ tools, ∀ n ∈ tool.Files ++ tool.Directories,
      emptyFs (joinUnix (bytes "/proj") n) = .absent) ∧
    detectTools joinUnix emptyFs (bytes "/proj") = .ok [] ∧
    formatPlain relUnix [] (bytes "/proj")
      = some (bytes "No AI coding tool configurations detected in /proj") ∧
    formatCompact List.reverse [] (bytes "/proj") = bytes "No AI coding tools detected" ∧
    (formatTable relUnix [] (bytes "/proj")).1 = bytes "No AI coding tools detected" :=
  ⟨fun _ _ _ _ => rfl,
   C2_none_detected joinUnix emptyFs (bytes "/proj") relUnix List.reverse (fun _ _ _ _ => rfl)⟩


theorem foldl_append_singleton {α : Type} (l acc : List α) :
    l.foldl (fun names name => names ++ [name]) acc = acc ++ l := by
  induction l generalizing acc with
  | nil => simp
  | cons x xs ih => simp [List.foldl_cons, ih]

theorem detectSpec_claude (join : Str → Str → Str) (fs : Str → FsEntry) (d : Str)
    (hfile : fs (join d (bytes "CLAUDE.md")) = .file)
    (hothers : ∀ tool ∈ tools, ∀ n ∈ tool.Files ++ tool.Directories,
      n ≠ bytes "CLAUDE.md" → fs (join d n) = .absent) :
    detectSpec join fs d
      = [{ Tool := claudeTool, Path := join d (bytes "CLAUDE.md"), IsDirectory := false }] := by
  unfold detectSpec
  have hstep : ∀ tool ∈ tools,
      ((tool.Files.filter (fun f => decide (fs (join d f) = .file))).map
          (fun f => ({ Tool := tool, Path := join d f, IsDirectory := false } : Detection))) ++
        ((tool.Directories.filter (fun n => decide (fs (join d n) = .dir))).map
          (fun n => ({ Tool := tool, Path := join d n, IsDirectory := true } : Detection)))
      = ((tool.Files.filter (fun f => decide (f = bytes "CLAUDE.md"))).map
          (fun f => (tool, f))).map
          (fun p => ({ Tool := p.1, Path := join d p.2, IsDirectory := false } : Detection)) := by
    intro tool htool
    have hf : tool.Files.filter (fun f => decide (fs (join d f) = .file))
        = tool.Files.filter (fun f => decide (f = bytes "CLAUDE.md")) := by
      apply List.filter_congr
      intro f hf
      by_cases hc : f = bytes "CLAUDE.md"
      · subst hc
        simp [hfile]
      · simp [hc, hothers tool htool f (List.mem_append_left _ hf) hc]
    have hd : tool.Directories.filter (fun n => decide (fs (join d n) = .dir)) = [] := by
      rw [List.filter_eq_nil_iff]
      intro n hn
      by_cases hc : n = bytes "CLAUDE.md"
      · subst hc
        simp [hfile]
      · simp [hothers tool htool n (List.mem_append_right _ hn) hc]
    rw [hf, hd]
    simp [List.map_map, Function.comp_def]
  rw [flatMap_congr_mem tools _ _ hstep, ← List.map_flatMap]
  have hclosed : tools.flatMap (fun tool =>
      (tool.Files.filter (fun f => decide (f = bytes "CLAUDE.md"))).map (fun f => (tool, f)))
      = [(claudeTool, bytes "CLAUDE.md")] := by decide
  rw [hclosed]
  rfl

/-- C3: when the only entry of the target directory is a non-directory file
named `CLAUDE.md`, `detectTools` returns exactly one Match, of the registry
tool named "Claude Code", not a directory, with path join(d, "CLAUDE.md"), and
`formatCompact` of that ResultSet is exactly "Claude Code". -/
theorem C3_only_claude_md (join : Str → Str → Str) (fs : Str → FsEntry) (d : Str)
    (rangeOrder : List Str → List Str) (hrange : ∀ l, (rangeOrder l).Perm l)
    (hfile : fs (join d (bytes "CLAUDE.md")) = .file)
    (hothers : ∀ tool ∈ tools, ∀ n ∈ tool.Files ++ tool.Directories,
      n ≠ bytes "CLAUDE.md" → fs (join d n) = .absent) :
    ∃ m : Detection, detectTools join fs d = .ok [m] ∧
      m.Tool ∈ tools ∧ m.Tool.Name = bytes "Claude Code" ∧ m.IsDirectory = false ∧
      m.Path = join d (bytes "CLAUDE.md") ∧
      formatCompact rangeOrder [m] d = bytes "Claude Code" := by
  refine ⟨{ Tool := claudeTool, Path := join d (bytes "CLAUDE.md"), IsDirectory := false },
    ?_, ?_, rfl, rfl, rfl, ?_⟩
  · rw [detectTools_eq, detectSpec_claude join fs d hfile hothers]
  · show claudeTool ∈ tools
    decide
  · have hkeys : rangeOrder [bytes "Claude Code"] = [bytes "Claude Code"] :=
      List.perm_singleton.mp (hrange _)
    have hmap : (List.foldl (fun (toolNames : GoMap Bool) (d : Detection) =>
        toolNames.set d.Tool.Name true) []
        [({ Tool := claudeTool, Path := join d (bytes "CLAUDE.md"),
            IsDirectory := false } : Detection)]).keys = [bytes "Claude Code"] := rfl
    unfold formatCompact
    simp only [List.length_singleton, one_ne_zero, if_false]
    rw [hmap, hkeys]
    rfl

set_option maxRecDepth 100000 in
/-- C3 at the filesystem that holds only the file `/proj/CLAUDE.md`. -/
theorem C3_only_claude_md_witness :
    claudeFs (joinUnix (bytes "/proj") (bytes "CLAUDE.md")) = .file ∧
    (∀ tool ∈ tools, ∀ n ∈ tool.Files ++ tool.Directories,
      n ≠ bytes "CLAUDE.md" → claudeFs (joinUnix (bytes "/proj") n) = .absent) ∧
    ∃ m : Detection, detectTools joinUnix claudeFs (bytes "/proj") = .ok [m] ∧
      m.Tool ∈ tools ∧ m.Tool.Name = bytes "Claude Code" ∧ m.IsDirectory = false ∧
      m.Path = joinUnix (bytes "/proj") (bytes "CLAUDE.md") ∧
      formatCompact List.reverse [m] (bytes "/proj") = bytes "Claude Code" :=
  ⟨by decide, by decide,
   C3_only_claude_md joinUnix claudeFs (bytes "/proj") List.reverse
     (fun l => List.reverse_perm l) (by decide) (by decide)⟩


/-! ## C4: the compact renderer -/

theorem compactKeys (dets : List Detection) (m0 : GoMap Bool) (h0 : m0.keys.Nodup) :
    (dets.foldl (fun (toolNames : GoMap Bool) (d : Detection) =>
        toolNames.set d.Tool.Name true) m0).keys.Nodup ∧
    ∀ n, n ∈ (dets.foldl (fun (toolNames : GoMap Bool) (d : Detection) =>
        toolNames.set d.Tool.Name true) m0).keys
      ↔ n ∈ m0.keys ∨ ∃ d ∈ dets, d.Tool.Name = n := by
  induction dets generalizing m0 with
  | nil => simp [h0]
  | cons d ds ih =>
    simp only [List.foldl_cons]
    have hk := GoMap.keys_set m0 d.Tool.Name true
    have hnd : (m0.set d.Tool.Name true).keys.Nodup := by
      rw [hk]
      by_cases hs : (m0.get d.Tool.Name).isSome = true
      · simpa [hs] using h0
      · simp only [hs, Bool.false_eq_true, if_false]
        have hnot : d.Tool.Name ∉ m0.keys := fun hmem =>
          hs ((GoMap.get_isSome_iff _ _).mpr hmem)
        rw [List.nodup_append]
        refine ⟨h0, List.nodup_singleton _, ?_⟩
        intro a ha hb
        rw [List.mem_singleton] at hb
        subst hb
        exact hnot ha
    obtain ⟨ih1, ih2⟩ := ih (m0.set d.Tool.Name true) hnd
    refine ⟨ih1, ?_⟩
    intro n
    rw [ih2 n, hk]
    by_cases hs : (m0.get d.Tool.Name).isSome = true
    · have hmem : d.Tool.Name ∈ m0.keys := (GoMap.get_isSome_iff _ _).mp hs
      simp only [hs, if_true, List.mem_cons, exists_eq_or_imp]
      constructor
      · rintro (h | h)
        · exact Or.inl h
        · exact Or.inr (Or.inr h)
      · rintro (h | h | h)
        · exact Or.inl h
        · exact Or.inl (h ▸ hmem)
        · exact Or.inr h
    · simp only [hs, Bool.false_eq_true, if_false, List.mem_append, List.mem_cons,
        List.not_mem_nil, or_false, exists_eq_or_imp]
      constructor
      · rintro ((h | h) | h)
        · exact Or.inl h
        · exact Or.inr (Or.inl h.symm)
        · exact Or.inr (Or.inr h)
      · rintro (h | h | h)
        · exact Or.inl (Or.inl h)
        · exact Or.inl (Or.inr h.symm)
        · exact Or.inr h

theorem stringsJoin_cons (a : Str) (rest : List Str) (sep : Str) :
    stringsJoin (a :: rest) sep = a ++ rest.flatMap (fun n => sep ++ n) := by
  induction rest generalizing a with
  | nil => simp [stringsJoin]
  | cons b bs ih => simp [stringsJoin, ih, List.flatMap_cons]

theorem formatCompact_eq (rangeOrder : List Str → List Str)
    (hrange : ∀ l, (rangeOrder l).Perm l) (dets : List Detection) (directory : Str)
    (h : dets ≠ []) :
    formatCompact rangeOrder dets directory
      = stringsJoin (slicesSort (groupByTool dets).2) (bytes ", ") := by
  unfold formatCompact
  have hlen : ¬ dets.length = 0 := by
    rw [List.length_eq_zero]
    exact h
  simp only [hlen, if_false, foldl_append_singleton, List.nil_append]
  obtain ⟨hnd, hmem⟩ := compactKeys dets [] List.nodup_nil
  congr 1
  apply strictSorted_unique
  · exact slicesSort_strict _ ((hrange _).nodup_iff.mpr hnd)
  · exact (sortedKeys_spec dets).1
  · intro n
    rw [(slicesSort_perm _).mem_iff, (hrange _).mem_iff, hmem n, (sortedKeys_spec dets).2 n]
    simp [GoMap.keys]

theorem sortedKeys_ne_nil (dets : List Detection) (h : dets ≠ []) :
    slicesSort (groupByTool dets).2 ≠ [] := by
  obtain ⟨d, rest, hd⟩ := List.exists_cons_of_ne_nil h
  have hmem : d.Tool.Name ∈ slicesSort (groupByTool dets).2 :=
    ((sortedKeys_spec dets).2 _).mpr ⟨d, by rw [hd]; exact List.mem_cons_self _ _, rfl⟩
  exact List.ne_nil_of_mem hmem

theorem sortedKeys_perm_invariant (dets dets' : List Detection) (hp : dets'.Perm dets) :
    slicesSort (groupByTool dets').2 = slicesSort (groupByTool dets).2 := by
  apply strictSorted_unique
  · exact (sortedKeys_spec dets').1
  · exact (sortedKeys_spec dets).1
  · intro n
    rw [(sortedKeys_spec dets').2 n, (sortedKeys_spec dets).2 n]
    constructor
    · rintro ⟨d, hd, hn⟩
      exact ⟨d, hp.mem_iff.mp hd, hn⟩
    · rintro ⟨d, hd, hn⟩
      exact ⟨d, hp.mem_iff.mpr hd, hn⟩

/-- C4: on a non-empty ResultSet, in whatever order the map of names is
enumerated, `formatCompact` returns the distinct signature names of the
ResultSet, each once, in strictly increasing byte-wise order, the first name
followed by ", " and a name for each further one (no leading or trailing
separator); the result is the same for every rearrangement of the matches and
every enumeration order. -/
theorem C4_formatCompact_sorted_names (rangeOrder : List Str → List Str)
    (hrange : ∀ l, (rangeOrder l).Perm l) (dets : List Detection) (directory : Str)
    (h : dets ≠ []) :
    (∃ first rest,
      (first :: rest).Pairwise (fun a b => stringsCompare a b < 0) ∧
      (∀ n, n ∈ first :: rest ↔ ∃ d ∈ dets, d.Tool.Name = n) ∧
      formatCompact rangeOrder dets directory
        = first ++ rest.flatMap (fun n => bytes ", " ++ n)) ∧
    (∀ (rangeOrder' : List Str → List Str) (dets' : List Detection) (directory' : Str),
      (∀ l, (rangeOrder' l).Perm l) → dets'.Perm dets →
      formatCompact rangeOrder' dets' directory' = formatCompact rangeOrder dets directory) := by
  constructor
  · obtain ⟨first, rest, hk⟩ := List.exists_cons_of_ne_nil (sortedKeys_ne_nil dets h)
    refine ⟨first, rest, ?_, ?_, ?_⟩
    · rw [← hk]
      exact (sortedKeys_spec dets).1
    · rw [← hk]
      exact (sortedKeys_spec dets).2
    · rw [formatCompact_eq rangeOrder hrange dets directory h, hk, stringsJoin_cons]
  · intro rangeOrder' dets' directory' hrange' hp
    have h' : dets' ≠ [] := fun he => h (by rw [he] at hp; exact List.nil_perm.mp hp)
    rw [formatCompact_eq rangeOrder hrange dets directory h,
      formatCompact_eq rangeOrder' hrange' dets' directory' h',
      sortedKeys_perm_invariant dets dets' hp]

/-- C4 at the ResultSet of `aiderFs`, the map enumerated in reverse order. -/
theorem C4_formatCompact_sorted_names_witness :
    (∀ l : List Str, l.reverse.Perm l) ∧ aiderDetections ≠ [] ∧
    (∃ first rest,
      (first :: rest).Pairwise (fun a b => stringsCompare a b < 0) ∧
      (∀ n, n ∈ first :: rest ↔ ∃ d ∈ aiderDetections, d.Tool.Name = n) ∧
      formatCompact List.reverse aiderDetections (bytes "/proj")
        = first ++ rest.flatMap (fun n => bytes ", " ++ n)) ∧
    (∀ (rangeOrder' : List Str → List Str) (dets' : List Detection) (directory' : Str),
      (∀ l, (rangeOrder' l).Perm l) → dets'.Perm aiderDetections →
      formatCompact rangeOrder' dets' directory'
        = formatCompact List.reverse aiderDetections (bytes "/proj")) :=
  ⟨fun l => List.reverse_perm l, by decide,
   C4_formatCompact_sorted_names List.reverse (fun l => List.reverse_perm l)
     aiderDetections (bytes "/proj") (by decide)⟩

/-- The compact output for the ResultSet of `aiderFs`, for two enumeration
orders of the map. -/
theorem formatCompact_aider :
    formatCompact List.reverse aiderDetections (bytes "/proj") = bytes "Aider, Claude Code" ∧
    formatCompact id aiderDetections (bytes "/proj") = bytes "Aider, Claude Code" := by
  decide

/-! ## C5, C6: the groups of the grouped text and of the structured document -/

/-- C5: the group headers printed by `formatPlain`, the `tools[].name` built by
`formatJSON` and the names joined by `formatCompact` are one and the same
sequence: the distinct signature names of the ResultSet, each once, in
strictly increasing byte-wise order. -/
theorem C5_group_keys_agree (rel : Str → Str → Str × Bool)
    (rangeOrder : List Str → List Str) (hrange : ∀ l, (rangeOrder l).Perm l)
    (dets : List Detection) (directory : Str) :
    ∃ names : List Str,
      names.Pairwise (fun a b => stringsCompare a b < 0) ∧
      (∀ n, n ∈ names ↔ ∃ d ∈ dets, d.Tool.Name = n) ∧
      (dets ≠ [] → formatPlain rel dets directory = some (plainHeader directory ++
        names.flatMap (fun n => plainGroupText rel directory n (matchesOf dets n)))) ∧
      (∃ output ts, formatJSONOutput rel dets directory = some output ∧
        output.Tools = some ts ∧ ts.map (fun t => t.Name) = names) ∧
      (dets ≠ [] → formatCompact rangeOrder dets directory = stringsJoin names (bytes ", ")) := by
  refine ⟨slicesSort (groupByTool dets).2, (sortedKeys_spec dets).1, (sortedKeys_spec dets).2,
    formatPlain_eq rel dets directory, ?_, formatCompact_eq rangeOrder hrange dets directory⟩
  refine ⟨_, _, formatJSONOutput_eq rel dets directory, rfl, ?_⟩
  rw [List.map_map]
  exact List.map_id _

/-- C5 at the ResultSet of `aiderFs`, the map enumerated in reverse order. -/
theorem C5_group_keys_agree_witness :
    (∀ l : List Str, l.reverse.Perm l) ∧
    ∃ names : List Str,
      names.Pairwise (fun a b => stringsCompare a b < 0) ∧
      (∀ n, n ∈ names ↔ ∃ d ∈ aiderDetections, d.Tool.Name = n) ∧
      (aiderDetections ≠ [] →
        formatPlain relUnix aiderDetections (bytes "/proj") = some (plainHeader (bytes "/proj") ++
        names.flatMap (fun n =>
          plainGroupText relUnix (bytes "/proj") n (matchesOf aiderDetections n)))) ∧
      (∃ output ts, formatJSONOutput relUnix aiderDetections (bytes "/proj") = some output ∧
        output.Tools = some ts ∧ ts.map (fun t => t.Name) = names) ∧
      (aiderDetections ≠ [] →
        formatCompact List.reverse aiderDetections (bytes "/proj")
          = stringsJoin names (bytes ", ")) :=
  ⟨fun l => List.reverse_perm l,
   C5_group_keys_agree relUnix List.reverse (fun l => List.reverse_perm l)
     aiderDetections (bytes "/proj")⟩

theorem filter_disjoint_append {α : Type} (p q : α → Bool) (l : List α)
    (hdis : ∀ x ∈ l, ¬ (p x = true ∧ q x = true)) :
    (l.filter p ++ l.filter q).Perm (l.filter (fun x => p x || q x)) := by
  induction l with
  | nil => simp
  | cons x xs ih =>
    have ih' := ih (fun y hy => hdis y (List.mem_cons_of_mem _ hy))
    have hx := hdis x (List.mem_cons_self _ _)
    simp only [List.filter_cons]
    by_cases hp : p x = true
    · have hq : q x = false := by
        cases hq : q x
        · rfl
        · exact absurd ⟨hp, hq⟩ hx
      simp only [hp, hq, if_true, Bool.or_false, Bool.false_eq_true, if_false, List.cons_append]
      exact List.Perm.cons x ih'
    · have hp' : p x = false := by simpa using hp
      by_cases hq : q x = true
      · simp only [hp', hq, Bool.false_eq_true, if_false, if_true, Bool.false_or]
        exact List.perm_middle.trans (List.Perm.cons x ih')
      · have hq' : q x = false := by simpa using hq
        simp only [hp', hq', Bool.false_eq_true, if_false, Bool.or_false]
        exact ih'

theorem flatMap_matchesOf_perm (dets : List Detection) (names : List Str) (hnd : names.Nodup) :
    (names.flatMap (matchesOf dets)).Perm
      (dets.filter (fun d => decide (d.Tool.Name ∈ names))) := by
  induction names with
  | nil => simp
  | cons n ns ih =>
    rw [List.nodup_cons] at hnd
    simp only [List.flatMap_cons]
    refine (List.Perm.append_left _ (ih hnd.2)).trans ?_
    have hfil : dets.filter (fun d => decide (d.Tool.Name ∈ n :: ns))
        = dets.filter (fun d => decide (d.Tool.Name = n) || decide (d.Tool.Name ∈ ns)) := by
      apply List.filter_congr
      intro d _
      simp
    rw [hfil]
    unfold matchesOf
    apply filter_disjoint_append
    intro d _ hboth
    simp only [decide_eq_true_eq] at hboth
    exact hnd.1 (hboth.1 ▸ hboth.2)

theorem groups_partition (dets : List Detection) :
    ((slicesSort (groupByTool dets).2).flatMap (matchesOf dets)).Perm dets := by
  have hnd : (slicesSort (groupByTool dets).2).Nodup :=
    (slicesSort_perm _).nodup_iff.mpr (groupByTool_nodup dets)
  refine (flatMap_matchesOf_perm dets _ hnd).trans ?_
  have hall : dets.filter (fun d => decide (d.Tool.Name ∈ slicesSort (groupByTool dets).2))
      = dets := by
    rw [List.filter_eq_self]
    intro d hd
    simp only [decide_eq_true_eq]
    exact ((sortedKeys_spec dets).2 _).mpr ⟨d, hd, rfl⟩
  rw [hall]

/-- C6: in `formatPlain` and in `formatJSON` the entries listed under a tool
are exactly the matches of the ResultSet whose signature has that name, one
entry per match and in the order of the ResultSet (the groups partition the
ResultSet); each entry carries the path relative to the target directory and
the kind, `file` / `dir ` in grouped text, "file" / "directory" in the
structured document. -/
theorem C6_groups_list_their_matches (rel : Str → Str → Str × Bool)
    (dets : List Detection) (directory : Str) :
    ∃ names : List Str,
      names.Nodup ∧ (names.flatMap (matchesOf dets)).Perm dets ∧
      (∀ n, matchesOf dets n = dets.filter (fun d => d.Tool.Name = n)) ∧
      (dets ≠ [] → formatPlain rel dets directory = some (plainHeader directory ++
        names.flatMap (fun n =>
          match matchesOf dets n with
          | [] => []
          | d0 :: ds =>
            bytes "  " ++ n ++ bytes "\n" ++
            (bytes "    " ++ d0.Tool.Description ++ bytes "\n") ++
            (bytes "    " ++ d0.Tool.URL ++ bytes "\n") ++
            bytes "    Files:\n" ++
            (d0 :: ds).flatMap (fun d =>
              bytes "      [" ++ (if d.IsDirectory then bytes "dir " else bytes "file") ++
                bytes "] " ++ (rel directory d.Path).1 ++ bytes "\n") ++
            bytes "\n"))) ∧
      (∃ output, formatJSONOutput rel dets directory = some output ∧
        output.Tools = some (names.map (fun n =>
          { Name := n,
            Description := match matchesOf dets n with
              | [] => []
              | d0 :: _ => d0.Tool.Description,
            URL := match matchesOf dets n with
              | [] => []
              | d0 :: _ => d0.Tool.URL,
            Paths := some ((matchesOf dets n).map (fun d =>
              { Path := (rel directory d.Path).1,
                Type_ := if d.IsDirectory then bytes "directory" else bytes "file" })) }))) := by
  refine ⟨slicesSort (groupByTool dets).2,
    (slicesSort_perm _).nodup_iff.mpr (groupByTool_nodup dets), groups_partition dets,
    fun _ => rfl, ?_, ?_⟩
  · intro h
    rw [formatPlain_eq rel dets directory h]
    congr 3
    funext n
    unfold plainGroupText
    cases matchesOf dets n <;> rfl
  · exact ⟨_, formatJSONOutput_eq rel dets directory, rfl⟩


/-- C6 at the ResultSet of `aiderFs`. -/
theorem C6_groups_list_their_matches_witness :
    ∃ names : List Str,
      names.Nodup ∧ (names.flatMap (matchesOf aiderDetections)).Perm aiderDetections ∧
      (∀ n, matchesOf aiderDetections n = aiderDetections.filter (fun d => d.Tool.Name = n)) ∧
      (aiderDetections ≠ [] →
        formatPlain relUnix aiderDetections (bytes "/proj") = some (plainHeader (bytes "/proj") ++
        names.flatMap (fun n =>
          match matchesOf aiderDetections n with
          | [] => []
          | d0 :: ds =>
            bytes "  " ++ n ++ bytes "\n" ++
            (bytes "    " ++ d0.Tool.Description ++ bytes "\n") ++
            (bytes "    " ++ d0.Tool.URL ++ bytes "\n") ++
            bytes "    Files:\n" ++
            (d0 :: ds).flatMap (fun d =>
              bytes "      [" ++ (if d.IsDirectory then bytes "dir " else bytes "file") ++
                bytes "] " ++ (relUnix (bytes "/proj") d.Path).1 ++ bytes "\n") ++
            bytes "\n"))) ∧
      (∃ output, formatJSONOutput relUnix aiderDetections (bytes "/proj") = some output ∧
        output.Tools = some (names.map (fun n =>
          { Name := n,
            Description := match matchesOf aiderDetections n with
              | [] => []
              | d0 :: _ => d0.Tool.Description,
            URL := match matchesOf aiderDetections n with
              | [] => []
              | d0 :: _ => d0.Tool.URL,
            Paths := some ((matchesOf aiderDetections n).map (fun d =>
              { Path := (relUnix (bytes "/proj") d.Path).1,
                Type_ := if d.IsDirectory then bytes "directory" else bytes "file" })) }))) :=
  C6_groups_list_their_matches relUnix aiderDetections (bytes "/proj")

/-! ## C7: the table renderer -/

theorem detectionCmp_swap (a b : Detection) : detectionCmp b a = - detectionCmp a b := by
  unfold detectionCmp
  by_cases h : a.Tool.Name = b.Tool.Name
  · rw [if_neg (not_not.mpr h), if_neg (not_not.mpr h.symm)]
    exact stringsCompare_swap a.Path b.Path
  · rw [if_pos h, if_pos (Ne.symm h)]
    exact stringsCompare_swap a.Tool.Name b.Tool.Name

theorem detectionCmp_le_iff (a b : Detection) : detectionCmp a b ≤ 0 ↔ keyLe a b := by
  unfold detectionCmp keyLe
  by_cases h : a.Tool.Name = b.Tool.Name
  · simp only [h, ne_eq, not_true_eq_false, if_false, stringsCompare_self, lt_irrefl,
      false_or, true_and]
  · have hne : stringsCompare a.Tool.Name b.Tool.Name ≠ 0 :=
      fun e => h ((stringsCompare_eq_zero _ _).mp e)
    simp only [h, ne_eq, not_false_eq_true, if_true, false_and, or_false]
    constructor
    · intro hle
      exact lt_of_le_of_ne hle hne
    · exact le_of_lt

theorem keyLe_trans (a b c : Detection) (h1 : keyLe a b) (h2 : keyLe b c) : keyLe a c := by
  unfold keyLe at h1 h2 ⊢
  rcases h1 with h1 | ⟨e1, p1⟩
  · rcases h2 with h2 | ⟨e2, _⟩
    · exact Or.inl (stringsCompare_lt_trans _ _ _ h1 h2)
    · exact Or.inl (e2 ▸ h1)
  · rcases h2 with h2 | ⟨e2, p2⟩
    · exact Or.inl (e1 ▸ h2)
    · exact Or.inr ⟨e1.trans e2, stringsCompare_le_trans _ _ _ p1 p2⟩

theorem slicesSortFunc_detectionCmp_sorted (dets : List Detection) :
    (slicesSortFunc detectionCmp dets).Pairwise keyLe := by
  have hfalse : ∀ a b : Detection,
      decide (detectionCmp a b < 0) = false ↔ keyLe b a := by
    intro a b
    rw [← detectionCmp_le_iff, detectionCmp_swap a b]
    simp
  have h := insertionSort_sorted (fun a b => decide (detectionCmp a b < 0))
    (by
      intro a b hab
      have hab' : detectionCmp a b < 0 := by simpa using hab
      show decide (detectionCmp b a < 0) = false
      rw [detectionCmp_swap a b]
      simp only [decide_eq_false_iff_not, not_lt]
      omega)
    (by
      intro a b c h1 h2
      exact (hfalse a c).mpr (keyLe_trans c b a ((hfalse b c).mp h2) ((hfalse a b).mp h1)))
    dets
  refine h.imp ?_
  intro a b hab
  exact (hfalse b a).mp hab

theorem slicesSortFunc_perm {α : Type} (cmp : α → α → Int) (l : List α) :
    (slicesSortFunc cmp l).Perm l :=
  insertionSort_perm _ l

theorem formatTable_eq (rel : Str → Str → Str × Bool) (dets : List Detection)
    (directory : Str) (h : dets ≠ []) :
    formatTable rel dets directory
      = (tableHeader ++ (slicesSortFunc detectionCmp dets).flatMap (tableRow rel directory),
         slicesSortFunc detectionCmp dets) := by
  unfold formatTable
  have hlen : ¬ dets.length = 0 := by
    rw [List.length_eq_zero]
    exact h
  simp only [hlen, if_false]
  rw [foldl_append_flatMap]
  rfl

/-- C7: on a non-empty ResultSet `formatTable` emits the two header lines and
then exactly one row per Match: the rows are those of a rearrangement of the
matches (as many rows as matches) that is in non-decreasing order of the pair
(signature name, path), compared byte-wise, name first and path as
tie-breaker. -/
theorem C7_formatTable_sorted_rows (rel : Str → Str → Str × Bool) (dets : List Detection)
    (directory : Str) (h : dets ≠ []) :
    ∃ rows : List Detection,
      rows.Perm dets ∧ rows.length = dets.length ∧
      rows.Pairwise (fun a b =>
        stringsCompare a.Tool.Name b.Tool.Name < 0 ∨
          (a.Tool.Name = b.Tool.Name ∧ stringsCompare a.Path b.Path ≤ 0)) ∧
      (formatTable rel dets directory).1
        = bytes "Tool                   | Type | Path\n" ++
          bytes "-----------------------|------|-----\n" ++
          rows.flatMap (tableRow rel directory) := by
  refine ⟨slicesSortFunc detectionCmp dets, slicesSortFunc_perm _ _,
    (slicesSortFunc_perm _ _).length_eq, slicesSortFunc_detectionCmp_sorted dets, ?_⟩
  rw [formatTable_eq rel dets directory h]
  rfl

/-- C7 at the ResultSet of `aiderFs`. -/
theorem C7_formatTable_sorted_rows_witness :
    aiderDetections ≠ [] ∧
    ∃ rows : List Detection,
      rows.Perm aiderDetections ∧ rows.length = aiderDetections.length ∧
      rows.Pairwise (fun a b =>
        stringsCompare a.Tool.Name b.Tool.Name < 0 ∨
          (a.Tool.Name = b.Tool.Name ∧ stringsCompare a.Path b.Path ≤ 0)) ∧
      (formatTable relUnix aiderDetections (bytes "/proj")).1
        = bytes "Tool                   | Type | Path\n" ++
          bytes "-----------------------|------|-----\n" ++
          rows.flatMap (tableRow relUnix (bytes "/proj")) :=
  ⟨by decide, C7_formatTable_sorted_rows relUnix aiderDetections (bytes "/proj") (by decide)⟩

/-- The results of `relUnix` on four pairs of paths. -/
theorem relUnix_on_samples :
    relUnix (bytes "/proj") (bytes "/proj/.github/copilot-instructions.md")
      = (bytes ".github/copilot-instructions.md", false) ∧
    relUnix (bytes "/proj") (bytes "x") = ([], true) ∧
    relUnix (bytes "/a/b") (bytes "/a/c/d") = (bytes "../c/d", false) ∧
    relUnix (bytes "/") (bytes "/a/b") = (bytes "a/b", false) := by
  decide

/-! ## C8: order of the grouped text -/

set_option maxRecDepth 100000 in
/-- C8 fails as stated: on a directory holding the file `.aider.conf.yml` and
the directory `.aider` (and `CLAUDE.md`), the scan returns the file match
before the directory match, `formatPlain` lists the Aider group in that
order, and that is not the order of the paths: `.aider` is smaller than
`.aider.conf.yml`, both as absolute and as relative paths. -/
theorem C8_counterexample :
    detectTools joinUnix aiderFs (bytes "/proj") = .ok aiderDetections ∧
    formatPlain relUnix aiderDetections (bytes "/proj") = some (bytes
      ("AI coding tools detected in /proj:\n\n" ++
       "  Aider\n" ++
       "    AI pair programming in your terminal\n" ++
       "    https://aider.chat\n" ++
       "    Files:\n" ++
       "      [file] .aider.conf.yml\n" ++
       "      [dir ] .aider\n" ++
       "\n" ++
       "  Claude Code\n" ++
       "    Anthropic's CLI for Claude\n" ++
       "    https://claude.ai/code\n" ++
       "    Files:\n" ++
       "      [file] CLAUDE.md\n" ++
       "\n")) ∧
    stringsCompare (bytes "/proj/.aider") (bytes "/proj/.aider.conf.yml") < 0 ∧
    stringsCompare (bytes ".aider") (bytes ".aider.conf.yml") < 0 ∧
    ¬ (matchesOf aiderDetections (bytes "Aider")).Pairwise
        (fun a b => stringsCompare a.Path b.Path ≤ 0) := by
  refine ⟨?_, by decide, by decide, by decide, by decide⟩
  rw [detectTools_eq]
  exact congrArg Except.ok (by decide)

theorem filter_flatMap_eq {α β : Type} (p : β → Bool) (f : α → List β) (l : List α) :
    (l.flatMap f).filter p = l.flatMap (fun x => (f x).filter p) := by
  induction l with
  | nil => rfl
  | cons x xs ih => simp [List.flatMap_cons, List.filter_append, ih]

theorem flatMap_filter_eq {α β : Type} (q : α → Bool) (f : α → List β) (l : List α) :
    (l.filter q).flatMap f = l.flatMap (fun x => if q x then f x else []) := by
  induction l with
  | nil => rfl
  | cons x xs ih =>
    by_cases h : q x = true
    · simp [List.filter_cons, h, List.flatMap_cons, ih]
    · simp [List.filter_cons, h, List.flatMap_cons, ih]

theorem toolMatches_tool (join : Str → Str → Str) (fs : Str → FsEntry) (d : Str)
    (tool : Tool) (m : Detection) (h : m ∈ toolMatches join fs d tool) : m.Tool = tool := by
  unfold toolMatches at h
  rw [List.mem_append] at h
  rcases h with h | h
  · obtain ⟨f, _, hf⟩ := List.mem_map.mp h
    rw [← hf]
  · obtain ⟨f, _, hf⟩ := List.mem_map.mp h
    rw [← hf]

theorem matchesOf_detectSpec (join : Str → Str → Str) (fs : Str → FsEntry) (d : Str)
    (n : Str) :
    matchesOf (detectSpec join fs d) n
      = (tools.filter (fun t => t.Name = n)).flatMap (toolMatches join fs d) := by
  have hspec : detectSpec join fs d = tools.flatMap (toolMatches join fs d) := rfl
  rw [hspec]
  unfold matchesOf
  rw [filter_flatMap_eq, flatMap_filter_eq]
  apply flatMap_congr_mem
  intro tool _
  by_cases hn : tool.Name = n
  · simp only [hn, decide_True, if_true]
    rw [List.filter_eq_self]
    intro m hm
    rw [toolMatches_tool join fs d tool m hm]
    simpa using hn
  · simp only [hn, decide_False, Bool.false_eq_true, if_false]
    rw [List.filter_eq_nil_iff]
    intro m hm
    rw [toolMatches_tool join fs d tool m hm]
    simpa using hn

/-- C8 as amended: for every ResultSet returned by `detectTools`, the groups
of the grouped text appear in strictly increasing byte-wise order of tool
name, and within each group the matches are listed in scan order: for the
registry entry of that name, its file candidates that are non-directories in
candidate-list order, then its directory candidates that are directories in
candidate-list order. -/
theorem C8_formatPlain_groups_sorted_scan_order (join : Str → Str → Str)
    (fs : Str → FsEntry) (d : Str) (rel : Str → Str → Str × Bool) (dets : List Detection)
    (hdet : detectTools join fs d = .ok dets) (hne : dets ≠ []) :
    ∃ names : List Str,
      names.Pairwise (fun a b => stringsCompare a b < 0) ∧
      formatPlain rel dets d = some (plainHeader d ++
        names.flatMap (fun n => plainGroupText rel d n (matchesOf dets n))) ∧
      ∀ n, matchesOf dets n
        = (tools.filter (fun t => t.Name = n)).flatMap (fun tool =>
            ((tool.Files.filter (fun f => fs (join d f) = .file)).map
              (fun f => { Tool := tool, Path := join d f, IsDirectory := false })) ++
            ((tool.Directories.filter (fun m => fs (join d m) = .dir)).map
              (fun m => { Tool := tool, Path := join d m, IsDirectory := true }))) := by
  rw [detectTools_eq] at hdet
  have hd : detectSpec join fs d = dets := by
    injection hdet
  refine ⟨slicesSort (groupByTool dets).2, (sortedKeys_spec dets).1,
    formatPlain_eq rel dets d hne, ?_⟩
  intro n
  rw [← hd]
  exact matchesOf_detectSpec join fs d n

set_option maxRecDepth 100000 in
/-- C8 as amended, at the scan of `/proj` on `aiderFs`. -/
theorem C8_formatPlain_groups_sorted_scan_order_witness :
    detectTools joinUnix aiderFs (bytes "/proj") = .ok aiderDetections ∧
    aiderDetections ≠ [] ∧
    ∃ names : List Str,
      names.Pairwise (fun a b => stringsCompare a b < 0) ∧
      formatPlain relUnix aiderDetections (bytes "/proj") = some (plainHeader (bytes "/proj") ++
        names.flatMap (fun n =>
          plainGroupText relUnix (bytes "/proj") n (matchesOf aiderDetections n))) ∧
      ∀ n, matchesOf aiderDetections n
        = (tools.filter (fun t => t.Name = n)).flatMap (fun tool =>
            ((tool.Files.filter (fun f => aiderFs (joinUnix (bytes "/proj") f) = .file)).map
              (fun f => { Tool := tool, Path := joinUnix (bytes "/proj") f,
                          IsDirectory := false })) ++
            ((tool.Directories.filter (fun m => aiderFs (joinUnix (bytes "/proj") m) = .dir)).map
              (fun m => { Tool := tool, Path := joinUnix (bytes "/proj") m,
                          IsDirectory := true }))) :=
  have hdet : detectTools joinUnix aiderFs (bytes "/proj") = .ok aiderDetections := by
    rw [detectTools_eq]
    exact congrArg Except.ok (by decide)
  ⟨hdet, by decide,
   C8_formatPlain_groups_sorted_scan_order joinUnix aiderFs (bytes "/proj") relUnix
     aiderDetections hdet (by decide)⟩


/-! ## C9: the structured document -/

theorem groupByTool_nil : groupByTool [] = ([], []) := rfl

/-- C9: the document built by `formatJSON` has `directory` equal to the given
directory; `detected` is true exactly when the ResultSet is non-empty, which
is exactly when `tools` is non-empty; `tools` is never the nil slice, and for
the empty ResultSet it is the empty non-nil sequence.  The string returned is
the encoding of that document. -/
theorem C9_json_document (marshalIndent : JSONOutput → Str × Bool)
    (rel : Str → Str → Str × Bool) (dets : List Detection) (directory : Str) :
    ∃ (output : JSONOutput) (ts : List JSONToolData),
      formatJSONOutput rel dets directory = some output ∧
      formatJSON marshalIndent rel dets directory = some (marshalIndent output).1 ∧
      output.Directory = directory ∧
      output.Tools = some ts ∧
      (output.Detected = true ↔ dets ≠ []) ∧
      (dets ≠ [] ↔ ts ≠ []) ∧
      (dets = [] → output.Tools = some []) := by
  refine ⟨_, _, formatJSONOutput_eq rel dets directory, ?_, rfl, rfl, ?_, ?_, ?_⟩
  · unfold formatJSON
    rw [formatJSONOutput_eq rel dets directory]
    rfl
  · simp only [gt_iff_lt, decide_eq_true_eq, List.length_pos, ne_eq]
  · constructor
    · intro h hnil
      exact sortedKeys_ne_nil dets h (List.map_eq_nil_iff.mp hnil)
    · intro h he
      apply h
      rw [he]
      rfl
  · intro he
    rw [he]
    rfl

/-! ## C10: exit codes of the driver -/

theorem formatPlain_isSome (rel : Str → Str → Str × Bool) (dets : List Detection)
    (directory : Str) : ∃ out, formatPlain rel dets directory = some out := by
  by_cases h : dets = []
  · subst h
    exact ⟨_, rfl⟩
  · exact ⟨_, formatPlain_eq rel dets directory h⟩

theorem formatTable_length (rel : Str → Str → Str × Bool) (dets : List Detection)
    (directory : Str) : (formatTable rel dets directory).2.length = dets.length := by
  by_cases h : dets = []
  · subst h
    rfl
  · rw [formatTable_eq rel dets directory h]
    exact (slicesSortFunc_perm _ _).length_eq

theorem render_isSome (env : Env) (format : Str) (dets : List Detection) (absDir : Str) :
    ∃ r, render env format dets absDir = some r ∧ r.2.length = dets.length := by
  unfold render
  by_cases hj : format = bytes "json"
  · simp only [hj, if_true, formatJSON, formatJSONOutput_eq env.rel dets absDir,
      Option.map_some']
    exact ⟨_, rfl, rfl⟩
  · by_cases hc : format = bytes "compact"
    · simp only [hj, hc, if_true, if_false]
      exact ⟨_, rfl, rfl⟩
    · by_cases ht : format = bytes "table"
      · simp only [hj, hc, ht, if_true, if_false]
        exact ⟨_, rfl, formatTable_length env.rel dets absDir⟩
      · obtain ⟨out, hout⟩ := formatPlain_isSome env.rel dets absDir
        simp only [hj, hc, ht, if_false, hout, Option.map_some']
        exact ⟨_, rfl, rfl⟩


/-- C10: with the version and list flags unset, for every format and quiet
setting: if the target resolves to an existing directory the run scans it and
exits with 0 when `detectTools` returned at least one Match and with 1 when it
returned none; if the target cannot be resolved, does not exist or is not a
directory, the run exits with 2, `detectTools` is not called and nothing is
written to standard output. -/
theorem C10_exit_codes (env : Env) (flags : Flags)
    (hv : flags.v = false) (hversion : flags.version = false)
    (hl : flags.l = false) (hlist : flags.list = false) :
    (∀ absDir dets,
      env.abs (match flags.args with
        | [] => bytes "."
        | arg0 :: _ => arg0) = .ok absDir →
      env.stat absDir = .dir →
      detectTools env.join env.stat absDir = .ok dets →
      ∃ out, main env flags = some out ∧ out.scanned = true ∧
        (dets ≠ [] → out.exitCode = 0) ∧ (dets = [] → out.exitCode = 1)) ∧
    (∀ absDir,
      env.abs (match flags.args with
        | [] => bytes "."
        | arg0 :: _ => arg0) = .ok absDir →
      env.stat absDir ≠ .dir →
      ∃ out, main env flags = some out ∧ out.exitCode = 2 ∧ out.scanned = false ∧
        out.stdout = []) ∧
    (∀ err,
      env.abs (match flags.args with
        | [] => bytes "."
        | arg0 :: _ => arg0) = .error err →
      ∃ out, main env flags = some out ∧ out.exitCode = 2 ∧ out.scanned = false ∧
        out.stdout = []) := by
  refine ⟨?_, ?_, ?_⟩
  · intro absDir dets habs hstat hdet
    unfold main
    simp only [hv, hversion, hl, hlist, Bool.or_self, Bool.false_eq_true, if_false, habs,
      hstat, FsEntry.statOk, FsEntry.IsDir, Bool.not_true, hdet]
    have hcode : ∀ n : Nat, n = dets.length →
        (dets ≠ [] → (if n > 0 then 0 else 1) = 0) ∧ (dets = [] → (if n > 0 then 0 else 1) = 1) := by
      intro n hn
      subst hn
      constructor
      · intro h
        have : dets.length > 0 := List.length_pos.mpr h
        simp [this]
      · intro h
        subst h
        rfl
    by_cases hq : (flags.q || flags.quiet) = true
    · simp only [hq, if_true]
      exact ⟨_, rfl, rfl, hcode _ rfl⟩
    · simp only [hq, Bool.false_eq_true, if_false]
      obtain ⟨r, hr, hlen⟩ := render_isSome env
        (if flags.format ≠ bytes "plain" then flags.format else flags.f) dets absDir
      rw [hr]
      exact ⟨_, rfl, rfl, hcode _ hlen⟩
  · intro absDir habs hstat
    unfold main
    simp only [hv, hversion, hl, hlist, Bool.or_self, Bool.false_eq_true, if_false, habs]
    cases hs : env.stat absDir with
    | absent => exact ⟨_, rfl, rfl, rfl, rfl⟩
    | file => exact ⟨_, rfl, rfl, rfl, rfl⟩
    | dir => exact absurd hs hstat
  · intro err habs
    unfold main
    simp only [hv, hversion, hl, hlist, Bool.or_self, Bool.false_eq_true, if_false, habs]
    exact ⟨_, rfl, rfl, rfl, rfl⟩


/-- C10 at the command line `--format table /proj` on `aiderFs`. -/
theorem C10_exit_codes_witness :
    tableFlags.v = false ∧ tableFlags.version = false ∧
    tableFlags.l = false ∧ tableFlags.list = false ∧
    ((∀ absDir dets,
      exampleEnv.abs (match tableFlags.args with
        | [] => bytes "."
        | arg0 :: _ => arg0) = .ok absDir →
      exampleEnv.stat absDir = .dir →
      detectTools exampleEnv.join exampleEnv.stat absDir = .ok dets →
      ∃ out, main exampleEnv tableFlags = some out ∧ out.scanned = true ∧
        (dets ≠ [] → out.exitCode = 0) ∧ (dets = [] → out.exitCode = 1)) ∧
    (∀ absDir,
      exampleEnv.abs (match tableFlags.args with
        | [] => bytes "."
        | arg0 :: _ => arg0) = .ok absDir →
      exampleEnv.stat absDir ≠ .dir →
      ∃ out, main exampleEnv tableFlags = some out ∧ out.exitCode = 2 ∧ out.scanned = false ∧
        out.stdout = []) ∧
    (∀ err,
      exampleEnv.abs (match tableFlags.args with
        | [] => bytes "."
        | arg0 :: _ => arg0) = .error err →
      ∃ out, main exampleEnv tableFlags = some out ∧ out.exitCode = 2 ∧ out.scanned = false ∧
        out.stdout = [])) :=
  ⟨rfl, rfl, rfl, rfl, C10_exit_codes exampleEnv tableFlags rfl rfl rfl rfl⟩

set_option maxRecDepth 100000 in
/-- The run `--format table /proj` on `aiderFs` prints the table and exits
with 0. -/
theorem main_table_run :
    main exampleEnv tableFlags = some
      { stdout := bytes
          ("Tool                   | Type | Path\n" ++
           "-----------------------|------|-----\n" ++
           "Aider                  | dir  | .aider\n" ++
           "Aider                  | file | .aider.conf.yml\n" ++
           "Claude Code            | file | CLAUDE.md\n" ++
           "\n"),
        stderr := [], exitCode := 0, scanned := true } := by
  decide

/-- The run `-q /missing` on `aiderFs` reports the missing directory on
standard error and exits with 2 without scanning. -/
theorem main_missing_run :
    main exampleEnv missingFlags = some
      { stdout := [], stderr := bytes "Error: Directory does not exist: /missing\n",
        exitCode := 2, scanned := false } := by
  decide

/-! ## C11: quiet mode -/

/-- C11: with the version and list flags unset and `-q` or `--quiet` set, the
run writes nothing to standard output whatever the target, the detection
outcome and the format flag; on a valid target directory the whole outcome is
the exit code by emptiness of the scan result, and it is the same for every
`filepath.Rel`, JSON encoder, map order and format value, none of which is
consulted: no renderer is called. -/
theorem C11_quiet_writes_nothing (env : Env) (flags : Flags)
    (hv : flags.v = false) (hversion : flags.version = false)
    (hl : flags.l = false) (hlist : flags.list = false)
    (hq : (flags.q || flags.quiet) = true) :
    (∃ out, main env flags = some out ∧ out.stdout = []) ∧
    (∀ absDir dets,
      env.abs (match flags.args with
        | [] => bytes "."
        | arg0 :: _ => arg0) = .ok absDir →
      env.stat absDir = .dir →
      detectTools env.join env.stat absDir = .ok dets →
      ∀ (rel : Str → Str → Str × Bool) (marshalIndent : JSONOutput → Str × Bool)
        (rangeOrder : List Str → List Str) (f format : Str),
        main { env with rel := rel, marshalIndent := marshalIndent, rangeOrder := rangeOrder }
            { flags with f := f, format := format }
          = some { stdout := [], stderr := [],
                   exitCode := if dets.length > 0 then 0 else 1, scanned := true }) := by
  constructor
  · unfold main
    simp only [hv, hversion, hl, hlist, Bool.or_self, Bool.false_eq_true, if_false, hq, if_true]
    cases habs : env.abs (match flags.args with
        | [] => bytes "."
        | arg0 :: _ => arg0) with
    | error err => exact ⟨_, rfl, rfl⟩
    | ok absDir =>
      simp only
      cases hs : env.stat absDir with
      | absent => exact ⟨_, rfl, rfl⟩
      | file => exact ⟨_, rfl, rfl⟩
      | dir =>
        rw [detectTools_eq]
        exact ⟨_, rfl, rfl⟩
  · intro absDir dets habs hstat hdet rel marshalIndent rangeOrder f format
    unfold main
    simp only [hv, hversion, hl, hlist, Bool.or_self, Bool.false_eq_true, if_false, hq, if_true,
      habs, hstat, FsEntry.statOk, FsEntry.IsDir, Bool.not_true, hdet]

/-- C11 at the command line `-q --format json /proj` on `aiderFs`. -/
theorem C11_quiet_writes_nothing_witness :
    quietFlags.v = false ∧ quietFlags.version = false ∧
    quietFlags.l = false ∧ quietFlags.list = false ∧
    (quietFlags.q || quietFlags.quiet) = true ∧
    ((∃ out, main exampleEnv quietFlags = some out ∧ out.stdout = []) ∧
    (∀ absDir dets,
      exampleEnv.abs (match quietFlags.args with
        | [] => bytes "."
        | arg0 :: _ => arg0) = .ok absDir →
      exampleEnv.stat absDir = .dir →
      detectTools exampleEnv.join exampleEnv.stat absDir = .ok dets →
      ∀ (rel : Str → Str → Str × Bool) (marshalIndent : JSONOutput → Str × Bool)
        (rangeOrder : List Str → List Str) (f format : Str),
        main { exampleEnv with rel := rel, marshalIndent := marshalIndent,
                               rangeOrder := rangeOrder }
            { quietFlags with f := f, format := format }
          = some { stdout := [], stderr := [],
                   exitCode := if dets.length > 0 then 0 else 1, scanned := true })) :=
  ⟨rfl, rfl, rfl, rfl, rfl, C11_quiet_writes_nothing exampleEnv quietFlags rfl rfl rfl rfl rfl⟩

set_option maxRecDepth 100000 in
/-- The run `-q --format json /proj` on `aiderFs` writes nothing and exits
with 0. -/
theorem main_quiet_run :
    main exampleEnv quietFlags
      = some { stdout := [], stderr := [], exitCode := 0, scanned := true } := by
  decide

/-! ## C12: selection of the format -/

/-- C12: with `s` the value of `-f` and `l` the value of `--format`, the
effective format is `l` when `l` is not "plain" and `s` otherwise; a run that
renders prints the output of `formatJSON` for "json", of `formatCompact` for
"compact", of `formatTable` for "table" and of `formatPlain` for every other
string, followed by a newline, and writes nothing to standard error. -/
theorem C12_format_selection (env : Env) (flags : Flags) (absDir : Str)
    (dets : List Detection)
    (hv : flags.v = false) (hversion : flags.version = false)
    (hl : flags.l = false) (hlist : flags.list = false)
    (hq : (flags.q || flags.quiet) = false)
    (habs : env.abs (match flags.args with
        | [] => bytes "."
        | arg0 :: _ => arg0) = .ok absDir)
    (hstat : env.stat absDir = .dir)
    (hdet : detectTools env.join env.stat absDir = .ok dets) :
    ∃ text, main env flags = some
        { stdout := text ++ bytes "\n", stderr := [],
          exitCode := if dets.length > 0 then 0 else 1, scanned := true } ∧
      ((if flags.format ≠ bytes "plain" then flags.format else flags.f) = bytes "json" →
        formatJSON env.marshalIndent env.rel dets absDir = some text) ∧
      ((if flags.format ≠ bytes "plain" then flags.format else flags.f) = bytes "compact" →
        text = formatCompact env.rangeOrder dets absDir) ∧
      ((if flags.format ≠ bytes "plain" then flags.format else flags.f) = bytes "table" →
        text = (formatTable env.rel dets absDir).1) ∧
      ((if flags.format ≠ bytes "plain" then flags.format else flags.f) ≠ bytes "json" →
        (if flags.format ≠ bytes "plain" then flags.format else flags.f) ≠ bytes "compact" →
        (if flags.format ≠ bytes "plain" then flags.format else flags.f) ≠ bytes "table" →
        formatPlain env.rel dets absDir = some text) := by
  unfold main
  simp only [hv, hversion, hl, hlist, Bool.or_self, Bool.false_eq_true, if_false, habs,
    hstat, FsEntry.statOk, FsEntry.IsDir, Bool.not_true, hdet, hq]
  generalize (if flags.format ≠ bytes "plain" then flags.format else flags.f) = eff
  unfold render
  by_cases hj : eff = bytes "json"
  · subst hj
    obtain ⟨doc, hdoc⟩ : ∃ doc, formatJSONOutput env.rel dets absDir = some doc :=
      ⟨_, formatJSONOutput_eq env.rel dets absDir⟩
    refine ⟨(env.marshalIndent doc).1, ?_, ?_, ?_, ?_, ?_⟩
    · simp only [if_true, formatJSON, hdoc, Option.map_some']
    · intro _
      simp only [formatJSON, hdoc, Option.map_some']
    · intro h
      exact absurd h (by decide)
    · intro h
      exact absurd h (by decide)
    · intro h
      exact absurd rfl h
  · by_cases hc : eff = bytes "compact"
    · subst hc
      refine ⟨formatCompact env.rangeOrder dets absDir, ?_, ?_, ?_, ?_, ?_⟩
      · simp only [hj, if_false, if_true, Option.map_some']
      · intro h
        exact absurd h hj
      · intro _
        rfl
      · intro h
        exact absurd h (by decide)
      · intro _ h
        exact absurd rfl h
    · by_cases ht : eff = bytes "table"
      · subst ht
        refine ⟨(formatTable env.rel dets absDir).1, ?_, ?_, ?_, ?_, ?_⟩
        · simp only [hj, hc, if_false, if_true, Option.map_some',
            formatTable_length env.rel dets absDir]
        · intro h
          exact absurd h hj
        · intro h
          exact absurd h hc
        · intro _
          rfl
        · intro _ _ h
          exact absurd rfl h
      · obtain ⟨out, hout⟩ := formatPlain_isSome env.rel dets absDir
        refine ⟨out, ?_, ?_, ?_, ?_, ?_⟩
        · simp only [hj, hc, ht, if_false, hout, Option.map_some']
        · intro h
          exact absurd h hj
        · intro h
          exact absurd h hc
        · intro h
          exact absurd h ht
        · intro _ _ _
          exact hout

set_option maxRecDepth 100000 in
/-- C12 at the command line `-f json --format compact /proj` on `aiderFs`: the
long spelling wins. -/
theorem C12_format_selection_witness :
    conflictFlags.v = false ∧ conflictFlags.version = false ∧
    conflictFlags.l = false ∧ conflictFlags.list = false ∧
    (conflictFlags.q || conflictFlags.quiet) = false ∧
    exampleEnv.abs (match conflictFlags.args with
        | [] => bytes "."
        | arg0 :: _ => arg0) = .ok (bytes "/proj") ∧
    exampleEnv.stat (bytes "/proj") = .dir ∧
    detectTools exampleEnv.join exampleEnv.stat (bytes "/proj") = .ok aiderDetections ∧
    ∃ text, main exampleEnv conflictFlags = some
        { stdout := text ++ bytes "\n", stderr := [],
          exitCode := if aiderDetections.length > 0 then 0 else 1, scanned := true } ∧
      ((if conflictFlags.format ≠ bytes "plain" then conflictFlags.format else conflictFlags.f)
          = bytes "json" →
        formatJSON exampleEnv.marshalIndent exampleEnv.rel aiderDetections (bytes "/proj")
          = some text) ∧
      ((if conflictFlags.format ≠ bytes "plain" then conflictFlags.format else conflictFlags.f)
          = bytes "compact" →
        text = formatCompact exampleEnv.rangeOrder aiderDetections (bytes "/proj")) ∧
      ((if conflictFlags.format ≠ bytes "plain" then conflictFlags.format else conflictFlags.f)
          = bytes "table" →
        text = (formatTable exampleEnv.rel aiderDetections (bytes "/proj")).1) ∧
      ((if conflictFlags.format ≠ bytes "plain" then conflictFlags.format else conflictFlags.f)
          ≠ bytes "json" →
        (if conflictFlags.format ≠ bytes "plain" then conflictFlags.format else conflictFlags.f)
          ≠ bytes "compact" →
        (if conflictFlags.format ≠ bytes "plain" then conflictFlags.format else conflictFlags.f)
          ≠ bytes "table" →
        formatPlain exampleEnv.rel aiderDetections (bytes "/proj") = some text) :=
  have hdet : detectTools exampleEnv.join exampleEnv.stat (bytes "/proj")
      = .ok aiderDetections := by
    rw [detectTools_eq]
    exact congrArg Except.ok (by decide)
  ⟨rfl, rfl, rfl, rfl, rfl, rfl, by decide, hdet,
   C12_format_selection exampleEnv conflictFlags (bytes "/proj") aiderDetections
     rfl rfl rfl rfl rfl rfl (by decide) hdet⟩

set_option maxRecDepth 100000 in
/-- The run `-f json --format compact /proj` on `aiderFs` prints the compact
output. -/
theorem main_conflict_run :
    main exampleEnv conflictFlags
      = some { stdout := bytes "Aider, Claude Code\n", stderr := [], exitCode := 0,
               scanned := true } := by
  decide

/-! ## C13: failed relativization -/

set_option maxRecDepth 100000 in
/-- The renderers called directly on a match that no scan produces: for the
match with the relative path `CLAUDE.md` and the directory `/proj`
relativization fails, and each of the three renderers then shows the empty
string, not the path of the match, where the relative path would appear. -/
theorem renderers_on_stray_match :
    (relUnix (bytes "/proj") strayDetection.Path).2 = true ∧
    pathClaimed relUnix (bytes "/proj") strayDetection = bytes "CLAUDE.md" ∧
    formatPlain relUnix [strayDetection] (bytes "/proj") = some (bytes
      ("AI coding tools detected in /proj:\n\n" ++
       "  Claude Code\n" ++
       "    Anthropic's CLI for Claude\n" ++
       "    https://claude.ai/code\n" ++
       "    Files:\n" ++
       "      [file] \n" ++
       "\n")) ∧
    formatJSONOutput relUnix [strayDetection] (bytes "/proj") = some
      { Directory := bytes "/proj", Detected := true,
        Tools := some [{ Name := bytes "Claude Code",
                         Description := bytes "Anthropic's CLI for Claude",
                         URL := bytes "https://claude.ai/code",
                         Paths := some [{ Path := [], Type_ := bytes "file" }] }] } ∧
    (formatTable relUnix [strayDetection] (bytes "/proj")).1 = bytes
      ("Tool                   | Type | Path\n" ++
       "-----------------------|------|-----\n" ++
       "Claude Code            | file | \n") ∧
    plainEntry relUnix (bytes "/proj") strayDetection
      ≠ bytes "      [file] " ++ pathClaimed relUnix (bytes "/proj") strayDetection ++ bytes "\n" ∧
    (jsonPathData relUnix (bytes "/proj") strayDetection).Path
      ≠ pathClaimed relUnix (bytes "/proj") strayDetection ∧
    tableRow relUnix (bytes "/proj") strayDetection
      ≠ bytes "Claude Code            | file | " ++
          pathClaimed relUnix (bytes "/proj") strayDetection ++ bytes "\n" := by
  decide

theorem relUnix_error_empty (b p : Str) (h : (relUnix b p).2 = true) : (relUnix b p).1 = [] := by
  unfold relUnix at h ⊢
  split
  · rename_i h1
    rw [if_pos h1] at h
    exact absurd h (by simp)
  · rename_i h1
    rw [if_neg h1] at h
    split
    · rfl
    · rename_i h2
      rw [if_neg h2] at h
      exact absurd h (by simp)

/-- The renderers as functions of any list of matches: with a `filepath.Rel`
that returns the empty string with every error, each of `formatPlain`,
`formatJSON` and `formatTable` still renders (no panic), and in the place of
the relative path of a match whose relativization fails it shows the empty
string; the other matches show their relative path. -/
theorem failed_rel_shows_empty (rel : Str → Str → Str × Bool)
    (hempty : ∀ b p, (rel b p).2 = true → (rel b p).1 = [])
    (dets : List Detection) (directory : Str) (hne : dets ≠ []) :
    ∃ (names : List Str) (rows : List Detection),
      (∀ n, n ∈ names ↔ ∃ d ∈ dets, d.Tool.Name = n) ∧ rows.Perm dets ∧
      formatPlain rel dets directory = some (plainHeader directory ++
        names.flatMap (fun n =>
          match matchesOf dets n with
          | [] => []
          | d0 :: ds =>
            bytes "  " ++ n ++ bytes "\n" ++
            (bytes "    " ++ d0.Tool.Description ++ bytes "\n") ++
            (bytes "    " ++ d0.Tool.URL ++ bytes "\n") ++
            bytes "    Files:\n" ++
            (d0 :: ds).flatMap (fun d =>
              bytes "      [" ++ (if d.IsDirectory then bytes "dir " else bytes "file") ++
                bytes "] " ++
                (if (rel directory d.Path).2 then [] else (rel directory d.Path).1) ++
                bytes "\n") ++
            bytes "\n")) ∧
      (∃ output, formatJSONOutput rel dets directory = some output ∧
        output.Tools = some (names.map (fun n =>
          { Name := n,
            Description := match matchesOf dets n with
              | [] => []
              | d0 :: _ => d0.Tool.Description,
            URL := match matchesOf dets n with
              | [] => []
              | d0 :: _ => d0.Tool.URL,
            Paths := some ((matchesOf dets n).map (fun d =>
              { Path := if (rel directory d.Path).2 then [] else (rel directory d.Path).1,
                Type_ := if d.IsDirectory then bytes "directory" else bytes "file" })) }))) ∧
      (formatTable rel dets directory).1 = tableHeader ++ rows.flatMap (fun d =>
        sprintfLeft22 (if d.Tool.Name.length > 22 then d.Tool.Name.take 22 else d.Tool.Name) ++
          bytes " | " ++ (if d.IsDirectory then bytes "dir " else bytes "file") ++ bytes " | " ++
          (if (rel directory d.Path).2 then [] else (rel directory d.Path).1) ++ bytes "\n") := by
  have hshown : ∀ d : Detection,
      (if (rel directory d.Path).2 then [] else (rel directory d.Path).1)
        = (rel directory d.Path).1 := by
    intro d
    by_cases h : (rel directory d.Path).2 = true
    · simp only [h, if_true]
      exact (hempty _ _ h).symm
    · simp only [h, Bool.false_eq_true, if_false]
  simp only [hshown]
  refine ⟨slicesSort (groupByTool dets).2, slicesSortFunc detectionCmp dets,
    (sortedKeys_spec dets).2, slicesSortFunc_perm _ _, ?_, ?_, ?_⟩
  · rw [formatPlain_eq rel dets directory hne]
    congr 3
    funext n
    unfold plainGroupText
    cases matchesOf dets n <;> rfl
  · exact ⟨_, formatJSONOutput_eq rel dets directory, rfl⟩
  · rw [formatTable_eq rel dets directory hne]
    rfl

/-- The same at `relUnix` and the match that cannot be made relative. -/
theorem failed_rel_shows_empty_on_stray_match :
    (∀ b p, (relUnix b p).2 = true → (relUnix b p).1 = []) ∧ [strayDetection] ≠ [] ∧
    ∃ (names : List Str) (rows : List Detection),
      (∀ n, n ∈ names ↔ ∃ d ∈ [strayDetection], d.Tool.Name = n) ∧
      rows.Perm [strayDetection] ∧
      formatPlain relUnix [strayDetection] (bytes "/proj") = some (plainHeader (bytes "/proj") ++
        names.flatMap (fun n =>
          match matchesOf [strayDetection] n with
          | [] => []
          | d0 :: ds =>
            bytes "  " ++ n ++ bytes "\n" ++
            (bytes "    " ++ d0.Tool.Description ++ bytes "\n") ++
            (bytes "    " ++ d0.Tool.URL ++ bytes "\n") ++
            bytes "    Files:\n" ++
            (d0 :: ds).flatMap (fun d =>
              bytes "      [" ++ (if d.IsDirectory then bytes "dir " else bytes "file") ++
                bytes "] " ++
                (if (relUnix (bytes "/proj") d.Path).2 then []
                 else (relUnix (bytes "/proj") d.Path).1) ++
                bytes "\n") ++
            bytes "\n")) ∧
      (∃ output, formatJSONOutput relUnix [strayDetection] (bytes "/proj") = some output ∧
        output.Tools = some (names.map (fun n =>
          { Name := n,
            Description := match matchesOf [strayDetection] n with
              | [] => []
              | d0 :: _ => d0.Tool.Description,
            URL := match matchesOf [strayDetection] n with
              | [] => []
              | d0 :: _ => d0.Tool.URL,
            Paths := some ((matchesOf [strayDetection] n).map (fun d =>
              { Path := if (relUnix (bytes "/proj") d.Path).2 then []
                        else (relUnix (bytes "/proj") d.Path).1,
                Type_ := if d.IsDirectory then bytes "directory" else bytes "file" })) }))) ∧
      (formatTable relUnix [strayDetection] (bytes "/proj")).1
        = tableHeader ++ rows.flatMap (fun d =>
          sprintfLeft22 (if d.Tool.Name.length > 22 then d.Tool.Name.take 22 else d.Tool.Name)
            ++ bytes " | " ++ (if d.IsDirectory then bytes "dir " else bytes "file")
            ++ bytes " | " ++
            (if (relUnix (bytes "/proj") d.Path).2 then []
             else (relUnix (bytes "/proj") d.Path).1) ++ bytes "\n") :=
  ⟨relUnix_error_empty, by decide,
   failed_rel_shows_empty relUnix relUnix_error_empty [strayDetection] (bytes "/proj")
     (by decide)⟩

/-! ## C14: the name column of the table -/

set_option maxRecDepth 100000 in
/-- The table renderer called directly on a tool that is not in the registry:
for a tool name of 12 two-byte characters (24 bytes) `formatTable` cuts the
name to its first 22 bytes, which are 11 characters, and pads it with 11
spaces to 22 characters, 33 bytes. -/
theorem formatTable_accented_name :
    runeCountInString accentedDetection.Tool.Name = 12 ∧
    accentedDetection.Tool.Name.length = 24 ∧
    (formatTable relUnix [accentedDetection] (bytes "/proj")).1 =
      bytes "Tool                   | Type | Path\n" ++
      bytes "-----------------------|------|-----\n" ++
      ([195, 169, 195, 169, 195, 169, 195, 169, 195, 169, 195, 169,
        195, 169, 195, 169, 195, 169, 195, 169, 195, 169] ++
       bytes "           " ++ bytes " | file | x\n") ∧
    ¬ accentedDetection.Tool.Name <+: tableRow relUnix (bytes "/proj") accentedDetection := by
  decide

/-! ## C15: the registry listing -/

theorem listSupportedTools_eq :
    listSupportedTools = bytes "Supported AI coding tools:\n\n" ++
      (slicesSortFunc
        (fun (a b : Tool) => stringsCompare (stringsToLower a.Name) (stringsToLower b.Name))
        tools).flatMap listEntryText := by
  unfold listSupportedTools
  have hstep : ∀ (sb : Str) (tool : Tool),
      (let sb := sb ++ (bytes "  " ++ tool.Name ++ bytes "\n")
       let sb := sb ++ (bytes "    " ++ tool.Description ++ bytes "\n")
       let sb := sb ++ (bytes "    URL: " ++ tool.URL ++ bytes "\n")
       let sb :=
         if tool.Files.length > 0 then
           sb ++ (bytes "    Files: " ++ stringsJoin tool.Files (bytes ", ") ++ bytes "\n")
         else sb
       let sb :=
         if tool.Directories.length > 0 then
           sb ++ (bytes "    Directories: " ++
             (stringsJoin tool.Directories (bytes "/, ") ++ bytes "/") ++ bytes "\n")
         else sb
       sb ++ bytes "\n") = sb ++ listEntryText tool := by
    intro sb tool
    unfold listEntryText
    by_cases h1 : tool.Files.length > 0 <;> by_cases h2 : tool.Directories.length > 0 <;>
      simp only [h1, h2, if_true, if_false, List.append_assoc, List.nil_append]
  simp only [hstep]
  rw [foldl_append_flatMap]

set_option maxRecDepth 100000 in
/-- C15: `listSupportedTools` renders every entry of the registry exactly once
(the 19 entries of `tools`, which are pairwise different), in strictly
increasing, hence non-decreasing, byte-wise order of the lower-cased name,
each with its description, URL and candidate file and directory names; it
takes nothing from the filesystem: a run with the list flag prints it and
exits with 0 without consulting `os.Stat`, whatever the environment. -/
theorem C15_list_sorted_registry :
    (∃ sorted : List Tool,
      sorted.Perm tools ∧ tools.Nodup ∧ sorted.length = 19 ∧
      sorted.Pairwise (fun a b =>
        stringsCompare (stringsToLower a.Name) (stringsToLower b.Name) < 0) ∧
      listSupportedTools = bytes "Supported AI coding tools:\n\n" ++
        sorted.flatMap (fun tool =>
          bytes "  " ++ tool.Name ++ bytes "\n" ++
          (bytes "    " ++ tool.Description ++ bytes "\n") ++
          (bytes "    URL: " ++ tool.URL ++ bytes "\n") ++
          (if tool.Files.length > 0 then
            bytes "    Files: " ++ stringsJoin tool.Files (bytes ", ") ++ bytes "\n" else []) ++
          (if tool.Directories.length > 0 then
            bytes "    Directories: " ++
              (stringsJoin tool.Directories (bytes "/, ") ++ bytes "/") ++ bytes "\n"
           else []) ++
          bytes "\n")) ∧
    (∀ (env : Env) (flags : Flags), flags.v = false → flags.version = false →
      (flags.l || flags.list) = true →
      main env flags
        = some { stdout := listSupportedTools, stderr := [], exitCode := 0, scanned := false }) := by
  constructor
  · refine ⟨slicesSortFunc
      (fun (a b : Tool) => stringsCompare (stringsToLower a.Name) (stringsToLower b.Name))
      tools, slicesSortFunc_perm _ _, by decide, by decide, by decide, ?_⟩
    exact listSupportedTools_eq
  · intro env flags hv hversion hl
    unfold main
    simp only [hv, hversion, Bool.or_self, Bool.false_eq_true, if_false, hl, if_true]

set_option maxRecDepth 100000 in
/-- The names in the order in which `listSupportedTools` prints them. -/
theorem listSupportedTools_order :
    (slicesSortFunc
      (fun (a b : Tool) => stringsCompare (stringsToLower a.Name) (stringsToLower b.Name))
      tools).map (fun t => t.Name)
    = [bytes "AGENTS.md Standard", bytes "Aider", bytes "Amazon Q Developer",
       bytes "Augment Code", bytes "Bolt", bytes "Claude Code", bytes "Cline",
       bytes "Codex CLI", bytes "Continue.dev", bytes "Cursor", bytes "Gemini CLI",
       bytes "GitHub Copilot", bytes "Kiro", bytes "Replit Agent", bytes "Sourcegraph Cody",
       bytes "Supermaven", bytes "Tabnine", bytes "Windsurf", bytes "Zed"] := by
  decide

/-- The run `--list -q --format json /missing` prints the listing and exits
with 0, although the target does not exist. -/
theorem main_list_run :
    main exampleEnv listFlags
      = some { stdout := listSupportedTools, stderr := [], exitCode := 0, scanned := false } := by
  rfl

/-! ## C17: the renderers and the caller's slice -/

set_option maxRecDepth 100000 in
/-- C17 at the failing input: `formatTable` on the ResultSet that the scan of
`/proj` on `aiderFs` returns leaves the caller's slice reordered (sorted by
name and path), so a later `formatPlain` of the same slice prints the Aider
group in another order than `formatPlain` of the ResultSet as returned. -/
theorem C17_failing_input :
    detectTools joinUnix aiderFs (bytes "/proj") = .ok aiderDetections ∧
    (formatTable relUnix aiderDetections (bytes "/proj")).2 = aiderDetectionsSorted ∧
    aiderDetectionsSorted ≠ aiderDetections ∧
    formatPlain relUnix aiderDetectionsSorted (bytes "/proj") = some (bytes
      ("AI coding tools detected in /proj:\n\n" ++
       "  Aider\n" ++
       "    AI pair programming in your terminal\n" ++
       "    https://aider.chat\n" ++
       "    Files:\n" ++
       "      [dir ] .aider\n" ++
       "      [file] .aider.conf.yml\n" ++
       "\n" ++
       "  Claude Code\n" ++
       "    Anthropic's CLI for Claude\n" ++
       "    https://claude.ai/code\n" ++
       "    Files:\n" ++
       "      [file] CLAUDE.md\n" ++
       "\n")) ∧
    formatPlain relUnix aiderDetectionsSorted (bytes "/proj")
      ≠ formatPlain relUnix aiderDetections (bytes "/proj") := by
  refine ⟨?_, by decide, by decide, by decide, by decide⟩
  rw [detectTools_eq]
  exact congrArg Except.ok (by decide)

/-! ## C18: order of the rows of one tool -/

set_option maxRecDepth 100000 in
/-- C18 fails as stated: on the ResultSet that the scan of `/proj` on
`aiderFs` returns, the scan has the Aider matches in the order
`.aider.conf.yml`, `.aider`, and the table has their rows in the order
`.aider`, `.aider.conf.yml`. -/
theorem C18_counterexample :
    detectTools joinUnix aiderFs (bytes "/proj") = .ok aiderDetections ∧
    (matchesOf aiderDetections (bytes "Aider")).map (fun d => d.Path)
      = [bytes "/proj/.aider.conf.yml", bytes "/proj/.aider"] ∧
    (matchesOf (formatTable relUnix aiderDetections (bytes "/proj")).2 (bytes "Aider")).map
        (fun d => d.Path)
      = [bytes "/proj/.aider", bytes "/proj/.aider.conf.yml"] ∧
    (formatTable relUnix aiderDetections (bytes "/proj")).1 = bytes
      ("Tool                   | Type | Path\n" ++
       "-----------------------|------|-----\n" ++
       "Aider                  | dir  | .aider\n" ++
       "Aider                  | file | .aider.conf.yml\n" ++
       "Claude Code            | file | CLAUDE.md\n") ∧
    matchesOf (formatTable relUnix aiderDetections (bytes "/proj")).2 (bytes "Aider")
      ≠ matchesOf aiderDetections (bytes "Aider") := by
  refine ⟨?_, by decide, by decide, by decide, by decide⟩
  rw [detectTools_eq]
  exact congrArg Except.ok (by decide)

theorem keyLe_same_name (a b : Detection) (h : keyLe a b) (hn : a.Tool.Name = b.Tool.Name) :
    stringsCompare a.Path b.Path ≤ 0 := by
  rcases h with h | h
  · rw [hn, stringsCompare_self] at h
    exact absurd h (lt_irrefl 0)
  · exact h.2

/-- C18 as amended: for every non-empty ResultSet, in particular every one
returned by `detectTools`, the rows of the table are sorted by tool name and,
within one tool, by path: the rows of one tool are that tool's matches
rearranged into non-decreasing byte-wise order of path, whatever their order
in the scan. -/
theorem C18_table_rows_by_path (rel : Str → Str → Str × Bool) (dets : List Detection)
    (d : Str) (hne : dets ≠ []) :
    ∃ rows : List Detection,
      (formatTable rel dets d).1 = tableHeader ++ rows.flatMap (tableRow rel d) ∧
      rows.Perm dets ∧
      rows.Pairwise (fun a b => stringsCompare a.Tool.Name b.Tool.Name ≤ 0) ∧
      ∀ n, (matchesOf rows n).Perm (matchesOf dets n) ∧
        (matchesOf rows n).Pairwise (fun a b => stringsCompare a.Path b.Path ≤ 0) := by
  have hsorted := slicesSortFunc_detectionCmp_sorted dets
  refine ⟨slicesSortFunc detectionCmp dets, ?_, slicesSortFunc_perm _ _, ?_, ?_⟩
  · rw [formatTable_eq rel dets d hne]
  · refine hsorted.imp ?_
    intro a b hab
    rcases hab with h | h
    · exact le_of_lt h
    · rw [h.1, stringsCompare_self]
  · intro n
    constructor
    · exact (slicesSortFunc_perm detectionCmp dets).filter _
    · have hsub : (matchesOf (slicesSortFunc detectionCmp dets) n).Pairwise keyLe :=
        hsorted.sublist (List.filter_sublist _)
      have hmem := List.Pairwise.and_mem.mp hsub
      refine hmem.imp ?_
      intro a b hab
      obtain ⟨ha, hb, hle⟩ := hab
      exact keyLe_same_name a b hle
        ((matchesOf_name _ n a ha).trans (matchesOf_name _ n b hb).symm)

set_option maxRecDepth 100000 in
/-- C18 as amended, at the scan of `/proj` on `aiderFs`. -/
theorem C18_table_rows_by_path_witness :
    detectTools joinUnix aiderFs (bytes "/proj") = .ok aiderDetections ∧
    aiderDetections ≠ [] ∧
    ∃ rows : List Detection,
      (formatTable relUnix aiderDetections (bytes "/proj")).1
        = tableHeader ++ rows.flatMap (tableRow relUnix (bytes "/proj")) ∧
      rows.Perm aiderDetections ∧
      rows.Pairwise (fun a b => stringsCompare a.Tool.Name b.Tool.Name ≤ 0) ∧
      ∀ n, (matchesOf rows n).Perm (matchesOf aiderDetections n) ∧
        (matchesOf rows n).Pairwise (fun a b => stringsCompare a.Path b.Path ≤ 0) :=
  have hdet : detectTools joinUnix aiderFs (bytes "/proj") = .ok aiderDetections := by
    rw [detectTools_eq]
    exact congrArg Except.ok (by decide)
  ⟨hdet, by decide,
   C18_table_rows_by_path relUnix aiderDetections (bytes "/proj") (by decide)⟩

/-! ## C19: names in the registry -/

theorem mem_detectSpec (join : Str → Str → Str) (fs : Str → FsEntry) (d : Str)
    (m : Detection) (h : m ∈ detectSpec join fs d) : m.Tool ∈ tools := by
  have hspec : detectSpec join fs d = tools.flatMap (toolMatches join fs d) := rfl
  rw [hspec, List.mem_flatMap] at h
  obtain ⟨tool, htool, hm⟩ := h
  rw [toolMatches_tool join fs d tool m hm]
  exact htool

theorem registry_names_nodup : (tools.map (fun t => t.Name)).Nodup := by
  decide

/-- C19: the names of the entries of `tools` are pairwise distinct, so two
registry entries with the same name are the same entry; every Match returned
by `detectTools` carries a registry entry, hence the matches grouped under one
name all carry one and the same entry, whose description and URL are those
printed for the group. -/
theorem C19_registry_names_distinct :
    (tools.map (fun t => t.Name)).Nodup ∧
    (∀ t1 ∈ tools, ∀ t2 ∈ tools, t1.Name = t2.Name → t1 = t2) ∧
    (∀ (join : Str → Str → Str) (fs : Str → FsEntry) (d : Str) (dets : List Detection),
      detectTools join fs d = .ok dets →
      (∀ m ∈ dets, m.Tool ∈ tools) ∧
      ∀ n, ∀ m1 ∈ matchesOf dets n, ∀ m2 ∈ matchesOf dets n,
        m1.Tool = m2.Tool ∧ m1.Tool.Description = m2.Tool.Description ∧
        m1.Tool.URL = m2.Tool.URL) := by
  have hinj : ∀ t1 ∈ tools, ∀ t2 ∈ tools, t1.Name = t2.Name → t1 = t2 := fun t1 h1 t2 h2 he =>
    List.inj_on_of_nodup_map registry_names_nodup h1 h2 he
  refine ⟨registry_names_nodup, hinj, ?_⟩
  intro join fs d dets hdet
  rw [detectTools_eq] at hdet
  have hd : detectSpec join fs d = dets := by
    injection hdet
  have hmem : ∀ m ∈ dets, m.Tool ∈ tools := by
    intro m hm
    rw [← hd] at hm
    exact mem_detectSpec join fs d m hm
  refine ⟨hmem, ?_⟩
  intro n m1 h1 m2 h2
  have hsame : m1.Tool = m2.Tool := by
    apply hinj
    · exact hmem m1 (List.mem_of_mem_filter h1)
    · exact hmem m2 (List.mem_of_mem_filter h2)
    · exact (matchesOf_name dets n m1 h1).trans (matchesOf_name dets n m2 h2).symm
  exact ⟨hsame, by rw [hsame], by rw [hsame]⟩

/-! ## C20: distinct paths -/

set_option maxRecDepth 100000 in
/-- Go's documented examples of `Clean` and `Join`, on the model. -/
theorem filepathJoin_on_samples :
    filepathClean (bytes "a//b/./c/..") = bytes "a/b" ∧
    filepathClean (bytes "/../a/b/../././/c") = bytes "/a/c" ∧
    filepathClean (bytes "../../a/..") = bytes "../.." ∧
    filepathClean (bytes "a/../..") = bytes ".." ∧
    filepathClean (bytes "/") = bytes "/" ∧
    filepathClean (bytes "./") = bytes "." ∧
    filepathJoin (bytes "a") (bytes "b/c") = bytes "a/b/c" ∧
    filepathJoin (bytes "a/b") (bytes "../../../xyz") = bytes "../xyz" ∧
    filepathJoin (bytes "") (bytes "") = bytes "" ∧
    filepathJoin (bytes "a") (bytes "") = bytes "a" ∧
    filepathJoin (bytes "") (bytes "a") = bytes "a" ∧
    filepathJoin (bytes "/") (bytes "CLAUDE.md") = bytes "/CLAUDE.md" ∧
    filepathJoin (bytes "/proj/") (bytes ".github/copilot-instructions.md")
      = bytes "/proj/.github/copilot-instructions.md" := by
  decide

theorem detectSpec_eq_candidates (join : Str → Str → Str) (fs : Str → FsEntry) (d : Str) :
    detectSpec join fs d
      = (candidates.filter (fun c =>
          decide (fs (join d c.2.2) = (if c.2.1 then FsEntry.dir else FsEntry.file)))).map
        (fun c => ({ Tool := c.1, Path := join d c.2.2, IsDirectory := c.2.1 } : Detection)) := by
  unfold detectSpec candidates
  rw [filter_flatMap_eq, List.map_flatMap]
  apply flatMap_congr_mem
  intro tool _
  simp [List.filter_append, List.filter_map, List.map_map, Function.comp_def]

set_option maxRecDepth 100000 in
theorem candidates_kind_name_nodup : (candidates.map (fun c => c.2)).Nodup := by
  decide

theorem fsEntry_kind_inj (e : FsEntry) (k1 k2 : Bool)
    (h1 : e = (if k1 then FsEntry.dir else FsEntry.file))
    (h2 : e = (if k2 then FsEntry.dir else FsEntry.file)) : k1 = k2 := by
  cases k1 <;> cases k2 <;> simp_all

/-- With a join that sends distinct candidate names to distinct paths, the
paths of the matches of a scan are pairwise distinct. -/
theorem detectSpec_paths_nodup (join : Str → Str → Str) (fs : Str → FsEntry) (d : Str)
    (hinj : ∀ n ∈ candidateNames, ∀ m ∈ candidateNames, join d n = join d m → n = m) :
    ((detectSpec join fs d).map (fun m => m.Path)).Nodup := by
  rw [detectSpec_eq_candidates, List.map_map]
  have hnd : (candidates.filter (fun c =>
      decide (fs (join d c.2.2) = (if c.2.1 then FsEntry.dir else FsEntry.file)))).Nodup :=
    (List.Nodup.of_map _ candidates_kind_name_nodup).filter _
  refine List.Nodup.map_on ?_ hnd
  intro c1 h1 c2 h2 hpath
  simp only [Function.comp_apply] at hpath
  rw [List.mem_filter] at h1 h2
  obtain ⟨hc1, hf1⟩ := h1
  obtain ⟨hc2, hf2⟩ := h2
  have hname : c1.2.2 = c2.2.2 :=
    hinj _ (List.mem_map_of_mem _ hc1) _ (List.mem_map_of_mem _ hc2) hpath
  have hf1' := of_decide_eq_true hf1
  have hf2' := of_decide_eq_true hf2
  rw [← hpath] at hf2'
  have hkind : c1.2.1 = c2.2.1 := fsEntry_kind_inj _ _ _ hf1' hf2'
  exact List.inj_on_of_nodup_map candidates_kind_name_nodup hc1 hc2 (Prod.ext hkind hname)

theorem detectionCmp_ne_zero (a b : Detection) (h : a.Path ≠ b.Path) : detectionCmp a b ≠ 0 := by
  unfold detectionCmp
  by_cases hn : a.Tool.Name = b.Tool.Name
  · rw [if_neg (not_not.mpr hn)]
    exact fun he => h ((stringsCompare_eq_zero _ _).mp he)
  · rw [if_pos hn]
    exact fun he => hn ((stringsCompare_eq_zero _ _).mp he)

theorem bytes_slash : bytes "/" = [47] := by decide

theorem splitSlash_ne_nil (p : Str) : splitSlash p ≠ [] := by
  cases p with
  | nil => simp [splitSlash]
  | cons c rest =>
    simp only [splitSlash]
    split
    · simp
    · split <;> simp

theorem splitSlash_append_slash (a b : Str) :
    splitSlash (a ++ 47 :: b) = splitSlash a ++ splitSlash b := by
  induction a with
  | nil => simp [splitSlash]
  | cons c rest ih =>
    simp only [List.cons_append, splitSlash, List.append_eq]
    by_cases hc : c = 47
    · simp only [hc, if_true, ih, List.cons_append]
    · simp only [hc, if_false, ih]
      obtain ⟨h, t, ht⟩ := List.exists_cons_of_ne_nil (splitSlash_ne_nil rest)
      rw [ht]
      simp

theorem splitSlash_no_slash (p : Str) : ∀ e ∈ splitSlash p, 47 ∉ e := by
  induction p with
  | nil => simp [splitSlash]
  | cons c rest ih =>
    intro e he
    simp only [splitSlash] at he
    by_cases hc : c = 47
    · simp only [hc, if_true, List.mem_cons] at he
      rcases he with he | he
      · subst he
        simp
      · exact ih e he
    · simp only [hc, if_false] at he
      obtain ⟨h, t, ht⟩ := List.exists_cons_of_ne_nil (splitSlash_ne_nil rest)
      rw [ht] at he ih
      simp only [List.mem_cons] at he
      rcases he with he | he
      · subst he
        intro hmem
        rw [List.mem_cons] at hmem
        rcases hmem with hmem | hmem
        · exact hc hmem.symm
        · exact ih h (List.mem_cons_self _ _) hmem
      · exact ih e (List.mem_cons_of_mem _ he)

theorem splitSlash_of_no_slash (a : Str) (h : 47 ∉ a) : splitSlash a = [a] := by
  induction a with
  | nil => rfl
  | cons c rest ih =>
    rw [List.mem_cons, not_or] at h
    have hc : ¬ c = 47 := fun e => h.1 e.symm
    simp only [splitSlash, hc, if_false, ih h.2]

theorem splitSlash_stringsJoin (l : List Str) (hne : l ≠ []) (h : ∀ e ∈ l, 47 ∉ e) :
    splitSlash (stringsJoin l (bytes "/")) = l := by
  induction l with
  | nil => exact absurd rfl hne
  | cons a rest ih =>
    cases rest with
    | nil =>
      simp only [stringsJoin]
      exact splitSlash_of_no_slash a (h a (List.mem_cons_self _ _))
    | cons b rest' =>
      simp only [stringsJoin, bytes_slash, List.append_assoc, List.singleton_append]
      rw [splitSlash_append_slash, splitSlash_of_no_slash a (h a (List.mem_cons_self _ _))]
      have ih' := ih (by simp) (fun e he => h e (List.mem_cons_of_mem _ he))
      rw [bytes_slash] at ih'
      rw [ih']
      rfl

theorem foldl_cleanStep_real (rooted : Bool) (l out : List Str)
    (h : ∀ e ∈ l, e ≠ [] ∧ e ≠ bytes "." ∧ e ≠ bytes "..") :
    l.foldl (cleanStep rooted) out = l.reverse ++ out := by
  induction l generalizing out with
  | nil => rfl
  | cons e rest ih =>
    obtain ⟨h1, h2, h3⟩ := h e (List.mem_cons_self _ _)
    have hstep : cleanStep rooted out e = e :: out := by
      unfold cleanStep
      rw [if_neg (by simp [h1, h2]), if_neg h3]
    simp only [List.foldl_cons, hstep, List.reverse_cons, List.append_assoc,
      List.singleton_append]
    exact ih (e :: out) (fun x hx => h x (List.mem_cons_of_mem _ hx))

theorem foldl_cleanStep_no_slash (rooted : Bool) (l out : List Str)
    (hout : ∀ e ∈ out, 47 ∉ e) (hl : ∀ e ∈ l, 47 ∉ e) :
    ∀ e ∈ l.foldl (cleanStep rooted) out, 47 ∉ e := by
  induction l generalizing out with
  | nil => simpa using hout
  | cons x rest ih =>
    simp only [List.foldl_cons]
    apply ih
    · intro e he
      unfold cleanStep at he
      split at he
      · exact hout e he
      · split at he
        · split at he
          · split at he
            · exact absurd he (List.not_mem_nil _)
            · rw [List.mem_singleton] at he
              subst he
              decide
          · rename_i top rest'
            split at he
            · rw [List.mem_cons] at he
              rcases he with he | he
              · subst he
                decide
              · exact hout e he
            · exact hout e (List.mem_cons_of_mem _ he)
        · rw [List.mem_cons] at he
          rcases he with he | he
          · subst he
            exact hl e (List.mem_cons_self _ _)
          · exact hout e he
    · exact fun e he => hl e (List.mem_cons_of_mem _ he)

theorem stringsJoin_ne_nil (l : List Str) (sep : Str) (h : ∃ e ∈ l, e ≠ []) :
    stringsJoin l sep ≠ [] := by
  obtain ⟨e, he, hne⟩ := h
  cases l with
  | nil => exact absurd he (List.not_mem_nil _)
  | cons a rest =>
    rw [stringsJoin_cons]
    rw [List.mem_cons] at he
    intro hnil
    rw [List.append_eq_nil] at hnil
    rcases he with he | he
    · exact hne (he ▸ hnil.1)
    · have hmem : ∀ x ∈ rest.flatMap (fun n => sep ++ n), False := by
        rw [hnil.2]
        exact fun x hx => absurd hx (List.not_mem_nil _)
      obtain ⟨c, cs, hc⟩ := List.exists_cons_of_ne_nil hne
      refine hmem c ?_
      rw [List.mem_flatMap]
      exact ⟨e, he, by rw [hc]; simp⟩

theorem filepathJoin_body (d n : Str) (hd : d ≠ [])
    (hreal : ∀ e ∈ splitSlash n, e ≠ [] ∧ e ≠ bytes "." ∧ e ≠ bytes "..") :
    filepathJoin d n
      = (if d.head? = some 47 then bytes "/" else []) ++
        stringsJoin (((splitSlash d).foldl
          (cleanStep (decide (d.head? = some 47))) []).reverse ++ splitSlash n) (bytes "/") := by
  obtain ⟨c, cs, hcs⟩ := List.exists_cons_of_ne_nil hd
  have hpath : d ++ bytes "/" ++ n = d ++ 47 :: n := by
    rw [bytes_slash]
    simp
  have hne : d ++ 47 :: n ≠ [] := by
    rw [hcs]
    simp
  have hhead : (d ++ 47 :: n).head? = d.head? := by
    rw [hcs]
    rfl
  unfold filepathJoin
  rw [if_pos hd, hpath]
  unfold filepathClean
  rw [if_neg hne]
  simp only [hhead, splitSlash_append_slash, List.foldl_append]
  rw [foldl_cleanStep_real _ (splitSlash n) _ hreal]
  simp only [List.reverse_append, List.reverse_reverse]
  by_cases hr : d.head? = some 47
  · simp only [hr, decide_True, if_true]
  · simp only [hr, decide_False, Bool.false_eq_true, if_false, List.nil_append]
    have hbody : stringsJoin (((splitSlash d).foldl (cleanStep false) []).reverse ++
        splitSlash n) (bytes "/") ≠ [] := by
      apply stringsJoin_ne_nil
      obtain ⟨e, t, het⟩ := List.exists_cons_of_ne_nil (splitSlash_ne_nil n)
      have hmem : e ∈ splitSlash n := by
        rw [het]
        exact List.mem_cons_self _ _
      exact ⟨e, List.mem_append_right _ hmem, (hreal e hmem).1⟩
    rw [if_neg hbody]

set_option maxRecDepth 100000 in
theorem candidateNames_real :
    ∀ n ∈ candidateNames, ∀ e ∈ splitSlash n, e ≠ [] ∧ e ≠ bytes "." ∧ e ≠ bytes ".." := by
  decide

set_option maxRecDepth 100000 in
theorem candidateNames_split_inj :
    ∀ n ∈ candidateNames, ∀ m ∈ candidateNames, splitSlash n = splitSlash m → n = m := by
  decide

set_option maxRecDepth 100000 in
theorem filepathJoin_empty_inj :
    ∀ n ∈ candidateNames, ∀ m ∈ candidateNames,
      filepathJoin [] n = filepathJoin [] m → n = m := by
  decide

/-- Go's `filepath.Join(d, ·)` sends distinct candidate names of the registry
to distinct paths, for every directory string `d`. -/
theorem filepathJoin_inj_candidates (d : Str) :
    ∀ n ∈ candidateNames, ∀ m ∈ candidateNames,
      filepathJoin d n = filepathJoin d m → n = m := by
  intro n hn m hm h
  by_cases hd : d = []
  · subst hd
    exact filepathJoin_empty_inj n hn m hm h
  · rw [filepathJoin_body d n hd (candidateNames_real n hn),
      filepathJoin_body d m hd (candidateNames_real m hm)] at h
    have hbody := List.append_cancel_left h
    have hslash : ∀ x : Str, ∀ e ∈ ((splitSlash d).foldl
        (cleanStep (decide (d.head? = some 47))) []).reverse ++ splitSlash x, 47 ∉ e := by
      intro x e he
      rw [List.mem_append, List.mem_reverse] at he
      rcases he with he | he
      · exact foldl_cleanStep_no_slash _ (splitSlash d) []
          (fun y hy => absurd hy (List.not_mem_nil _)) (splitSlash_no_slash d) e he
      · exact splitSlash_no_slash x e he
    have hnonempty : ∀ x : Str, ((splitSlash d).foldl
        (cleanStep (decide (d.head? = some 47))) []).reverse ++ splitSlash x ≠ [] := by
      intro x hx
      rw [List.append_eq_nil] at hx
      exact splitSlash_ne_nil x hx.2
    have hsplit := congrArg splitSlash hbody
    rw [splitSlash_stringsJoin _ (hnonempty n) (hslash n),
      splitSlash_stringsJoin _ (hnonempty m) (hslash m)] at hsplit
    exact candidateNames_split_inj n hn m hm (List.append_cancel_left hsplit)

set_option maxRecDepth 100000 in
/-- C20: for every filesystem state and every target directory the Matches
returned by `detectTools` have pairwise distinct paths, and no two of them tie
under the comparison of `formatTable`.  No (kind, name) pair occurs twice
among the candidates of the registry, although `.clinerules`, `.bolt` and
`.replit` are each a file candidate and a directory candidate; a path is
reported at most once because it cannot be a non-directory and a directory at
once.  This holds for Go's `filepath.Join` on Unix and for every join that
sends distinct candidate names to distinct paths. -/
theorem C20_detected_paths_distinct :
    (candidates.map (fun c => c.2)).Nodup ∧
    (∀ n ∈ [bytes ".clinerules", bytes ".bolt", bytes ".replit"],
      (∃ t ∈ tools, n ∈ t.Files) ∧ (∃ t ∈ tools, n ∈ t.Directories)) ∧
    (∀ (join : Str → Str → Str) (fs : Str → FsEntry) (d : Str) (dets : List Detection),
      (∀ n ∈ candidateNames, ∀ m ∈ candidateNames, join d n = join d m → n = m) →
      detectTools join fs d = .ok dets →
      (dets.map (fun m => m.Path)).Nodup ∧
      dets.Pairwise (fun a b => detectionCmp a b ≠ 0)) ∧
    (∀ (fs : Str → FsEntry) (d : Str) (dets : List Detection),
      detectTools filepathJoin fs d = .ok dets →
      (dets.map (fun m => m.Path)).Nodup ∧
      dets.Pairwise (fun a b => detectionCmp a b ≠ 0)) := by
  have hgen : ∀ (join : Str → Str → Str) (fs : Str → FsEntry) (d : Str)
      (dets : List Detection),
      (∀ n ∈ candidateNames, ∀ m ∈ candidateNames, join d n = join d m → n = m) →
      detectTools join fs d = .ok dets →
      (dets.map (fun m => m.Path)).Nodup ∧
      dets.Pairwise (fun a b => detectionCmp a b ≠ 0) := by
    intro join fs d dets hinj hdet
    rw [detectTools_eq] at hdet
    have hd : detectSpec join fs d = dets := by
      injection hdet
    have hnd := detectSpec_paths_nodup join fs d hinj
    rw [hd] at hnd
    refine ⟨hnd, ?_⟩
    have hpw : dets.Pairwise (fun a b => a.Path ≠ b.Path) := by
      have := hnd
      unfold List.Nodup at this
      exact List.pairwise_map.mp this
    exact hpw.imp (fun {a b} hab => detectionCmp_ne_zero a b hab)
  refine ⟨candidates_kind_name_nodup, by decide, hgen, ?_⟩
  intro fs d dets hdet
  exact hgen filepathJoin fs d dets (filepathJoin_inj_candidates d) hdet

/-! ## C16: the encoded document and its decoding -/

set_option maxRecDepth 100000 in
/-- The string encoder and decoder on samples: escapes, a two-byte and a
four-byte character, U+2028, an ill-formed byte, a surrogate pair. -/
theorem jsonString_on_samples :
    jsonString (bytes "a\"b\\c<d>\n\t") = bytes "\"a\\\"b\\\\c\\u003cd\\u003e\\n\\t\"" ∧
    jsonString [1, 127, 195, 169, 240, 159, 152, 128]
      = [34] ++ bytes "\\u0001" ++ [127, 195, 169, 240, 159, 152, 128] ++ [34] ∧
    jsonString [226, 128, 168, 255, 226, 128] = bytes "\"\\u2028\\ufffd\\ufffd\\ufffd\"" ∧
    jsonUnquote (bytes "a\\\"b\\\\c\\u003cd\\u003e\\n\\t\\/\" tail")
      = some (bytes "a\"b\\c<d>\n\t/", bytes " tail") ∧
    jsonUnquote (bytes "\\u2028\\ufffd\\ud83d\\ude00\\ud83dx\"")
      = some ([226, 128, 168, 239, 191, 189, 240, 159, 152, 128, 239, 191, 189, 120], []) ∧
    jsonUnquote (bytes "abc") = none ∧
    toValidUTF8 [97, 255, 195, 169, 195] = [97, 239, 191, 189, 195, 169, 239, 191, 189] ∧
    utf8Valid [97, 195, 169] = true ∧ utf8Valid [97, 255] = false := by
  decide

theorem hexVal_hexDigit : ∀ n < 16, hexVal (hexDigit n) = some n := by
  decide

theorem jsonUnquote_cons_plain (b : Nat) (t : Str) (h1 : b ≠ 34) (h2 : b ≠ 92)
    (h3 : ¬ b < 32) :
    jsonUnquote (b :: t) = (jsonUnquote t).map (fun p => (b :: p.1, p.2)) := by
  unfold jsonUnquote
  rw [jsonUnquoteFrom]
  simp only [h1, h2, h3, if_false]

theorem jsonUnquote_short_escape (e c : Nat) (t : Str) (he : e ≠ 117)
    (hc : unescapeByte e = some c) :
    jsonUnquote (92 :: e :: t) = (jsonUnquote t).map (fun p => (c :: p.1, p.2)) := by
  unfold jsonUnquote
  rw [jsonUnquoteFrom]
  simp only [escapeAt, he, hc, if_false, if_true, show (92 : Nat) ≠ 34 by decide,
    jsonUnquoteFrom, List.singleton_append]

theorem jsonUnquote_hex_escape (h1 h2 h3 h4 cp : Nat) (t : Str)
    (hcp : hex4 h1 h2 h3 h4 = some cp) (hlo : cp < 55296 ∨ 57344 ≤ cp) :
    jsonUnquote (92 :: 117 :: h1 :: h2 :: h3 :: h4 :: t)
      = (jsonUnquote t).map (fun p => (utf8Encode cp ++ p.1, p.2)) := by
  unfold jsonUnquote
  rw [jsonUnquoteFrom]
  have hs1 : ¬ (55296 ≤ cp ∧ cp < 56320) := by omega
  have hs2 : ¬ (56320 ≤ cp ∧ cp < 57344) := by omega
  simp only [escapeAt, hcp, hs1, hs2, if_false, if_true, show (92 : Nat) ≠ 34 by decide,
    jsonUnquoteFrom]

theorem jsonUnquote_escapeByte (b : Nat) (t : Str) (hb : b < 128) :
    jsonUnquote (jsonEscapeByte b ++ t) = (jsonUnquote t).map (fun p => (b :: p.1, p.2)) := by
  unfold jsonEscapeByte
  by_cases h1 : b = 34 ∨ b = 92
  · rw [if_pos h1]
    have he : b ≠ 117 := by omega
    have hc : unescapeByte b = some b := by
      unfold unescapeByte
      rw [if_pos (by omega)]
    exact jsonUnquote_short_escape b b t he hc
  rw [if_neg h1]
  by_cases h2 : b = 8
  · rw [if_pos h2, h2]
    exact jsonUnquote_short_escape 98 8 t (by decide) (by decide)
  rw [if_neg h2]
  by_cases h3 : b = 12
  · rw [if_pos h3, h3]
    exact jsonUnquote_short_escape 102 12 t (by decide) (by decide)
  rw [if_neg h3]
  by_cases h4 : b = 10
  · rw [if_pos h4, h4]
    exact jsonUnquote_short_escape 110 10 t (by decide) (by decide)
  rw [if_neg h4]
  by_cases h5 : b = 13
  · rw [if_pos h5, h5]
    exact jsonUnquote_short_escape 114 13 t (by decide) (by decide)
  rw [if_neg h5]
  by_cases h6 : b = 9
  · rw [if_pos h6, h6]
    exact jsonUnquote_short_escape 116 9 t (by decide) (by decide)
  rw [if_neg h6]
  by_cases h7 : b < 32 ∨ b = 60 ∨ b = 62 ∨ b = 38
  · rw [if_pos h7]
    have hhex : hex4 48 48 (hexDigit (b / 16)) (hexDigit (b % 16)) = some b := by
      unfold hex4
      rw [hexVal_hexDigit (b / 16) (by omega), hexVal_hexDigit (b % 16) (by omega)]
      have h48 : hexVal 48 = some 0 := by decide
      simp only [h48]
      congr 1
      omega
    have := jsonUnquote_hex_escape 48 48 (hexDigit (b / 16)) (hexDigit (b % 16)) b t hhex
      (by omega)
    rw [show utf8Encode b = [b] by unfold utf8Encode; rw [if_pos hb]] at this
    exact this
  · rw [if_neg h7]
    exact jsonUnquote_cons_plain b t (by omega) (by omega) (by omega)

theorem runeSize_two (b c1 : Nat) (r : Str) (h : runeSize b (c1 :: r) = 2) : 128 ≤ c1 := by
  unfold runeSize at h
  simp only at h
  repeat' split at h
  all_goals omega

theorem runeSize_three (b c1 c2 : Nat) (r : Str) (h : runeSize b (c1 :: c2 :: r) = 3) :
    128 ≤ c1 ∧ 128 ≤ c2 := by
  unfold runeSize at h
  simp only at h
  repeat' split at h
  all_goals omega

theorem runeSize_four (b c1 c2 c3 : Nat) (r : Str)
    (h : runeSize b (c1 :: c2 :: c3 :: r) = 4) : 128 ≤ c1 ∧ 128 ≤ c2 ∧ 128 ≤ c3 := by
  unfold runeSize at h
  simp only at h
  repeat' split at h
  all_goals omega

theorem jsonUnquote_hi (b : Nat) (t : Str) (hb : 128 ≤ b) :
    jsonUnquote (b :: t) = (jsonUnquote t).map (fun p => (b :: p.1, p.2)) :=
  jsonUnquote_cons_plain b t (by omega) (by omega) (by omega)

theorem jsonUnquote_ls (c2 : Nat) (t : Str) (hc : c2 = 168 ∨ c2 = 169) :
    jsonUnquote ([92, 117, 50, 48, 50, hexDigit (c2 % 16)] ++ t)
      = (jsonUnquote t).map (fun p => (226 :: 128 :: c2 :: p.1, p.2)) := by
  rcases hc with hc | hc <;> subst hc
  · exact jsonUnquote_hex_escape 50 48 50 56 8232 t (by decide) (by omega)
  · exact jsonUnquote_hex_escape 50 48 50 57 8233 t (by decide) (by omega)

theorem jsonUnquote_replacement (t : Str) :
    jsonUnquote ([92, 117, 102, 102, 102, 100] ++ t)
      = (jsonUnquote t).map (fun p => ([239, 191, 189] ++ p.1, p.2)) :=
  jsonUnquote_hex_escape 102 102 102 100 65533 t (by decide) (by omega)

/-- Decoding what `encoding/json` writes for a string gives the string coerced
to well-formed UTF-8, and stops after the closing quote. -/
theorem jsonUnquote_jsonEscape (s rest : Str) :
    jsonUnquote (jsonEscape s ++ 34 :: rest) = some (toValidUTF8 s, rest) := by
  generalize hn : s.length = n
  induction n using Nat.strong_induction_on generalizing s with
  | _ n ih =>
    cases s with
    | nil => rfl
    | cons b t =>
      by_cases hb : b < 128
      · rw [jsonEscape, toValidUTF8]
        simp only [hb, if_true, List.append_assoc]
        rw [jsonUnquote_escapeByte b _ hb, ih t.length (by rw [← hn]; simp) t rfl]
        rfl
      · rw [jsonEscape, toValidUTF8]
        simp only [hb, if_false]
        have hrep : jsonUnquote (([92, 117, 102, 102, 102, 100] ++ jsonEscape t) ++ 34 :: rest)
            = some ([239, 191, 189] ++ toValidUTF8 t, rest) := by
          rw [List.append_assoc, jsonUnquote_replacement,
            ih t.length (by rw [← hn]; simp) t rfl]
          rfl
        split
        · rename_i c1 r hsz
          have h1 := runeSize_two b c1 r hsz
          simp only [List.cons_append]
          rw [jsonUnquote_hi b _ (by omega), jsonUnquote_hi c1 _ h1,
            ih r.length (by rw [← hn]; simp; omega) r rfl]
          rfl
        · rename_i c1 c2 r hsz
          have h1 := runeSize_three b c1 c2 r hsz
          split
          · rename_i hls
            obtain ⟨hb2, hc1, hc2⟩ := hls
            subst hb2 hc1
            rw [List.append_assoc, jsonUnquote_ls c2 _ hc2,
              ih r.length (by rw [← hn]; simp; omega) r rfl]
            rfl
          · simp only [List.cons_append]
            rw [jsonUnquote_hi b _ (by omega), jsonUnquote_hi c1 _ h1.1,
              jsonUnquote_hi c2 _ h1.2, ih r.length (by rw [← hn]; simp; omega) r rfl]
            rfl
        · rename_i c1 c2 c3 r hsz
          have h1 := runeSize_four b c1 c2 c3 r hsz
          simp only [List.cons_append]
          rw [jsonUnquote_hi b _ (by omega), jsonUnquote_hi c1 _ h1.1,
            jsonUnquote_hi c2 _ h1.2.1, jsonUnquote_hi c3 _ h1.2.2,
            ih r.length (by rw [← hn]; simp; omega) r rfl]
          rfl
        · exact hrep

theorem toValidUTF8_of_valid (s : Str) (h : utf8Valid s = true) : toValidUTF8 s = s := by
  generalize hn : s.length = n
  induction n using Nat.strong_induction_on generalizing s with
  | _ n ih =>
    cases s with
    | nil => rfl
    | cons b t =>
      unfold utf8Valid at h
      unfold toValidUTF8
      by_cases hb : b < 128
      · simp only [hb, if_true] at h ⊢
        rw [ih t.length (by rw [← hn]; simp) t h rfl]
      · simp only [hb, if_false] at h ⊢
        split at h
        · rename_i c1 r hsz
          rw [ih r.length (by rw [← hn]; simp; omega) r h rfl]
        · rename_i c1 c2 r hsz
          rw [ih r.length (by rw [← hn]; simp; omega) r h rfl]
        · rename_i c1 c2 c3 r hsz
          rw [ih r.length (by rw [← hn]; simp; omega) r h rfl]
        · exact absurd h (by simp)

theorem skipSpace_append (w s : Str) (hw : ∀ c ∈ w, isSpace c = true) :
    skipSpace (w ++ s) = skipSpace s := by
  induction w with
  | nil => rfl
  | cons c w ih =>
    simp only [List.cons_append, skipSpace, hw c (List.mem_cons_self _ _), if_true]
    exact ih (fun x hx => hw x (List.mem_cons_of_mem _ hx))

theorem skipSpace_cons (c : Nat) (s : Str) (h : isSpace c = false) :
    skipSpace (c :: s) = c :: s := by
  simp only [skipSpace, h, Bool.false_eq_true, if_false]

theorem indentNewline_space (depth : Nat) : ∀ c ∈ indentNewline depth, isSpace c = true := by
  intro c hc
  unfold indentNewline at hc
  rw [List.mem_cons] at hc
  rcases hc with hc | hc
  · subst hc
    decide
  · rw [List.eq_of_mem_replicate hc]
    decide

theorem parseValue_space (fuel : Nat) (w s : Str) (hw : ∀ c ∈ w, isSpace c = true) :
    parseValue fuel (w ++ s) = parseValue fuel s := by
  cases fuel with
  | zero => simp only [parseValue]
  | succ f => simp only [parseValue, skipSpace_append w s hw]

theorem parseElements_space (fuel : Nat) (w s : Str) (hw : ∀ c ∈ w, isSpace c = true) :
    parseElements fuel (w ++ s) = parseElements fuel s := by
  cases fuel with
  | zero => simp only [parseElements]
  | succ f => simp only [parseElements, parseValue_space f w s hw]

theorem parseMembers_space (fuel : Nat) (w s : Str) (hw : ∀ c ∈ w, isSpace c = true) :
    parseMembers fuel (w ++ s) = parseMembers fuel s := by
  cases fuel with
  | zero => simp only [parseMembers]
  | succ f => simp only [parseMembers, skipSpace_append w s hw]

theorem decodes_string (s : Str) : Decodes (jsonString s) (.str (toValidUTF8 s)) := by
  refine ⟨⟨34, jsonEscape s ++ [34], rfl, by decide, by decide, by decide⟩, ?_⟩
  intro fuel rest hf
  cases fuel with
  | zero => omega
  | succ f =>
    have htext : jsonString s ++ rest = 34 :: (jsonEscape s ++ 34 :: rest) := by
      unfold jsonString
      simp
    rw [htext, parseValue, skipSpace_cons 34 _ (by decide)]
    simp only [if_true, jsonUnquote_jsonEscape, Option.map_some']

theorem decodes_bool (b : Bool) : Decodes (jsonBool b) (.bool b) := by
  cases b with
  | true =>
    refine ⟨⟨116, [114, 117, 101], by decide, by decide, by decide, by decide⟩, ?_⟩
    intro fuel rest hf
    cases fuel with
    | zero => omega
    | succ f =>
      have htext : jsonBool true ++ rest = 116 :: 114 :: 117 :: 101 :: rest := by
        have : jsonBool true = [116, 114, 117, 101] := by decide
        rw [this]
        rfl
      rw [htext, parseValue, skipSpace_cons 116 _ (by decide)]
      have h4 : bytes "true" = [116, 114, 117, 101] := by decide
      simp [h4]
  | false =>
    refine ⟨⟨102, [97, 108, 115, 101], by decide, by decide, by decide, by decide⟩, ?_⟩
    intro fuel rest hf
    cases fuel with
    | zero => omega
    | succ f =>
      have htext : jsonBool false ++ rest = 102 :: 97 :: 108 :: 115 :: 101 :: rest := by
        have : jsonBool false = [102, 97, 108, 115, 101] := by decide
        rw [this]
        rfl
      rw [htext, parseValue, skipSpace_cons 102 _ (by decide)]
      have h4 : bytes "true" = [116, 114, 117, 101] := by decide
      have h5 : bytes "false" = [102, 97, 108, 115, 101] := by decide
      simp [h4, h5]

theorem decodes_null : Decodes (bytes "null") .null := by
  refine ⟨⟨110, [117, 108, 108], by decide, by decide, by decide, by decide⟩, ?_⟩
  intro fuel rest hf
  cases fuel with
  | zero => omega
  | succ f =>
    have htext : bytes "null" ++ rest = 110 :: 117 :: 108 :: 108 :: rest := by
      have : bytes "null" = [110, 117, 108, 108] := by decide
      rw [this]
      rfl
    rw [htext, parseValue, skipSpace_cons 110 _ (by decide)]
    have h4 : bytes "true" = [116, 114, 117, 101] := by decide
    have h5 : bytes "false" = [102, 97, 108, 115, 101] := by decide
    have h6 : bytes "null" = [110, 117, 108, 108] := by decide
    simp [h4, h5, h6]
theorem parseElements_items (w w2 : Str) (hw : ∀ c ∈ w, isSpace c = true)
    (hw2 : ∀ c ∈ w2, isSpace c = true) (ts : List Str) (vs : List JValue)
    (h : List.Forall₂ Decodes ts vs) (hne : ts ≠ []) :
    ∀ fuel rest, 2 * (stringsJoin ts (44 :: w) ++ (w2 ++ 93 :: rest)).length + 2 ≤ fuel →
      parseElements fuel (stringsJoin ts (44 :: w) ++ (w2 ++ 93 :: rest)) = some (vs, rest) := by
  induction h with
  | nil => exact absurd rfl hne
  | @cons t v ts1 vs1 ht hrest ih =>
    intro fuel rest hf
    cases fuel with
    | zero => omega
    | succ f =>
      cases hrest with
      | nil =>
        simp only [stringsJoin] at hf ⊢
        rw [parseElements, ht.2 f (w2 ++ 93 :: rest) (by omega)]
        simp only [skipSpace_append w2 _ hw2, skipSpace_cons 93 _ (by decide)]
        simp
      | @cons t2 v2 ts2 vs2 ht2 hrest2 =>
        have ih1 := ih (List.cons_ne_nil _ _)
        have htext : stringsJoin (t :: t2 :: ts2) (44 :: w) ++ (w2 ++ 93 :: rest)
            = t ++ (44 :: (w ++ (stringsJoin (t2 :: ts2) (44 :: w) ++ (w2 ++ 93 :: rest)))) := by
          simp [stringsJoin]
        rw [htext] at hf ⊢
        rw [parseElements, ht.2 f _ (by omega)]
        simp only [skipSpace_cons 44 _ (by decide), if_true]
        rw [parseElements_space f w _ hw, ih1 f rest]
        · rfl
        · simp only [List.length_append, List.length_cons] at hf ⊢
          omega

theorem decodes_array (depth : Nat) (ts : List Str) (vs : List JValue)
    (h : List.Forall₂ Decodes ts vs) : Decodes (jsonArray depth (some ts)) (.arr vs) := by
  cases h with
  | nil =>
    refine ⟨⟨91, [93], rfl, by decide, by decide, by decide⟩, ?_⟩
    intro fuel rest hf
    cases fuel with
    | zero => omega
    | succ f =>
      have htext : jsonArray depth (some []) ++ rest = 91 :: 93 :: rest := by
        have hb : bytes "[]" = [91, 93] := by decide
        have : jsonArray depth (some []) = bytes "[]" := rfl
        rw [this, hb]
        rfl
      rw [htext, parseValue, skipSpace_cons 91 _ (by decide)]
      simp [skipSpace_cons 93 rest (by decide)]
  | @cons t v ts1 vs1 ht hrest =>
    refine ⟨⟨91, _, rfl, by decide, by decide, by decide⟩, ?_⟩
    intro fuel rest hf
    cases fuel with
    | zero => omega
    | succ f =>
      have htext : jsonArray depth (some (t :: ts1)) ++ rest
          = 91 :: (indentNewline (depth + 1) ++
              (stringsJoin (t :: ts1) (44 :: indentNewline (depth + 1)) ++
                (indentNewline depth ++ 93 :: rest))) := by
        simp [jsonArray]
      rw [htext] at hf ⊢
      obtain ⟨c, r, hcr, hc1, hc2, hc3⟩ := ht.1
      have hhead : ∃ r1, skipSpace (indentNewline (depth + 1) ++
              (stringsJoin (t :: ts1) (44 :: indentNewline (depth + 1)) ++
                (indentNewline depth ++ 93 :: rest))) = c :: r1 := by
        rw [skipSpace_append _ _ (indentNewline_space _), stringsJoin_cons, hcr]
        exact ⟨_, skipSpace_cons c _ hc1⟩
      obtain ⟨r1, hr1⟩ := hhead
      rw [parseValue, skipSpace_cons 91 _ (by decide)]
      simp only [hr1, if_neg hc2, Nat.reduceEqDiff, if_false, if_true]
      rw [parseElements_space f _ _ (indentNewline_space _),
        parseElements_items _ _ (indentNewline_space _) (indentNewline_space _) _ _
          (List.Forall₂.cons ht hrest) (List.cons_ne_nil _ _) f rest]
      · rfl
      · simp only [List.length_append, List.length_cons] at hf ⊢
        omega

theorem parseMembers_items (w w2 : Str) (hw : ∀ c ∈ w, isSpace c = true)
    (hw2 : ∀ c ∈ w2, isSpace c = true) (ms : List (Str × Str)) (vs : List (Str × JValue))
    (h : List.Forall₂ (fun m mv => mv.1 = toValidUTF8 m.1 ∧ Decodes m.2 mv.2) ms vs)
    (hne : ms ≠ []) :
    ∀ fuel rest,
      2 * (stringsJoin (ms.map (fun m => jsonString m.1 ++ bytes ": " ++ m.2)) (44 :: w) ++
        (w2 ++ 125 :: rest)).length + 2 ≤ fuel →
      parseMembers fuel
        (stringsJoin (ms.map (fun m => jsonString m.1 ++ bytes ": " ++ m.2)) (44 :: w) ++
          (w2 ++ 125 :: rest)) = some (vs, rest) := by
  induction h with
  | nil => exact absurd rfl hne
  | @cons m mv ms1 vs1 hm hrest ih =>
    intro fuel rest hf
    have hcolon : bytes ": " = [58, 32] := by decide
    have hsp : ∀ c ∈ [32], isSpace c = true := by decide
    cases fuel with
    | zero => omega
    | succ f =>
      cases hrest with
      | nil =>
        have htext : stringsJoin ([m].map (fun m => jsonString m.1 ++ bytes ": " ++ m.2)) (44 :: w)
            ++ (w2 ++ 125 :: rest)
            = 34 :: (jsonEscape m.1 ++ 34 :: 58 :: ([32] ++ (m.2 ++ (w2 ++ 125 :: rest)))) := by
          simp [stringsJoin, jsonString, hcolon]
        rw [htext] at hf ⊢
        rw [parseMembers, skipSpace_cons 34 _ (by decide)]
        simp only [if_true, jsonUnquote_jsonEscape, skipSpace_cons 58 _ (by decide)]
        rw [parseValue_space f _ _ hsp, hm.2.2 f _ (by
          simp only [List.length_append, List.length_cons] at hf ⊢
          omega)]
        simp only [skipSpace_append w2 _ hw2, skipSpace_cons 125 _ (by decide)]
        simp [← hm.1]
      | @cons m2 mv2 ms2 vs2 hm2 hrest2 =>
        have ih1 := ih (List.cons_ne_nil _ _)
        have htext : stringsJoin ((m :: m2 :: ms2).map
              (fun m => jsonString m.1 ++ bytes ": " ++ m.2)) (44 :: w) ++ (w2 ++ 125 :: rest)
            = 34 :: (jsonEscape m.1 ++ 34 :: 58 :: ([32] ++ (m.2 ++ (44 :: (w ++
                (stringsJoin ((m2 :: ms2).map (fun m => jsonString m.1 ++ bytes ": " ++ m.2))
                  (44 :: w) ++ (w2 ++ 125 :: rest))))))) := by
          simp [stringsJoin, jsonString, hcolon]
        rw [htext] at hf ⊢
        rw [parseMembers, skipSpace_cons 34 _ (by decide)]
        simp only [if_true, jsonUnquote_jsonEscape, skipSpace_cons 58 _ (by decide)]
        rw [parseValue_space f _ _ hsp, hm.2.2 f _ (by
          simp only [List.length_append, List.length_cons] at hf ⊢
          omega)]
        simp only [skipSpace_cons 44 _ (by decide), if_true]
        rw [parseMembers_space f w _ hw, ih1 f rest]
        · simp [← hm.1]
        · simp only [List.length_append, List.length_cons] at hf ⊢
          omega

theorem decodes_object (depth : Nat) (ms : List (Str × Str)) (vs : List (Str × JValue))
    (h : List.Forall₂ (fun m mv => mv.1 = toValidUTF8 m.1 ∧ Decodes m.2 mv.2) ms vs) :
    Decodes (jsonObject depth ms) (.obj vs) := by
  cases h with
  | nil =>
    refine ⟨⟨123, [125], rfl, by decide, by decide, by decide⟩, ?_⟩
    intro fuel rest hf
    cases fuel with
    | zero => omega
    | succ f =>
      have htext : jsonObject depth [] ++ rest = 123 :: 125 :: rest := by
        have hb : bytes "{}" = [123, 125] := by decide
        have : jsonObject depth [] = bytes "{}" := rfl
        rw [this, hb]
        rfl
      rw [htext, parseValue, skipSpace_cons 123 _ (by decide)]
      simp [skipSpace_cons 125 rest (by decide)]
  | @cons m mv ms1 vs1 hm hrest =>
    refine ⟨⟨123, _, rfl, by decide, by decide, by decide⟩, ?_⟩
    intro fuel rest hf
    cases fuel with
    | zero => omega
    | succ f =>
      have htext : jsonObject depth (m :: ms1) ++ rest
          = 123 :: (indentNewline (depth + 1) ++
              (stringsJoin ((m :: ms1).map (fun m => jsonString m.1 ++ bytes ": " ++ m.2))
                (44 :: indentNewline (depth + 1)) ++
                (indentNewline depth ++ 125 :: rest))) := by
        simp [jsonObject]
      rw [htext] at hf ⊢
      have hhead : ∃ r1, skipSpace (indentNewline (depth + 1) ++
              (stringsJoin ((m :: ms1).map (fun m => jsonString m.1 ++ bytes ": " ++ m.2))
                (44 :: indentNewline (depth + 1)) ++
                (indentNewline depth ++ 125 :: rest))) = 34 :: r1 := by
        rw [skipSpace_append _ _ (indentNewline_space _), List.map_cons, stringsJoin_cons]
        exact ⟨_, skipSpace_cons 34 _ (by decide)⟩
      obtain ⟨r1, hr1⟩ := hhead
      rw [parseValue, skipSpace_cons 123 _ (by decide)]
      simp only [hr1, Nat.reduceEqDiff, if_false, if_true]
      rw [parseMembers_space f _ _ (indentNewline_space _),
        parseMembers_items _ _ (indentNewline_space _) (indentNewline_space _) _ _
          (List.Forall₂.cons hm hrest) (List.cons_ne_nil _ _) f rest]
      · rfl
      · simp only [List.length_append, List.length_cons] at hf ⊢
        omega

theorem forall₂_decodes_map {α : Type} (f : α → Str) (g : α → JValue) (l : List α)
    (h : ∀ x, Decodes (f x) (g x)) : List.Forall₂ Decodes (l.map f) (l.map g) := by
  induction l with
  | nil => exact List.Forall₂.nil
  | cons x xs ih => exact List.Forall₂.cons (h x) ih

theorem decodes_slice {α : Type} (depth : Nat) (f : α → Str) (g : α → JValue)
    (h : ∀ x, Decodes (f x) (g x)) (items : Option (List α)) :
    Decodes (jsonArray depth (items.map (List.map f))) (sliceJValue (items.map (List.map g))) := by
  cases items with
  | none => exact decodes_null
  | some l => exact decodes_array depth _ _ (forall₂_decodes_map f g l h)

theorem decodes_pathData (depth : Nat) (p : JSONPathData) :
    Decodes (marshalPathData depth p) (pathJValue p) :=
  decodes_object depth _ _
    (List.Forall₂.cons ⟨rfl, decodes_string _⟩
      (List.Forall₂.cons ⟨rfl, decodes_string _⟩ List.Forall₂.nil))

theorem decodes_toolData (depth : Nat) (t : JSONToolData) :
    Decodes (marshalToolData depth t) (toolJValue t) :=
  decodes_object depth _ _
    (List.Forall₂.cons ⟨rfl, decodes_string _⟩
      (List.Forall₂.cons ⟨rfl, decodes_string _⟩
        (List.Forall₂.cons ⟨rfl, decodes_string _⟩
          (List.Forall₂.cons ⟨rfl, decodes_slice _ _ _ (decodes_pathData _) _⟩
            List.Forall₂.nil))))

theorem decodes_output (output : JSONOutput) :
    Decodes (marshalIndentGo output).1 (outputJValue output) :=
  decodes_object 0 _ _
    (List.Forall₂.cons ⟨rfl, decodes_string _⟩
      (List.Forall₂.cons ⟨rfl, decodes_bool _⟩
        (List.Forall₂.cons ⟨rfl, decodes_slice _ _ _ (decodes_toolData _) _⟩
          List.Forall₂.nil)))

theorem jsonDecode_marshalIndentGo (output : JSONOutput) :
    jsonDecode (marshalIndentGo output).1 = some (outputJValue output) := by
  have h := (decodes_output output).2 (2 * (marshalIndentGo output).1.length + 1) []
    (by rw [List.append_nil])
  rw [List.append_nil] at h
  unfold jsonDecode
  rw [h]
  rfl

theorem decodedDirectory_outputJValue (output : JSONOutput) :
    decodedDirectory (outputJValue output) = some (toValidUTF8 output.Directory) := rfl

theorem decodedDetected_outputJValue (output : JSONOutput) :
    decodedDetected (outputJValue output) = some output.Detected := rfl

theorem mapM_stringField_name (ts : List JSONToolData) :
    (ts.map toolJValue).mapM (fun t => t.stringField (bytes "name"))
      = some (ts.map (fun t => toValidUTF8 t.Name)) := by
  induction ts with
  | nil => rfl
  | cons t ts ih =>
    have ht : (toolJValue t).stringField (bytes "name") = some (toValidUTF8 t.Name) := rfl
    simp only [List.map_cons, List.mapM_cons, ht, ih]
    rfl

theorem decodedToolNames_outputJValue (output : JSONOutput) (ts : List JSONToolData)
    (h : output.Tools = some ts) :
    decodedToolNames (outputJValue output) = some (ts.map (fun t => toValidUTF8 t.Name)) := by
  have hf : (outputJValue output).field (bytes "tools") = some (.arr (ts.map toolJValue)) := by
    unfold outputJValue
    rw [h]
    rfl
  unfold decodedToolNames
  rw [hf]
  exact mapM_stringField_name ts
theorem jsonDecode_formatJSON (rel : Str → Str → Str × Bool) (dets : List Detection)
    (directory : Str) :
    ∃ (output : JSONOutput) (ts : List JSONToolData) (text : Str) (v : JValue),
      formatJSONOutput rel dets directory = some output ∧
      output.Tools = some ts ∧
      ts.map (fun t => t.Name) = slicesSort (groupByTool dets).2 ∧
      formatJSON marshalIndentGo rel dets directory = some text ∧
      jsonDecode text = some v ∧
      decodedDirectory v = some (toValidUTF8 directory) ∧
      decodedDetected v = some (decide (dets.length > 0)) ∧
      decodedToolNames v = some (ts.map (fun t => toValidUTF8 t.Name)) := by
  obtain ⟨output, ho, hd, hdet, htl⟩ : ∃ output : JSONOutput,
      formatJSONOutput rel dets directory = some output ∧
      output.Directory = directory ∧
      output.Detected = decide (dets.length > 0) ∧
      output.Tools = some ((slicesSort (groupByTool dets).2).map
        (fun n => jsonToolSpec rel directory n (matchesOf dets n))) :=
    ⟨_, formatJSONOutput_eq rel dets directory, rfl, rfl, rfl⟩
  refine ⟨output, _, (marshalIndentGo output).1, outputJValue output, ho, htl, ?_, ?_,
    jsonDecode_marshalIndentGo output, ?_, ?_, decodedToolNames_outputJValue output _ htl⟩
  · rw [List.map_map]
    exact List.map_id _
  · unfold formatJSON
    rw [ho]
    rfl
  · rw [decodedDirectory_outputJValue, hd]
  · rw [decodedDetected_outputJValue, hdet]

set_option maxRecDepth 1000000 in
theorem formatJSON_on_samples :
    formatJSON marshalIndentGo relUnix aiderDetections (bytes "/proj") = some (bytes
      ("\x7b\n" ++
       "  \"directory\": \"/proj\",\n" ++
       "  \"detected\": true,\n" ++
       "  \"tools\": [\n" ++
       "    \x7b\n" ++
       "      \"name\": \"Aider\",\n" ++
       "      \"description\": \"AI pair programming in your terminal\",\n" ++
       "      \"url\": \"https://aider.chat\",\n" ++
       "      \"paths\": [\n" ++
       "        \x7b\n" ++
       "          \"path\": \".aider.conf.yml\",\n" ++
       "          \"type\": \"file\"\n" ++
       "        \x7d,\n" ++
       "        \x7b\n" ++
       "          \"path\": \".aider\",\n" ++
       "          \"type\": \"directory\"\n" ++
       "        \x7d\n" ++
       "      ]\n" ++
       "    \x7d,\n" ++
       "    \x7b\n" ++
       "      \"name\": \"Claude Code\",\n" ++
       "      \"description\": \"Anthropic's CLI for Claude\",\n" ++
       "      \"url\": \"https://claude.ai/code\",\n" ++
       "      \"paths\": [\n" ++
       "        \x7b\n" ++
       "          \"path\": \"CLAUDE.md\",\n" ++
       "          \"type\": \"file\"\n" ++
       "        \x7d\n" ++
       "      ]\n" ++
       "    \x7d\n" ++
       "  ]\n" ++
       "\x7d")) ∧
    (jsonDecode (bytes "\x7b\"a\": [1, -2.5e+3, true, null], \"b\": \x7b\x7d \x7d")).isSome = true ∧
    (jsonDecode (bytes "\x7b\"a\": [1, 02]\x7d")).isSome = false ∧
    (jsonDecode (bytes "[] x")).isSome = false := by
  decide

set_option maxRecDepth 1000000 in
/-- C16, as stated, fails for a directory string that is not well-formed UTF-8.
For the empty ResultSet and the directory of the two bytes 47 and 255,
`formatJSON` writes the directory as a slash and the escape of U+FFFD; the
document is valid JSON, and decoding it gives the bytes 47, 239, 191, 189, not
the directory passed in. -/
theorem C16_counterexample :
    utf8Valid illFormedDirectory = false ∧
    formatJSON marshalIndentGo relUnix [] illFormedDirectory = some (bytes
      ("\x7b\n" ++
       "  \"directory\": \"/\\ufffd\",\n" ++
       "  \"detected\": false,\n" ++
       "  \"tools\": []\n" ++
       "\x7d")) ∧
    ((formatJSON marshalIndentGo relUnix [] illFormedDirectory).bind jsonDecode).bind
      decodedDirectory = some [47, 239, 191, 189] ∧
    ((formatJSON marshalIndentGo relUnix [] illFormedDirectory).bind jsonDecode).bind
      decodedDirectory ≠ some illFormedDirectory := by
  decide

/-- C16, amended: for every ResultSet and every directory string, `formatJSON`
returns a text that the JSON decoder accepts as one value with nothing after
it; decoding gives a `detected` equal to (ResultSet non-empty), a `directory`
equal to the directory passed in with every byte that is not part of a
well-formed UTF-8 encoding replaced by U+FFFD, and as names of `tools` the
names of the encoded document (the sorted group keys) with the same
replacement.  So for a directory that is well-formed UTF-8 the decoded
`directory` is the directory passed in, and for a ResultSet whose tool names
are well-formed UTF-8 the decoded names are exactly the encoded names. -/
theorem C16_json_round_trip_utf8 (rel : Str → Str → Str × Bool) (dets : List Detection)
    (directory : Str) :
    ∃ (output : JSONOutput) (ts : List JSONToolData) (text : Str) (v : JValue),
      formatJSONOutput rel dets directory = some output ∧
      output.Tools = some ts ∧
      ts.map (fun t => t.Name) = slicesSort (groupByTool dets).2 ∧
      formatJSON marshalIndentGo rel dets directory = some text ∧
      jsonDecode text = some v ∧
      decodedDirectory v = some (toValidUTF8 directory) ∧
      decodedDetected v = some (decide (dets.length > 0)) ∧
      decodedToolNames v = some (ts.map (fun t => toValidUTF8 t.Name)) ∧
      (utf8Valid directory = true → decodedDirectory v = some directory) ∧
      ((∀ d ∈ dets, utf8Valid d.Tool.Name = true) →
        decodedToolNames v = some (ts.map (fun t => t.Name))) := by
  obtain ⟨output, ts, text, v, ho, hts, hnames, htext, hv, hdir, hdet, htools⟩ :=
    jsonDecode_formatJSON rel dets directory
  refine ⟨output, ts, text, v, ho, hts, hnames, htext, hv, hdir, hdet, htools, ?_, ?_⟩
  · intro hvalid
    rw [hdir, toValidUTF8_of_valid directory hvalid]
  · intro hvalid
    rw [htools]
    congr 1
    apply List.map_congr_left
    intro t ht
    have hmem : t.Name ∈ slicesSort (groupByTool dets).2 := by
      rw [← hnames]
      exact List.mem_map_of_mem (fun t => t.Name) ht
    obtain ⟨d, hd, hdn⟩ := ((sortedKeys_spec dets).2 t.Name).mp hmem
    exact toValidUTF8_of_valid _ (hdn ▸ hvalid d hd)

set_option maxRecDepth 1000000 in
/-- C16, amended, on the scan of `/proj` with the Aider and Claude Code
matches: the directory and the tool names are well-formed UTF-8, and decoding
the document gives back `/proj`, `true`, and the names Aider and Claude
Code. -/
theorem C16_json_round_trip_utf8_witness :
    utf8Valid (bytes "/proj") = true ∧
    (∀ d ∈ aiderDetections, utf8Valid d.Tool.Name = true) ∧
    ∃ (text : Str) (v : JValue),
      formatJSON marshalIndentGo relUnix aiderDetections (bytes "/proj") = some text ∧
      jsonDecode text = some v ∧
      decodedDirectory v = some (bytes "/proj") ∧
      decodedDetected v = some true ∧
      decodedToolNames v = some [bytes "Aider", bytes "Claude Code"] := by
  have hdirv : utf8Valid (bytes "/proj") = true := by decide
  have hnamesv : ∀ d ∈ aiderDetections, utf8Valid d.Tool.Name = true := by decide
  have hkeys : slicesSort (groupByTool aiderDetections).2
      = [bytes "Aider", bytes "Claude Code"] := by decide
  obtain ⟨output, ts, text, v, _, _, hnames, htext, hv, _, hdet, _, hdir, htools⟩ :=
    C16_json_round_trip_utf8 relUnix aiderDetections (bytes "/proj")
  refine ⟨hdirv, hnamesv, text, v, htext, hv, hdir hdirv, hdet, ?_⟩
  rw [htools hnamesv, hnames, hkeys]

/-! ## Relativization on the matches of a scan -/

theorem filepathClean_rooted (p : Str) (h : p.head? = some 47) :
    (filepathClean p).head? = some 47 := by
  unfold filepathClean
  have hne : p ≠ [] := by
    intro hp
    rw [hp] at h
    exact absurd h (by simp)
  rw [if_neg hne]
  simp only [h, decide_True, if_true]
  rfl

theorem filepathJoin_rooted (d n : Str) (h : d.head? = some 47) :
    (filepathJoin d n).head? = some 47 := by
  obtain ⟨c, cs, hcs⟩ : ∃ c cs, d = c :: cs := by
    cases d with
    | nil => exact absurd h (by simp)
    | cons c cs => exact ⟨c, cs, rfl⟩
  unfold filepathJoin
  rw [if_pos (by rw [hcs]; exact List.cons_ne_nil _ _)]
  apply filepathClean_rooted
  rw [hcs] at h ⊢
  exact h

/-- Relativization does not fail on a path that was joined to an absolute
directory. -/
theorem relUnix_filepathJoin (d n : Str) (h : d.head? = some 47) :
    (relUnix d (filepathJoin d n)).2 = false := by
  unfold relUnix
  split
  · rfl
  · rw [h, filepathJoin_rooted d n h]
    rfl

/-- On every match of a scan of an absolute directory relativization
succeeds, so each renderer shows the path that `filepath.Rel` returned without
an error. -/
theorem scan_rel_succeeds (fs : Str → FsEntry) (d : Str) (h : d.head? = some 47) :
    ∀ m ∈ detectSpec filepathJoin fs d, (relUnix d m.Path).2 = false ∧
      pathClaimed relUnix d m = (relUnix d m.Path).1 := by
  intro m hm
  rw [detectSpec_eq_candidates, List.mem_map] at hm
  obtain ⟨c, _, hc⟩ := hm
  have hpath : m.Path = filepathJoin d c.2.2 := by
    rw [← hc]
  have hok : (relUnix d m.Path).2 = false := by
    rw [hpath]
    exact relUnix_filepathJoin d _ h
  refine ⟨hok, ?_⟩
  unfold pathClaimed
  rw [hok]
  rfl

/-- The scan of `/proj` on `aiderFs`: relativization succeeds on each of its
matches. -/
theorem scan_rel_succeeds_on_aiderFs :
    ∀ m ∈ detectSpec filepathJoin aiderFs (bytes "/proj"),
      (relUnix (bytes "/proj") m.Path).2 = false ∧
      pathClaimed relUnix (bytes "/proj") m = (relUnix (bytes "/proj") m.Path).1 :=
  scan_rel_succeeds aiderFs (bytes "/proj") (by decide)

/-! ## C14: the name column on the names a ResultSet can hold -/

end Vibedetector
